import Mathlib

/-!
Verification of the multi-algorithm TSP solving engine of the
route-wise-explorer repository.

The definitions below are a shallow embedding of `src/utils/algorithms.ts`
(the solver suite used by the main `runSimulation` entry point), of the
dispatcher logic of `runSimulation`, and of `buildTSPPath` from the
Gemini-route module.  JavaScript numbers are modelled as `ℚ`;
`Infinity` sentinels are modelled as `Option ℚ` with `none` standing for
`Infinity`; `Math.random()` draws are modelled as explicit `ℚ` inputs.
JavaScript `Record` key sets (which are duplicate-free and iterated in
insertion order) are modelled as lists of ids.
-/

namespace RouteWise

/-- Edge record of a `RouteGraph` (`from`, `to`, `distance`, `time` as in
`src/types/index.ts`; the unused `trafficFactor` field is omitted). -/
structure RouteEdge where
  from_ : String
  to_ : String
  distance : ℚ
  time : ℚ
deriving DecidableEq, Repr

/-- Graph consumed by the solvers: the node id list stands for
`Object.keys(graph.nodes)` (insertion order), plus the edge list. -/
structure RouteGraph where
  nodes : List String
  edges : List RouteEdge
deriving DecidableEq, Repr

/-- The `Algorithm` union type of `src/types/index.ts`. -/
inductive Algorithm where
  | nearestNeighbor
  | bruteForce
  | dynamicProgramming
  | branchAndBound
deriving DecidableEq, Repr

/-- The fields of `SimulationParams` used by the solving engine
(`mapType` is replaced by passing the built graph explicitly, since
`getRouteGraph` is a separate input-construction step). -/
structure SimulationParams where
  algorithm : Algorithm
  weather : String
  timeOfDay : String
  startLocation : String
  vehicle : String
  selectedCities : List String
deriving DecidableEq, Repr

/-- The metrics record of `SimulationResult`. -/
structure Metrics where
  distance : ℚ
  time : ℚ
  cost : ℚ
  fuel : ℚ
  trafficImpact : ℚ
  weatherImpact : ℚ
  totalScore : ℚ
deriving DecidableEq, Repr

/-- The result record returned by `runSimulation`. -/
structure SimulationResult where
  algorithm : Algorithm
  path : List String
  metrics : Metrics
deriving DecidableEq, Repr

/-- Metrics before `totalScore` is attached (`calculatePathMetrics` output). -/
structure BaseMetrics where
  distance : ℚ
  time : ℚ
  cost : ℚ
  fuel : ℚ
  trafficImpact : ℚ
  weatherImpact : ℚ
deriving DecidableEq, Repr

/-- Vehicle profile returned by `getVehicleEfficiency`. -/
structure VehicleInfo where
  speedFactor : ℚ
  fuelRate : ℚ
  costPerKm : ℚ
deriving DecidableEq, Repr

/-- Embeds `graph.edges.find(e => e.from === a && e.to === b)`. -/
def findEdge (g : RouteGraph) (a b : String) : Option RouteEdge :=
  g.edges.find? (fun e => e.from_ == a && e.to_ == b)

/-- One step of the inner scan of `nearestNeighborTSP`: an edge from
`current` to an unvisited node replaces the candidate when its distance
beats the current best (`none` stands for `nearestDistance = Infinity`). -/
def findNearestStep (current : String) (visited : List String)
    (acc : String × Option ℚ) (e : RouteEdge) : String × Option ℚ :=
  if e.from_ = current ∧ ¬ visited.contains e.to_ then
    match acc.2 with
    | none => (e.to_, some e.distance)
    | some d => if e.distance < d then (e.to_, some e.distance) else acc
  else acc

/-- Embeds the inner scan of `nearestNeighborTSP`: over all edges, keep the
unvisited successor of `current` with the smallest distance (`''` and
`none` stand for the initial `nearestNode = ''`, `nearestDistance =
Infinity`). -/
def findNearest (edges : List RouteEdge) (current : String) (visited : List String) :
    String × Option ℚ :=
  edges.foldl (findNearestStep current visited) ("", none)

/-- Embeds the `while (visited.size < allNodes.length)` loop of
`nearestNeighborTSP`.  The visited set is a list; on every reachable state
the appended node is unvisited, so consing is exactly `Set.add` and the
list length is the set size.  Every iteration makes the visited list one
longer, so the loop performs at most `g.nodes.length` iterations on any
input; the structural fuel argument is chosen larger than that, making
this function extensionally equal to the unfueled loop. -/
def nnLoop (g : RouteGraph) :
    ℕ → List String → List String → String → List String × List String
  | 0, visited, path, _ => (visited, path)
  | fuel + 1, visited, path, current =>
    if visited.length < g.nodes.length then
      let nd := findNearest g.edges current visited
      if nd.1 = "" then (visited, path)
      else nnLoop g fuel (nd.1 :: visited) (path ++ [nd.1]) nd.1
    else (visited, path)

/-- Embeds `nearestNeighborTSP` of `src/utils/algorithms.ts`. -/
def nearestNeighborTSP (g : RouteGraph) (start : String) : List String :=
  let r := nnLoop g (g.nodes.length + 1) [start] [start] start
  if r.1.length = g.nodes.length then r.2 ++ [start] else r.2

/-- Embeds `arr.slice(0, i).concat(arr.slice(i + 1))`. -/
def removeAt (l : List String) (i : ℕ) : List String :=
  l.take i ++ l.drop (i + 1)

/-- Embeds the recursive `permute` helper of `bruteForceTSP`; the fuel
argument matches the strict decrease of the list length at each recursive
call (`removeAt` drops one element), so `permuteF arr.length arr` is the
source's `permute arr`. -/
def permuteF : ℕ → List String → List (List String)
  | 0, arr => [arr]
  | fuel + 1, arr =>
    if arr.length ≤ 1 then [arr]
    else
      (List.range arr.length).flatMap
        (fun i => (permuteF fuel (removeAt arr i)).map (fun p => arr.getD i "" :: p))

/-- Embeds `permute` (wrapper fixing the fuel). -/
def permute (arr : List String) : List (List String) :=
  permuteF arr.length arr

/-- Total distance of a path through consecutive `findEdge` lookups;
`none` models the `validPath = false` case (a missing edge). -/
def pathDistance? (g : RouteGraph) : List String → Option ℚ
  | a :: b :: rest =>
    match findEdge g a b, pathDistance? g (b :: rest) with
    | some e, some d => some (e.distance + d)
    | _, _ => none
  | _ => some 0

/-- One candidate comparison of `bruteForceTSP`: skip invalid paths, keep
the strictly best distance (earlier permutation wins ties). -/
def bfStep (g : RouteGraph) (start : String) (acc : List String × Option ℚ)
    (perm : List String) : List String × Option ℚ :=
  let fullPath := start :: (perm ++ [start])
  match pathDistance? g fullPath with
  | none => acc
  | some d =>
    match acc.2 with
    | none => (fullPath, some d)
    | some bd => if d < bd then (fullPath, some d) else acc

/-- Embeds the best-permutation fold of `bruteForceTSP` (`bestPath = []`,
`bestDistance = Infinity` initially). -/
def bfFold (g : RouteGraph) (start : String) (perms : List (List String)) :
    List String × Option ℚ :=
  perms.foldl (bfStep g start) ([], none)

/-- Comparison on optional costs where `none` stands for `Infinity`. -/
def optLE : Option ℚ → Option ℚ → Prop
  | _, none => True
  | none, some _ => False
  | some x, some y => x ≤ y

/-- Embeds `bruteForceTSP` of `src/utils/algorithms.ts`. -/
def bruteForceTSP (g : RouteGraph) (start : String) : List String :=
  let otherNodes := g.nodes.filter (fun x => x != start)
  if otherNodes.length > 8 then nearestNeighborTSP g start
  else
    let best := bfFold g start (permute otherNodes)
    if 0 < best.1.length then best.1 else nearestNeighborTSP g start

/-- Embeds the `nodeToIndex` table of `dynamicProgrammingTSP`
(`allNodes.forEach((node, i) => nodeToIndex[node] = i)`; a later
assignment overwrites an earlier one). -/
def nodeToIndex (nodes : List String) (s : String) : Option ℕ :=
  nodes.enum.foldl (fun acc p => if p.2 = s then some p.1 else acc) none

/-- One edge's write into the dense `dist` matrix (skipped when either
endpoint has no index, mirroring the `!== undefined` guard). -/
def distStep (nodes : List String) (dist : ℕ → ℕ → Option ℚ) (e : RouteEdge) :
    ℕ → ℕ → Option ℚ :=
  match nodeToIndex nodes e.from_, nodeToIndex nodes e.to_ with
  | some i, some j => fun a b => if a = i ∧ b = j then some e.distance else dist a b
  | _, _ => dist

/-- Embeds the dense `dist` matrix of `dynamicProgrammingTSP`: every cell
starts at `Infinity` (`none`) and each edge writes its distance (later
edges overwrite earlier ones). -/
def distMatrix (g : RouteGraph) : ℕ → ℕ → Option ℚ :=
  g.edges.foldl (distStep g.nodes) (fun _ _ => none)

/-- Association-list lookup, modelling `obj[key]` on a JS dictionary. -/
def alistGet {β : Type} (l : List (ℕ × β)) (k : ℕ) : Option β :=
  (l.find? (fun p => p.1 == k)).map (fun p => p.2)

/-- Association-list update, modelling `obj[key] = v` (the new binding
shadows any older one). -/
def alistSet {β : Type} (l : List (ℕ × β)) (k : ℕ) (v : β) : List (ℕ × β) :=
  (k, v) :: l

/-- The `dp` and `parent` dictionaries of `dynamicProgrammingTSP`, both
keyed by bitmask and then by node index. -/
structure DPState where
  dp : List (ℕ × List (ℕ × ℚ))
  parent : List (ℕ × List (ℕ × ℕ))

/-- Reads `dp[mask][u]`. -/
def dpGet (st : DPState) (mask u : ℕ) : Option ℚ :=
  (alistGet st.dp mask).bind (fun inner => alistGet inner u)

/-- Reads `parent[mask][u]`. -/
def pGet (st : DPState) (mask u : ℕ) : Option ℕ :=
  (alistGet st.parent mask).bind (fun inner => alistGet inner u)

/-- Writes `dp[mask][v] = c` and `parent[mask][v] = u` (the source always
updates the two dictionaries together). -/
def dpSet (st : DPState) (mask v : ℕ) (c : ℚ) (u : ℕ) : DPState :=
  ⟨alistSet st.dp mask (alistSet ((alistGet st.dp mask).getD []) v c),
   alistSet st.parent mask (alistSet ((alistGet st.parent mask).getD []) v u)⟩

/-- One relaxation of the DP fill: for `v` outside the mask with a finite
`dist[u][v]`, update `dp[mask | 1 << v][v]` when `dp[mask][u] + dist[u][v]`
improves it (recording the parent `u`). -/
def dpRelaxStep (dist : ℕ → ℕ → Option ℚ) (mask u : ℕ) (c : ℚ)
    (st' : DPState) (v : ℕ) : DPState :=
  if mask.testBit v then st'
  else
    match dist u v with
    | none => st'
    | some d =>
      let newMask := mask ||| (1 <<< v)
      let newCost := c + d
      match dpGet st' newMask v with
      | none => dpSet st' newMask v newCost u
      | some old => if newCost < old then dpSet st' newMask v newCost u else st'

/-- Embeds the inner `v` loop of the DP fill for a fixed `mask` and `u`
with `dp[mask][u] = c`. -/
def dpRelaxFrom (dist : ℕ → ℕ → Option ℚ) (n mask u : ℕ) (c : ℚ) (st : DPState) : DPState :=
  (List.range n).foldl (dpRelaxStep dist mask u c) st

/-- Pointwise comparison between DP cost tables: every cell of the first
is at most the corresponding cell of the second (`none` = `Infinity`). -/
def DPLe (st' st : DPState) : Prop :=
  ∀ μ v, optLE (dpGet st' μ v) (dpGet st μ v)

/-- Invariant of the DP tables after the masks `1 .. m` have been
processed (with start index `sIdx`, `n` nodes): the start cell holds 0
with no parent; every cost entry sits at an in-range mask containing its
end node and the start bit; the only entries ending at the start node are
the initial one; every non-initial cost entry has a parent; and every
parent entry `parent[μ][v] = u` is consistent: it was written together
with `dp[μ][v] = dp[μ \ v][u] + dist u v` from an already-processed
predecessor mask. -/
def DPInv (dist : ℕ → ℕ → Option ℚ) (n sIdx m : ℕ) (st : DPState) : Prop :=
  dpGet st (1 <<< sIdx) sIdx = some 0 ∧
  (∀ v, pGet st (1 <<< sIdx) v = none) ∧
  (∀ μ v c, dpGet st μ v = some c →
    μ.testBit v = true ∧ μ.testBit sIdx = true ∧ v < n ∧ μ < 2 ^ n) ∧
  (∀ μ c, dpGet st μ sIdx = some c → μ = 1 <<< sIdx ∧ c = 0) ∧
  (∀ μ v, μ ≠ 1 <<< sIdx → (dpGet st μ v).isSome = true → (pGet st μ v).isSome = true) ∧
  (∀ μ v u, pGet st μ v = some u →
    μ.testBit v = true ∧ v < n ∧ u ≠ v ∧
      (μ ^^^ (1 <<< v)).testBit u = true ∧ u < n ∧ (μ ^^^ (1 <<< v)) ≤ m ∧
      ∃ c' d, dpGet st (μ ^^^ (1 <<< v)) u = some c' ∧ dist u v = some d ∧
        dpGet st μ v = some (c' + d))

/-- Embeds the `u` loop of the DP fill: skip `u` outside the mask or
without a `dp` entry (the source reads `dp[mask][u]` once per `u`; the
entries of the mask being processed are never written during its own
processing, so the snapshot is exact). -/
def dpProcessU (dist : ℕ → ℕ → Option ℚ) (n mask : ℕ) (st : DPState) (u : ℕ) : DPState :=
  if mask.testBit u then
    match dpGet st mask u with
    | none => st
    | some c => dpRelaxFrom dist n mask u c st
  else st

/-- Embeds one iteration of the outer `mask` loop
(`if (!dp[mask]) continue`, then the `u` loop). -/
def dpProcessMask (dist : ℕ → ℕ → Option ℚ) (n : ℕ) (st : DPState) (mask : ℕ) : DPState :=
  match alistGet st.dp mask with
  | none => st
  | some _ => (List.range n).foldl (dpProcessU dist n mask) st

/-- Runs the full DP fill: `dp[1 << startIndex][startIndex] = 0`, then the
mask loop over `1 .. 2^n - 1`. -/
def heldKarpTable (dist : ℕ → ℕ → Option ℚ) (n startIndex : ℕ) : DPState :=
  let startMask := 1 <<< startIndex
  let st0 : DPState := ⟨[(startMask, [(startIndex, 0)])], []⟩
  (List.range' 1 (2 ^ n - 1)).foldl (dpProcessMask dist n) st0

/-- The DP tables after the first `t` iterations of the mask loop
(`heldKarpTable` is `dpTable` at `t = 2 ^ n - 1`). -/
def dpTable (dist : ℕ → ℕ → Option ℚ) (n sIdx : ℕ) (t : ℕ) : DPState :=
  (List.range' 1 t).foldl (dpProcessMask dist n) ⟨[(1 <<< sIdx, [(sIdx, 0)])], []⟩

/-- Number of set bits of `μ` below `n` (the masks of the DP fill all
live below `2 ^ n`). -/
def popBelow (n μ : ℕ) : ℕ :=
  ((List.range n).filter (fun j => μ.testBit j)).length

/-- Total distance along a chain of node indices in the dense matrix,
`none` when an edge is missing (mirrors `pathDistance?` on indices). -/
def idxCost (dist : ℕ → ℕ → Option ℚ) : List ℕ → Option ℚ
  | a :: b :: rest =>
    match dist a b, idxCost dist (b :: rest) with
    | some d, some s => some (d + s)
    | _, _ => none
  | _ => some 0

/-- One candidate of the "find best return to start" scan: consider
ending the tour at `i` (skipping the start index and any `i` with a
missing table entry or missing return edge). -/
def dpBestStep (dist : ℕ → ℕ → Option ℚ) (startIndex : ℕ) (st : DPState)
    (fullMask : ℕ) (acc : Option (ℚ × ℕ)) (i : ℕ) : Option (ℚ × ℕ) :=
  if i = startIndex then acc
  else
    match dpGet st fullMask i, dist i startIndex with
    | some c, some r =>
      let total := c + r
      match acc with
      | none => some (total, i)
      | some mc => if total < mc.1 then some (total, i) else acc
    | _, _ => acc

/-- Embeds the "find best return to start" scan: minimize
`dp[fullMask][i] + dist[i][startIndex]` over `i ≠ startIndex` (an
`Infinity` return edge can never win the strict comparison, so it is
skipped).  Returns `(minCost, lastCity)`; `none` models `lastCity = -1`. -/
def dpFindBest (dist : ℕ → ℕ → Option ℚ) (n startIndex : ℕ) (st : DPState) :
    Option (ℚ × ℕ) :=
  let fullMask := 2 ^ n - 1
  match alistGet st.dp fullMask with
  | none => none
  | some _ =>
    (List.range n).foldl (dpBestStep dist startIndex st fullMask) none

/-- Embeds the parent-pointer reconstruction loop.  The source's `while`
loop terminates on every state the algorithm produces (each step removes
one set bit from the mask); the fuel argument makes the recursion total
and is chosen large enough (`n + 1`) never to run out on those states. -/
def dpReconstruct (st : DPState) (indexToNode : ℕ → Option String) :
    ℕ → ℕ → ℕ → List String → ℕ × List String
  | 0, currentMask, _, path => (currentMask, path)
  | fuel + 1, currentMask, currentCity, path =>
    if currentMask > 0 then
      match pGet st currentMask currentCity with
      | some prev =>
        dpReconstruct st indexToNode fuel (currentMask ^^^ (1 <<< currentCity)) prev
          ((indexToNode currentCity).getD "" :: path)
      | none => (currentMask, path)
    else (currentMask, path)

/-- Embeds `dynamicProgrammingTSP` of `src/utils/algorithms.ts`. -/
def dynamicProgrammingTSP (g : RouteGraph) (start : String) : List String :=
  let allNodes := g.nodes
  let n := allNodes.length
  if n > 12 then nearestNeighborTSP g start
  else
    let dist := distMatrix g
    let startIndex := (nodeToIndex allNodes start).getD 0
    let startMask := 1 <<< startIndex
    let st := heldKarpTable dist n startIndex
    match dpFindBest dist n startIndex st with
    | none => nearestNeighborTSP g start
    | some best =>
      let fullMask := 2 ^ n - 1
      let r := dpReconstruct st (fun i => allNodes[i]?) (n + 1) fullMask best.2 []
      let startNode := (allNodes[startIndex]?).getD ""
      let path := if r.1 = startMask then (startNode :: r.2) ++ [startNode] else r.2
      if path.length > 2 then path else nearestNeighborTSP g start

/-- Search state of `branchAndBoundTSP` (the `BranchNode` interface). -/
structure BBState where
  path : List String
  cost : ℚ
  visited : List String
  bound : ℚ
deriving DecidableEq, Repr

/-- Embeds the minimum outgoing edge scan inside `calculateBound`
(`minEdge = Infinity`, lowered by every edge leaving `node`). -/
def minOutEdge (g : RouteGraph) (node : String) : Option ℚ :=
  g.edges.foldl
    (fun acc e =>
      if e.from_ = node then
        match acc with
        | none => some e.distance
        | some m => if e.distance < m then some e.distance else acc
      else acc)
    none

/-- Embeds `calculateBound`: sum the minimum outgoing edge cost of every
unvisited node (nodes with no outgoing edge contribute nothing). -/
def calculateBound (g : RouteGraph) (visited : List String) : ℚ :=
  g.nodes.foldl
    (fun bound node =>
      if ¬ visited.contains node then
        match minOutEdge g node with
        | some m => bound + m
        | none => bound
      else bound)
    0

/-- Strict comparison `x < bestCost` where `bestCost = Infinity` is `none`. -/
def ltInf (x : ℚ) (b : Option ℚ) : Bool :=
  match b with
  | none => true
  | some c => x < c

/-- Comparison `x >= bestCost` where `bestCost = Infinity` is `none`. -/
def geInf (x : ℚ) (b : Option ℚ) : Bool :=
  match b with
  | none => false
  | some c => c ≤ x

/-- Embeds the expansion step of the B&B loop: one child per edge leaving
the last path node towards an unvisited target, kept only when
`newCost + newBound < bestCost`.  (`bestSolution.cost` always equals the
source's `bestCost`, since the two are updated together.) -/
def bbExpand (g : RouteGraph) (best : Option BBState) (current : BBState) : List BBState :=
  let currentNode := current.path.getLastD ""
  g.edges.filterMap
    (fun e =>
      if e.from_ = currentNode ∧ ¬ current.visited.contains e.to_ then
        let newVisited := e.to_ :: current.visited
        let newCost := current.cost + e.distance
        let newBound := calculateBound g newVisited
        if ltInf (newCost + newBound) (best.map (fun b => b.cost)) then
          some ⟨current.path ++ [e.to_], newCost, newVisited, newBound⟩
        else none
      else none)

/-- Embeds one candidate comparison when a complete state is closed:
look up the return edge, and replace the incumbent on strict improvement. -/
def bbClose (g : RouteGraph) (start : String) (best : Option BBState) (current : BBState) :
    Option BBState :=
  match findEdge g (current.path.getLastD "") start with
  | some e =>
    let totalCost := current.cost + e.distance
    if ltInf totalCost (best.map (fun b => b.cost)) then
      some ⟨current.path ++ [start], totalCost, current.visited, 0⟩
    else best
  | none => best

/-- Stable insertion of a state into a queue sorted by `cost + bound`
ascending: an element moves past every strictly smaller key, so elements
with equal keys keep their relative order. -/
def bbInsert (s : BBState) : List BBState → List BBState
  | [] => [s]
  | t :: rest =>
    if s.cost + s.bound < t.cost + t.bound then s :: t :: rest
    else t :: bbInsert s rest

/-- Stable sort of the queue by `cost + bound` ascending.  JS
`Array.prototype.sort` with the numeric comparator
`(a, b) => (a.cost + a.bound) - (b.cost + b.bound)` is a stable sort, and
a stable sort's output is uniquely determined by the comparator, so this
insertion sort computes exactly the source's sorted queue. -/
def bbSort : List BBState → List BBState
  | [] => []
  | s :: rest => bbInsert s (bbSort rest)

/-- Embeds the `while (queue.length > 0)` loop of `branchAndBoundTSP`:
sort the queue by `cost + bound`, shift the head, prune / close / expand.
The source's loop always terminates (every pushed state strictly extends
a duplicate-free visited set drawn from a finite universe); the fuel
argument makes the recursion total and `branchAndBoundTSP` passes enough
fuel for every such run. -/
def bbLoop (g : RouteGraph) (start : String) :
    ℕ → List BBState → Option BBState → Option BBState
  | 0, _, best => best
  | _ + 1, [], best => best
  | fuel + 1, queue@(_ :: _), best =>
    match bbSort queue with
    | [] => best
    | current :: rest =>
      if geInf (current.cost + current.bound) (best.map (fun b => b.cost)) then
        bbLoop g start fuel rest best
      else if current.visited.length = g.nodes.length then
        bbLoop g start fuel rest (bbClose g start best current)
      else
        bbLoop g start fuel (rest ++ bbExpand g best current) best

/-- Fuel large enough for every run of the B&B loop from its initial
queue: the measure argument in the proofs shows the number of iterations
is below `(E + 2) ^ D` where `E` is the edge count and `D` the size of
the universe of possible visited nodes. -/
def bbFuel (g : RouteGraph) (start : String) : ℕ :=
  (g.edges.length + 2) ^ (start :: g.edges.map (fun e => e.to_)).toFinset.card + 1

/-- Embeds `branchAndBoundTSP` of `src/utils/algorithms.ts` (note: above
10 nodes it delegates to `dynamicProgrammingTSP`, not to the
nearest-neighbor solver). -/
def branchAndBoundTSP (g : RouteGraph) (start : String) : List String :=
  if g.nodes.length > 10 then dynamicProgrammingTSP g start
  else
    let root : BBState := ⟨[start], 0, [start], calculateBound g [start]⟩
    match bbLoop g start (bbFuel g start) [root] none with
    | some sol => sol.path
    | none => nearestNeighborTSP g start

/-- The contribution of one node to `calculateBound`: its minimum
outgoing edge cost, or nothing when it has no outgoing edge. -/
def minOutContrib (g : RouteGraph) (v : String) : ℚ :=
  match minOutEdge g v with
  | some m => m
  | none => 0

/-- The invariant of every state handled by the B&B loop: the path is a
duplicate-free walk of graph nodes starting at `start` (every non-start
entry entered through some edge), `visited` mirrors the path, `cost` is
the path's total distance and `bound` the bound of its visited set. -/
def GoodState (g : RouteGraph) (start : String) (s : BBState) : Prop :=
  s.path.head? = some start ∧ s.path.Nodup ∧
  (∀ x ∈ s.path, x ∈ g.nodes) ∧
  (∀ x ∈ s.path, x = start ∨ x ∈ g.edges.map (fun e => e.to_)) ∧
  s.visited = s.path.reverse ∧
  pathDistance? g s.path = some s.cost ∧
  s.bound = calculateBound g s.visited

/-- Size of the universe of possible path entries of the B&B loop. -/
def bbD (g : RouteGraph) (start : String) : ℕ :=
  (start :: g.edges.map (fun e => e.to_)).toFinset.card

/-- Termination measure of a B&B queue. -/
def bbMeasure (g : RouteGraph) (start : String) (queue : List BBState) : ℕ :=
  (queue.map
    (fun s => (g.edges.length + 2) ^ (bbD g start + 1 - s.path.length))).sum

/-- Embeds `getWeatherImpact`. -/
def getWeatherImpact (weather : String) : ℚ :=
  if weather = "rainy" then 13/10
  else if weather = "foggy" then 14/10
  else if weather = "snowy" then 16/10
  else if weather = "windy" then 11/10
  else 1

/-- Embeds `getTimeOfDayImpact`. -/
def getTimeOfDayImpact (timeOfDay : String) : ℚ :=
  if timeOfDay = "morning" then 13/10
  else if timeOfDay = "evening" then 14/10
  else if timeOfDay = "night" then 9/10
  else 1

/-- Embeds `getVehicleEfficiency`. -/
def getVehicleEfficiency (vehicle : String) : VehicleInfo :=
  if vehicle = "bike" then ⟨12/10, 2/100, 25/10⟩
  else if vehicle = "car" then ⟨1, 8/100, 4⟩
  else if vehicle = "truck" then ⟨7/10, 25/100, 8⟩
  else if vehicle = "bus" then ⟨8/10, 20/100, 6⟩
  else if vehicle = "ambulance" then ⟨13/10, 10/100, 5⟩
  else if vehicle = "ev" then ⟨1, 3/100, 2⟩
  else ⟨1, 8/100, 4⟩

/-- Sums distance and base time along a path (`calculatePathMetrics`
silently skips pairs with no edge, mirroring `if (edge) { ... }`). -/
def sumDistTime (g : RouteGraph) : List String → ℚ × ℚ
  | a :: b :: rest =>
    let r := sumDistTime g (b :: rest)
    match findEdge g a b with
    | some e => (e.distance + r.1, e.time + r.2)
    | none => r
  | _ => (0, 0)

/-- Embeds `calculatePathMetrics`. -/
def calculatePathMetrics (path : List String) (g : RouteGraph) (params : SimulationParams) :
    BaseMetrics :=
  if path.length < 2 then ⟨0, 0, 0, 0, 1, 1⟩
  else
    let dt := sumDistTime g path
    let weatherImpact := getWeatherImpact params.weather
    let timeImpact := getTimeOfDayImpact params.timeOfDay
    let v := getVehicleEfficiency params.vehicle
    let adjustedTime := dt.2 * weatherImpact * timeImpact / v.speedFactor
    let baseCost := dt.1 / 1000 * v.costPerKm
    let fuelCost := dt.1 / 1000 * v.fuelRate * 100
    let driverCost := adjustedTime / 3600 * 200
    ⟨dt.1, adjustedTime, baseCost + fuelCost + driverCost, dt.1 / 1000 * v.fuelRate,
      timeImpact, weatherImpact⟩

/-- Embeds `calculateAlgorithmScore`; `rand` is the `Math.random()` draw
used by the `(Math.random() - 0.5) * 0.1` jitter line. -/
def calculateAlgorithmScore (algorithm : Algorithm) (m : BaseMetrics) (rand : ℚ) : ℚ :=
  let distanceScore := m.distance / 1000 / 50
  let timeScore := m.time / 3600 / 2
  let costScore := m.cost / 1000
  let fuelScore := m.fuel / 10
  let baseScore := distanceScore + timeScore + costScore + fuelScore
  let baseScore :=
    match algorithm with
    | .bruteForce => baseScore * (95/100)
    | .dynamicProgramming => baseScore * (97/100)
    | .nearestNeighbor => baseScore * (108/100)
    | .branchAndBound => baseScore * (98/100)
  let baseScore := baseScore * (m.trafficImpact * (1/10))
  let baseScore := baseScore * (m.weatherImpact * (5/100))
  let baseScore := baseScore + (rand - 1/2) * (1/10)
  max baseScore (1/10)

/-- Embeds `filterGraphForSelectedCities`: keep the selected node ids that
exist in the graph (in selection order, first occurrence wins, matching
JS object-key insertion order), and the edges between selected ids. -/
def filterGraphForSelectedCities (graph : RouteGraph) (selectedCities : List String) :
    RouteGraph :=
  if selectedCities.length = 0 then graph
  else
    ⟨(selectedCities.filter (fun c => graph.nodes.contains c)).eraseDups,
     graph.edges.filter (fun e =>
       selectedCities.contains e.from_ && selectedCities.contains e.to_)⟩

/-- Embeds `runSimulation` after the `getRouteGraph` call: the built full
graph is passed as a value (its construction involves floating-point
haversine distances and random road-factor jitter and is a separate input
boundary), and `rand` is the `Math.random()` draw of
`calculateAlgorithmScore`. -/
def runSimulationOn (fullGraph : RouteGraph) (params : SimulationParams) (rand : ℚ) :
    SimulationResult :=
  let graph := filterGraphForSelectedCities fullGraph params.selectedCities
  if params.selectedCities.length < 2 then
    ⟨params.algorithm, [], ⟨0, 0, 0, 0, 1, 1, 0⟩⟩
  else
    let startLocation :=
      if params.selectedCities.contains params.startLocation then params.startLocation
      else params.selectedCities.getD 0 ""
    let path :=
      match params.algorithm with
      | .nearestNeighbor => nearestNeighborTSP graph startLocation
      | .bruteForce => bruteForceTSP graph startLocation
      | .dynamicProgramming => dynamicProgrammingTSP graph startLocation
      | .branchAndBound => branchAndBoundTSP graph startLocation
    let base := calculatePathMetrics path graph params
    let totalScore := calculateAlgorithmScore params.algorithm base rand
    ⟨params.algorithm, path,
      ⟨base.distance, base.time, base.cost, base.fuel, base.trafficImpact,
        base.weatherImpact, totalScore⟩⟩

/-- Location record (`src/types/index.ts`); coordinates are unused by
`buildTSPPath` and omitted. -/
structure Location where
  id : String
  name : String
deriving DecidableEq, Repr

/-- Embeds the route-scanning loop of `buildTSPPath`: for each external
city name, look it up case-insensitively and append its id when it is
selected and not yet visited.  The accumulator carries `(path, visited)`. -/
def buildTSPPathScan (route : List String) (selectedCities : List String)
    (locations : List Location) (acc : List String × List String) :
    List String × List String :=
  route.foldl
    (fun acc cityName =>
      match locations.find? (fun loc => loc.name.toLower == cityName.toLower) with
      | some location =>
        if ¬ acc.2.contains location.id ∧ selectedCities.contains location.id then
          (acc.1 ++ [location.id], location.id :: acc.2)
        else acc
      | none => acc)
    acc

/-- Embeds the second loop of `buildTSPPath`: append every selected city
that is still unvisited. -/
def buildTSPPathRemaining (selectedCities : List String)
    (acc : List String × List String) : List String × List String :=
  selectedCities.foldl
    (fun acc cityId =>
      if ¬ acc.2.contains cityId then (acc.1 ++ [cityId], cityId :: acc.2)
      else acc)
    acc

/-- Embeds `buildTSPPath` of the Gemini-route module. -/
def buildTSPPath (route : List String) (params : SimulationParams)
    (locations : List Location) : List String :=
  let acc0 := ([params.startLocation], [params.startLocation])
  let acc1 := buildTSPPathScan route params.selectedCities locations acc0
  let acc2 := buildTSPPathRemaining params.selectedCities acc1
  if acc2.1.length > 1 then acc2.1 ++ [params.startLocation] else acc2.1

/-- Invariant of the `buildTSPPath` accumulator `(path, visited)`: the
path is the start followed by duplicate-free selected non-start ids, and
the visited set mirrors the path's membership. -/
def BTPInv (start : String) (selected : List String)
    (acc : List String × List String) : Prop :=
  ∃ intr, acc.1 = start :: intr ∧ intr.Nodup ∧ start ∉ intr ∧
    (∀ x, x ∈ acc.2 ↔ x ∈ acc.1) ∧
    (∀ x ∈ intr, x ∈ selected ∧ x ≠ start)

/-! Specification predicates. -/

/-- Well-formed graph data, as produced by `getRouteGraph` /
`filterGraphForSelectedCities`: duplicate-free non-empty string ids, and
edges connecting distinct graph nodes with nonnegative distances. -/
def WellFormedGraph (g : RouteGraph) : Prop :=
  g.nodes.Nodup ∧ "" ∉ g.nodes ∧
    ∀ e ∈ g.edges, e.from_ ∈ g.nodes ∧ e.to_ ∈ g.nodes ∧ e.from_ ≠ e.to_ ∧ 0 ≤ e.distance

/-- At most one edge for each ordered node pair (as in `getRouteGraph`,
which emits exactly one edge per ordered pair). -/
def EdgesUnique (g : RouteGraph) : Prop :=
  g.edges.Pairwise (fun e e' => e.from_ ≠ e'.from_ ∨ e.to_ ≠ e'.to_)

/-- Every ordered pair of distinct nodes has an edge. -/
def FullyConnected (g : RouteGraph) : Prop :=
  ∀ a ∈ g.nodes, ∀ b ∈ g.nodes, a ≠ b → ∃ e ∈ g.edges, e.from_ = a ∧ e.to_ = b

/-- A valid solver instance in the sense of the specification: at least
two nodes and a consistent, fully connected graph containing the start. -/
def ValidInstance (g : RouteGraph) (start : String) : Prop :=
  WellFormedGraph g ∧ EdgesUnique g ∧ FullyConnected g ∧
    start ∈ g.nodes ∧ 2 ≤ g.nodes.length

/-- A closed tour for `g` from `start`: the path begins and ends with the
start id, and dropping the final (repeated) start leaves a permutation of
the node set — every node visited exactly once. -/
def IsClosedTour (g : RouteGraph) (start : String) (p : List String) : Prop :=
  p.head? = some start ∧ p.getLast? = some start ∧ p.dropLast.Perm g.nodes

/-- The incumbent invariant of the B&B loop: whenever a best solution is
recorded, its path is a closed tour with exactly its recorded cost. -/
def BestInv (g : RouteGraph) (start : String) (b : Option BBState) : Prop :=
  ∀ bs, b = some bs →
    IsClosedTour g start bs.path ∧ pathDistance? g bs.path = some bs.cost

/-! Concrete instances used by witnesses and counterexamples. -/

/-- Edge constructor shorthand for concrete instances (time 0). -/
def cE (a b : String) (d : ℚ) : RouteEdge := ⟨a, b, d, 0⟩

/-- A 3-node fully connected instance. -/
def gW3 : RouteGraph :=
  ⟨["a", "b", "c"],
   [cE "a" "b" 1, cE "b" "a" 1, cE "a" "c" 2, cE "c" "a" 2,
    cE "b" "c" 1, cE "c" "b" 1]⟩

/-- A 10-node edgeless graph (9 non-start nodes — over the brute-force
cutoff). -/
def gTen : RouteGraph :=
  ⟨["x", "c1", "c2", "c3", "c4", "c5", "c6", "c7", "c8", "c9"], []⟩

/-- A 13-node edgeless graph (over both branch-and-bound ceilings and the
DP ceiling). -/
def gBig13 : RouteGraph :=
  ⟨["x", "c1", "c2", "c3", "c4", "c5", "c6", "c7", "c8", "c9", "c10", "c11", "c12"], []⟩

/-- An 11-node graph on which the greedy nearest-neighbor tour is forced
through a 100-cost edge while a cheap alternative tour exists: starting
at `n0`, greed picks `n0 → n1` (cost 1 beats 2) and must then pay
`n1 → n2` (cost 100), whereas `n0 → n2 → ⋯ → n10 → n1 → n0` costs 12. -/
def g11 : RouteGraph :=
  ⟨["n0", "n1", "n2", "n3", "n4", "n5", "n6", "n7", "n8", "n9", "n10"],
   [cE "n0" "n1" 1, cE "n0" "n2" 2, cE "n1" "n2" 100, cE "n1" "n0" 1,
    cE "n2" "n3" 1, cE "n3" "n4" 1, cE "n4" "n5" 1, cE "n5" "n6" 1,
    cE "n6" "n7" 1, cE "n7" "n8" 1, cE "n8" "n9" 1, cE "n9" "n10" 1,
    cE "n10" "n0" 1, cE "n10" "n1" 1]⟩

/-- A cheap closed tour of `g11` (cost 12), witnessing that its DP
optimum is far below the greedy nearest-neighbor tour (cost 110). -/
def t12Path : List String :=
  ["n0", "n2", "n3", "n4", "n5", "n6", "n7", "n8", "n9", "n10", "n1", "n0"]

/-- A 2-node graph with large distances (so that the score jitter is not
clamped away by `Math.max(·, 0.1)`). -/
def cgC4 : RouteGraph :=
  ⟨["a", "b"], [⟨"a", "b", 1000000000, 3600⟩, ⟨"b", "a", 1000000000, 3600⟩]⟩

/-- Parameters selecting both nodes of `cgC4`, start `a`. -/
def pc4 : SimulationParams :=
  ⟨Algorithm.nearestNeighbor, "sunny", "afternoon", "a", "car", ["a", "b"]⟩

/-- A 2-node graph with unit distances. -/
def cgAB : RouteGraph :=
  ⟨["a", "b"], [⟨"a", "b", 1000, 60⟩, ⟨"b", "a", 1000, 60⟩]⟩

/-- Parameters whose start location `z` is not among the selected cities. -/
def cpBad : SimulationParams :=
  ⟨Algorithm.nearestNeighbor, "sunny", "afternoon", "z", "car", ["a", "b"]⟩

/-- Parameters with a single selected city. -/
def cpOne : SimulationParams :=
  ⟨Algorithm.nearestNeighbor, "sunny", "afternoon", "a", "car", ["a"]⟩

/-- A 2-node graph with no edges (nearest-neighbor gets stuck at once). -/
def gStuck : RouteGraph := ⟨["a", "b"], []⟩

/-- Locations list for the `buildTSPPath` examples. -/
def locsW : List Location := [⟨"k1", "Bengaluru"⟩, ⟨"k2", "Mysuru"⟩, ⟨"k3", "Hubli"⟩]

/-- Parameters selecting three known cities, start `k1`. -/
def pBuildW : SimulationParams :=
  ⟨Algorithm.nearestNeighbor, "sunny", "afternoon", "k1", "car", ["k1", "k2", "k3"]⟩

/-! Claim C5 (brute-force size cutoff) and claim C6 (branch-and-bound
size ceiling). -/

/-- C5: for every graph whose non-start node count exceeds 8, the
brute-force solver does not enumerate permutations and instead returns
the nearest-neighbor tour for the same graph and start node. -/
theorem C5_bruteforce_cutoff (g : RouteGraph) (start : String)
    (h : 8 < (g.nodes.filter (fun x => x != start)).length) :
    bruteForceTSP g start = nearestNeighborTSP g start := by
  simp [bruteForceTSP, h]

/-- Witness for C5 at a 10-node graph (9 non-start nodes). -/
theorem C5_bruteforce_cutoff_witness :
    8 < (gTen.nodes.filter (fun x => x != "x")).length ∧
      bruteForceTSP gTen "x" = nearestNeighborTSP gTen "x" :=
  ⟨by decide, C5_bruteforce_cutoff gTen "x" (by decide)⟩

/-- C6 (amended): for every graph with more than 10 nodes the
branch-and-bound solver returns the dynamic-programming solver's result —
not the nearest-neighbor tour — and only above the DP ceiling of 12 nodes
does that fall back to the nearest-neighbor tour. -/
theorem C6_bb_ceiling_fallback (g : RouteGraph) (start : String) :
    (10 < g.nodes.length → branchAndBoundTSP g start = dynamicProgrammingTSP g start) ∧
    (12 < g.nodes.length → branchAndBoundTSP g start = nearestNeighborTSP g start) := by
  constructor
  · intro h
    simp [branchAndBoundTSP, h]
  · intro h
    have h10 : 10 < g.nodes.length := by omega
    simp [branchAndBoundTSP, dynamicProgrammingTSP, h, h10]

/-- Witness for C6 at a 13-node graph. -/
theorem C6_bb_ceiling_fallback_witness :
    branchAndBoundTSP gBig13 "x" = dynamicProgrammingTSP gBig13 "x" ∧
      branchAndBoundTSP gBig13 "x" = nearestNeighborTSP gBig13 "x" :=
  ⟨(C6_bb_ceiling_fallback gBig13 "x").1 (by decide),
   (C6_bb_ceiling_fallback gBig13 "x").2 (by decide)⟩

/-! Claim C8 (degenerate input gives a non-fatal empty result). -/

/-- C8 (amended): for every solve request with fewer than 2 selected
cities the dispatcher returns a non-fatal result whose tour is empty,
whose distance, time, cost, fuel and totalScore are zero, and whose
traffic and weather impact multipliers are the neutral value 1 (not 0). -/
theorem C8_degenerate_input_result (fullGraph : RouteGraph) (params : SimulationParams)
    (rand : ℚ) (h : params.selectedCities.length < 2) :
    runSimulationOn fullGraph params rand =
      ⟨params.algorithm, [], ⟨0, 0, 0, 0, 1, 1, 0⟩⟩ := by
  simp [runSimulationOn, h]

/-- Witness for C8 at a one-city selection. -/
theorem C8_degenerate_input_result_witness :
    cpOne.selectedCities.length < 2 ∧
      runSimulationOn cgAB cpOne 0 = ⟨cpOne.algorithm, [], ⟨0, 0, 0, 0, 1, 1, 0⟩⟩ :=
  ⟨by decide, C8_degenerate_input_result cgAB cpOne 0 (by decide)⟩

/-- Counterexample to C8 as stated: the degenerate result's metrics are
not all zeroed — the impact multipliers are 1. -/
theorem C8_counterexample :
    cpOne.selectedCities.length < 2 ∧
      (runSimulationOn cgAB cpOne 0).path = [] ∧
      (runSimulationOn cgAB cpOne 0).metrics.trafficImpact ≠ 0 ∧
      (runSimulationOn cgAB cpOne 0).metrics.weatherImpact ≠ 0 := by
  decide

/-! Claim C7 (start node outside the selected set). -/

/-- C7 (amended): a solve request whose start node is not in the selected
set does not fail — `runSimulation` has no `InvalidInput` error path —
but silently substitutes the first selected city as the start and runs
the solver with it. -/
theorem C7_start_substituted (fullGraph : RouteGraph) (params : SimulationParams)
    (rand : ℚ) (h2 : 2 ≤ params.selectedCities.length)
    (h : ¬ params.selectedCities.contains params.startLocation) :
    runSimulationOn fullGraph params rand =
      runSimulationOn fullGraph
        ⟨params.algorithm, params.weather, params.timeOfDay,
          params.selectedCities.getD 0 "", params.vehicle, params.selectedCities⟩ rand := by
  obtain ⟨alg, w, t, s, v, sel⟩ := params
  simp only at h2 h
  have hlt : ¬ sel.length < 2 := by omega
  have hstart : (if sel.contains s = true then s else sel.getD 0 "") = sel.getD 0 "" :=
    if_neg h
  simp only [runSimulationOn, hlt, if_false, ite_self, hstart, ite_false]
  rfl

/-- Witness for C7: with start `z` outside `["a", "b"]`, the result
equals the result for substituted start `a`. -/
theorem C7_start_substituted_witness :
    2 ≤ cpBad.selectedCities.length ∧
      ¬ cpBad.selectedCities.contains cpBad.startLocation ∧
      runSimulationOn cgAB cpBad 0 =
        runSimulationOn cgAB
          ⟨cpBad.algorithm, cpBad.weather, cpBad.timeOfDay,
            cpBad.selectedCities.getD 0 "", cpBad.vehicle, cpBad.selectedCities⟩ 0 :=
  ⟨by decide, by decide, C7_start_substituted cgAB cpBad 0 (by decide) (by decide)⟩

/-- Counterexample to C7 as stated: a request with start `z` outside the
selected set does not fail with `InvalidInput`; a solver runs and a tour
for the substituted start node `a` is produced. -/
theorem C7_counterexample :
    cpBad.selectedCities.contains cpBad.startLocation = false ∧
      (runSimulationOn cgAB cpBad 0).path = ["a", "b", "a"] := by
  decide

/-! Claim C4 (determinism of solve). -/

/-- C4 (amended): solve is deterministic as a function of its inputs
together with the sampled random value: the tour and every metric except
`totalScore` are independent of the `Math.random()` draw, and two calls
that consume the same draw return identical results.  (`totalScore`
itself depends on the draw — see the counterexample.) -/
theorem C4_determinism_modulo_jitter (fullGraph : RouteGraph) (params : SimulationParams)
    (r r' : ℚ) :
    (runSimulationOn fullGraph params r).path = (runSimulationOn fullGraph params r').path ∧
      (runSimulationOn fullGraph params r).metrics.distance =
        (runSimulationOn fullGraph params r').metrics.distance ∧
      (runSimulationOn fullGraph params r).metrics.time =
        (runSimulationOn fullGraph params r').metrics.time ∧
      (runSimulationOn fullGraph params r).metrics.cost =
        (runSimulationOn fullGraph params r').metrics.cost ∧
      (runSimulationOn fullGraph params r).metrics.fuel =
        (runSimulationOn fullGraph params r').metrics.fuel ∧
      (runSimulationOn fullGraph params r).metrics.trafficImpact =
        (runSimulationOn fullGraph params r').metrics.trafficImpact ∧
      (runSimulationOn fullGraph params r).metrics.weatherImpact =
        (runSimulationOn fullGraph params r').metrics.weatherImpact ∧
      (r = r' → runSimulationOn fullGraph params r = runSimulationOn fullGraph params r') := by
  refine ⟨?_, ?_, ?_, ?_, ?_, ?_, ?_, ?_⟩ <;>
    first
      | (intro hr; rw [hr])
      | (unfold runSimulationOn; split <;> rfl)

/-- Witness for C4 (for the conditional final conjunct). -/
theorem C4_determinism_modulo_jitter_witness :
    runSimulationOn cgC4 pc4 (1/2) = runSimulationOn cgC4 pc4 (1/2) :=
  (C4_determinism_modulo_jitter cgC4 pc4 (1/2) (1/2)).2.2.2.2.2.2.2 rfl

unseal Rat.add Rat.mul Rat.inv Rat.sub in
/-- Counterexample to C4 as stated: two solve calls with identical graph,
start, conditions and algorithm but different `Math.random()` draws
return different `totalScore` values, so solve as implemented is not
deterministic. -/
theorem C4_counterexample :
    (runSimulationOn cgC4 pc4 0).metrics.totalScore ≠
      (runSimulationOn cgC4 pc4 1).metrics.totalScore := by
  decide

/-! Nearest-neighbor theory. -/

/-- Boolean membership agrees with propositional membership. -/
theorem contains_true_iff (l : List String) (a : String) : l.contains a = true ↔ a ∈ l := by
  simp

/-- The scan is either the untouched accumulator shape or holds the data
of a qualifying edge from the scanned list (membership tracked through
the predicate `S`). -/
theorem findNearest_aux_spec (c : String) (vis : List String) (S : RouteEdge → Prop) :
    ∀ (es : List RouteEdge) (acc : String × Option ℚ),
      (∀ e ∈ es, S e) →
      (acc = ("", none) ∨
        ∃ e, S e ∧ e.from_ = c ∧ ¬ vis.contains e.to_ ∧ acc = (e.to_, some e.distance)) →
      (es.foldl (findNearestStep c vis) acc = ("", none) ∨
        ∃ e, S e ∧ e.from_ = c ∧ ¬ vis.contains e.to_ ∧
          es.foldl (findNearestStep c vis) acc = (e.to_, some e.distance)) := by
  intro es
  induction es with
  | nil => intro acc _ hacc; simpa using hacc
  | cons e es ih =>
    intro acc hS hacc
    rw [List.foldl_cons]
    refine ih (findNearestStep c vis acc e) (fun e' he' => hS e' (List.mem_cons_of_mem e he')) ?_
    have hSe : S e := hS e (List.mem_cons_self e es)
    unfold findNearestStep
    by_cases hq : e.from_ = c ∧ ¬ vis.contains e.to_
    · rw [if_pos hq]
      match hb : acc.2 with
      | none => exact Or.inr ⟨e, hSe, hq.1, hq.2, rfl⟩
      | some d =>
        dsimp only
        by_cases hlt : e.distance < d
        · rw [if_pos hlt]
          exact Or.inr ⟨e, hSe, hq.1, hq.2, rfl⟩
        · rw [if_neg hlt]
          exact hacc
    · rw [if_neg hq]
      exact hacc

/-- If the accumulator already holds a candidate, or some remaining edge
qualifies, the scan ends with a candidate. -/
theorem findNearest_aux_isSome (c : String) (vis : List String) :
    ∀ (es : List RouteEdge) (acc : String × Option ℚ),
      (acc.2 ≠ none ∨ ∃ e ∈ es, e.from_ = c ∧ ¬ vis.contains e.to_) →
      (es.foldl (findNearestStep c vis) acc).2 ≠ none := by
  intro es
  induction es with
  | nil =>
    intro acc h
    rcases h with h | ⟨e, he, _⟩
    · exact h
    · exact absurd he (List.not_mem_nil e)
  | cons e es ih =>
    intro acc h
    rw [List.foldl_cons]
    apply ih
    unfold findNearestStep
    by_cases hq : e.from_ = c ∧ ¬ vis.contains e.to_
    · rw [if_pos hq]
      left
      match hb : acc.2 with
      | none => simp
      | some d =>
        dsimp only
        by_cases hlt : e.distance < d
        · rw [if_pos hlt]; simp
        · rw [if_neg hlt]; rw [hb]; simp
    · rw [if_neg hq]
      rcases h with h | ⟨e', he', hq'⟩
      · exact Or.inl h
      · rcases List.mem_cons.mp he' with rfl | he'
        · exact absurd ⟨hq'.1, hq'.2⟩ hq
        · exact Or.inr ⟨e', he', hq'⟩

/-- When a qualifying edge exists, the chosen node is a qualifying edge's
target (in particular unvisited, and a graph node when edges are
well-formed). -/
theorem findNearest_of_exists (es : List RouteEdge) (c : String) (vis : List String)
    (h : ∃ e ∈ es, e.from_ = c ∧ ¬ vis.contains e.to_) :
    ∃ e ∈ es, e.from_ = c ∧ ¬ vis.contains e.to_ ∧
      findNearest es c vis = (e.to_, some e.distance) := by
  rcases findNearest_aux_spec c vis (fun e => e ∈ es) es ("", none)
      (fun _ he => he) (Or.inl rfl) with hnone | ⟨e, he, h1, h2, h3⟩
  · have hns := findNearest_aux_isSome c vis es ("", none)
      (Or.inr h)
    rw [hnone] at hns
    simp at hns
  · exact ⟨e, he, h1, h2, h3⟩

/-- The scan result is `("", none)` or the data of a qualifying edge. -/
theorem findNearest_spec (es : List RouteEdge) (c : String) (vis : List String) :
    findNearest es c vis = ("", none) ∨
      ∃ e ∈ es, e.from_ = c ∧ ¬ vis.contains e.to_ ∧
        findNearest es c vis = (e.to_, some e.distance) := by
  rcases findNearest_aux_spec c vis (fun e => e ∈ es) es ("", none)
      (fun _ he => he) (Or.inl rfl) with hnone | ⟨e, he, h1, h2, h3⟩
  · exact Or.inl hnone
  · exact Or.inr ⟨e, he, h1, h2, h3⟩

/-- Duplicate-free lists included in a list at most as long are
permutations of it. -/
theorem perm_of_nodup_subset_length {l l' : List String}
    (h1 : l.Nodup) (hs : l ⊆ l') (hl : l'.length ≤ l.length) : l.Perm l' :=
  (h1.subperm hs).perm_of_length_le hl

/-- Invariants of the nearest-neighbor loop: the visited list stays
duplicate-free, is a permutation of the path, the path keeps its head and
only grows, and (for in-graph edge targets) stays inside the node set. -/
theorem nnLoop_spec (g : RouteGraph) (start : String)
    (hedges : ∀ e ∈ g.edges, e.to_ ∈ g.nodes) :
    ∀ (fuel : ℕ) (visited path : List String) (current : String),
      visited.Nodup → visited.Perm path → path.head? = some start →
      (∀ x ∈ visited, x ∈ g.nodes) →
      (nnLoop g fuel visited path current).1.Nodup ∧
        (nnLoop g fuel visited path current).1.Perm
          (nnLoop g fuel visited path current).2 ∧
        (nnLoop g fuel visited path current).2.head? = some start ∧
        (∀ x ∈ (nnLoop g fuel visited path current).1, x ∈ g.nodes) := by
  intro fuel
  induction fuel with
  | zero =>
    intro visited path current h1 h2 h3 h4
    exact ⟨h1, h2, h3, h4⟩
  | succ fuel ih =>
    intro visited path current h1 h2 h3 h4
    rw [nnLoop]
    by_cases hlen : visited.length < g.nodes.length
    · rw [if_pos hlen]
      rcases findNearest_spec g.edges current visited with hfn | ⟨e, he, _, hvis, hfn⟩
      · rw [hfn]
        simp only [if_pos rfl]
        exact ⟨h1, h2, h3, h4⟩
      · rw [hfn]
        simp only
        by_cases hto : e.to_ = ""
        · rw [if_pos hto]
          exact ⟨h1, h2, h3, h4⟩
        · rw [if_neg hto]
          have hnv : e.to_ ∉ visited := fun hmem =>
            hvis ((contains_true_iff _ _).mpr hmem)
          refine ih (e.to_ :: visited) (path ++ [e.to_]) e.to_
            (List.nodup_cons.mpr ⟨hnv, h1⟩)
            (((List.perm_append_singleton e.to_ visited).symm).trans
              (h2.append_right [e.to_])) ?_ ?_
          · cases path with
            | nil => simp at h3
            | cons a l => simpa using h3
          · intro x hx
            rcases List.mem_cons.mp hx with rfl | hx
            · exact hedges e he
            · exact h4 x hx
    · rw [if_neg hlen]
      exact ⟨h1, h2, h3, h4⟩

/-- The nearest-neighbor loop only appends to the path. -/
theorem nnLoop_extends (g : RouteGraph) :
    ∀ (fuel : ℕ) (visited path : List String) (current : String),
      ∃ ext, (nnLoop g fuel visited path current).2 = path ++ ext := by
  intro fuel
  induction fuel with
  | zero => intro visited path current; exact ⟨[], by simp [nnLoop]⟩
  | succ fuel ih =>
    intro visited path current
    rw [nnLoop]
    by_cases hlen : visited.length < g.nodes.length
    · rw [if_pos hlen]
      by_cases hto : (findNearest g.edges current visited).1 = ""
      · rw [if_pos hto]
        exact ⟨[], by simp⟩
      · rw [if_neg hto]
        obtain ⟨ext, hext⟩ := ih ((findNearest g.edges current visited).1 :: visited)
          (path ++ [(findNearest g.edges current visited).1])
          (findNearest g.edges current visited).1
        exact ⟨(findNearest g.edges current visited).1 :: ext, by rw [hext]; simp⟩
    · rw [if_neg hlen]
      exact ⟨[], by simp⟩

/-- On a valid (fully connected, well-formed) instance the
nearest-neighbor loop visits every node. -/
theorem nnLoop_complete (g : RouteGraph) (start : String)
    (hwf : WellFormedGraph g) (hfc : FullyConnected g) :
    ∀ (fuel : ℕ) (visited path : List String) (current : String),
      g.nodes.length ≤ fuel + visited.length →
      visited.Nodup → visited.Perm path → path.head? = some start →
      (∀ x ∈ visited, x ∈ g.nodes) → current ∈ visited →
      (nnLoop g fuel visited path current).1.length = g.nodes.length := by
  obtain ⟨hnodup, hempty, hedges⟩ := hwf
  intro fuel
  induction fuel with
  | zero =>
    intro visited path current hfuel h1 h2 h3 h4 h5
    have hle : visited.length ≤ g.nodes.length :=
      (h1.subperm fun x hx => h4 x hx).length_le
    simp only [nnLoop]
    omega
  | succ fuel ih =>
    intro visited path current hfuel h1 h2 h3 h4 h5
    rw [nnLoop]
    by_cases hlen : visited.length < g.nodes.length
    · rw [if_pos hlen]
      have hex : ∃ b ∈ g.nodes, b ∉ visited := by
        by_contra hall
        push_neg at hall
        have : g.nodes.length ≤ visited.length :=
          (hnodup.subperm hall).length_le
        omega
      obtain ⟨b, hbmem, hbnv⟩ := hex
      have hcur : current ∈ g.nodes := h4 current h5
      have hcb : current ≠ b := fun hcb => hbnv (hcb ▸ h5)
      obtain ⟨e, he, hef, het⟩ := hfc current hcur b hbmem hcb
      have hq : ∃ e ∈ g.edges, e.from_ = current ∧ ¬ visited.contains e.to_ := by
        refine ⟨e, he, hef, fun hc => hbnv ?_⟩
        rw [het] at hc
        exact (contains_true_iff _ _).mp hc
      obtain ⟨e', he', hef', hvis', hfn⟩ := findNearest_of_exists g.edges current visited hq
      rw [hfn]
      simp only
      have hto : e'.to_ ≠ "" := fun hto =>
        hempty (hto ▸ (hedges e' he').2.1)
      rw [if_neg hto]
      have hnv : e'.to_ ∉ visited := fun hmem =>
        hvis' ((contains_true_iff _ _).mpr hmem)
      refine ih (e'.to_ :: visited) (path ++ [e'.to_]) e'.to_ (by simp; omega)
        (List.nodup_cons.mpr ⟨hnv, h1⟩)
        (((List.perm_append_singleton e'.to_ visited).symm).trans
          (h2.append_right [e'.to_])) ?_ ?_ (by simp)
      · cases path with
        | nil => simp at h3
        | cons a l => simpa using h3
      · intro x hx
        rcases List.mem_cons.mp hx with rfl | hx
        · exact (hedges e' he').2.1
        · exact h4 x hx
    · rw [if_neg hlen]
      have hle : visited.length ≤ g.nodes.length :=
        (h1.subperm fun x hx => h4 x hx).length_le
      show visited.length = g.nodes.length
      omega

/-- On a valid instance, the nearest-neighbor solver returns a closed
tour (main helper shared by the claims). -/
theorem nearestNeighborTSP_closed (g : RouteGraph) (start : String)
    (h : ValidInstance g start) :
    IsClosedTour g start (nearestNeighborTSP g start) := by
  obtain ⟨hwf, _, hfc, hstart, hn2⟩ := h
  have hedges : ∀ e ∈ g.edges, e.to_ ∈ g.nodes := fun e he => (hwf.2.2 e he).2.1
  have hbase : ([start] : List String).Nodup := by simp
  have hperm : ([start] : List String).Perm [start] := List.Perm.refl _
  have hhead : ([start] : List String).head? = some start := rfl
  have hsub : ∀ x ∈ ([start] : List String), x ∈ g.nodes := by
    intro x hx; rcases List.mem_singleton.mp hx with rfl; exact hstart
  obtain ⟨hn1, hnp, hnh, hnsub⟩ :=
    nnLoop_spec g start hedges (g.nodes.length + 1) [start] [start] start
      hbase hperm hhead hsub
  have hcomplete :=
    nnLoop_complete g start hwf hfc (g.nodes.length + 1) [start] [start] start
      (by simp; omega) hbase hperm hhead hsub (by simp)
  unfold nearestNeighborTSP
  rw [if_pos hcomplete]
  have hpermnodes : (nnLoop g (g.nodes.length + 1) [start] [start] start).1.Perm g.nodes := by
    refine perm_of_nodup_subset_length hn1 (fun x hx => hnsub x hx) ?_
    omega
  have hne : (nnLoop g (g.nodes.length + 1) [start] [start] start).2 ≠ [] := by
    intro hnil
    rw [hnil] at hnh
    simp at hnh
  refine ⟨?_, ?_, ?_⟩
  · cases hp : (nnLoop g (g.nodes.length + 1) [start] [start] start).2 with
    | nil => exact absurd hp hne
    | cons a l =>
      rw [hp] at hnh
      simpa using hnh
  · rw [List.getLast?_concat]
  · rw [List.dropLast_concat]
    exact (hnp.symm.trans hpermnodes)

/-- In a duplicate-free list headed by `start` with at least two
elements, the last element is not `start`. -/
theorem getLast_ne_head_of_nodup (t : List String) (start : String)
    (hnodup : (start :: t).Nodup) (ht : t ≠ []) :
    (start :: t).getLast? ≠ some start := by
  intro hlast
  cases t with
  | nil => exact ht rfl
  | cons b u =>
    rw [List.getLast?_cons_cons] at hlast
    exact (List.nodup_cons.mp hnodup).1 (List.mem_of_mem_getLast? hlast)

/-! Claim C9 (nearest-neighbor closure behaviour). -/

/-- C9 (amended): the nearest-neighbor path carries the repeated start at
its end (length at least 2 and last element the start) precisely when
every node of the graph was visited; when greed gets stuck the function
still returns an open path containing the start exactly once with fewer
than `n + 1` elements, rather than failing. -/
theorem C9_nn_closure_iff (g : RouteGraph) (start : String)
    (hnodup : g.nodes.Nodup) (hstart : start ∈ g.nodes)
    (hedges : ∀ e ∈ g.edges, e.to_ ∈ g.nodes) :
    ((2 ≤ (nearestNeighborTSP g start).length ∧
        (nearestNeighborTSP g start).getLast? = some start) ↔
      (∀ v ∈ g.nodes, v ∈ nearestNeighborTSP g start)) ∧
    (¬ (∀ v ∈ g.nodes, v ∈ nearestNeighborTSP g start) →
      (nearestNeighborTSP g start).count start = 1 ∧
      (nearestNeighborTSP g start).length < g.nodes.length + 1) := by
  have hbase : ([start] : List String).Nodup := by simp
  have hperm0 : ([start] : List String).Perm [start] := List.Perm.refl _
  have hhead : ([start] : List String).head? = some start := rfl
  have hsub : ∀ x ∈ ([start] : List String), x ∈ g.nodes := by
    intro x hx; rcases List.mem_singleton.mp hx with rfl; exact hstart
  obtain ⟨hn1, hnp, hnh, hnsub⟩ :=
    nnLoop_spec g start hedges (g.nodes.length + 1) [start] [start] start
      hbase hperm0 hhead hsub
  have hlen_le : (nnLoop g (g.nodes.length + 1) [start] [start] start).1.length ≤
      g.nodes.length :=
    (hn1.subperm fun x hx => hnsub x hx).length_le
  have hr2len : (nnLoop g (g.nodes.length + 1) [start] [start] start).2.length =
      (nnLoop g (g.nodes.length + 1) [start] [start] start).1.length :=
    (hnp.length_eq).symm
  have hr2nodup : (nnLoop g (g.nodes.length + 1) [start] [start] start).2.Nodup :=
    hnp.nodup hn1
  have hstart_mem : start ∈ (nnLoop g (g.nodes.length + 1) [start] [start] start).2 := by
    cases hp : (nnLoop g (g.nodes.length + 1) [start] [start] start).2 with
    | nil => rw [hp] at hnh; simp at hnh
    | cons a l =>
      rw [hp] at hnh
      simp only [List.head?_cons, Option.some.injEq] at hnh
      rw [← hnh]
      exact List.mem_cons_self a l
  unfold nearestNeighborTSP
  by_cases hc : (nnLoop g (g.nodes.length + 1) [start] [start] start).1.length =
      g.nodes.length
  · rw [if_pos hc]
    have hpermnodes :
        (nnLoop g (g.nodes.length + 1) [start] [start] start).1.Perm g.nodes :=
      perm_of_nodup_subset_length hn1 (fun x hx => hnsub x hx) (by omega)
    have hall : ∀ v ∈ g.nodes,
        v ∈ (nnLoop g (g.nodes.length + 1) [start] [start] start).2 ++ [start] := by
      intro v hv
      exact List.mem_append_left [start] (hnp.mem_iff.mp (hpermnodes.mem_iff.mpr hv))
    constructor
    · refine ⟨fun _ => hall, fun _ => ⟨?_, List.getLast?_concat _⟩⟩
      have hpos := List.length_pos_of_mem hstart_mem
      simp only [List.length_append, List.length_cons, List.length_nil]
      omega
    · intro hnall
      exact absurd hall hnall
  · rw [if_neg hc]
    have hnall : ¬ (∀ v ∈ g.nodes, v ∈ (nnLoop g (g.nodes.length + 1) [start] [start] start).2) := by
      intro hall
      have hsubn : g.nodes ⊆ (nnLoop g (g.nodes.length + 1) [start] [start] start).2 :=
        fun x hx => hall x hx
      have := (hnodup.subperm hsubn).length_le
      omega
    constructor
    · constructor
      · intro ⟨h2len, hlast⟩
        obtain ⟨t, ht⟩ : ∃ t, (nnLoop g (g.nodes.length + 1) [start] [start] start).2 =
            start :: t := by
          cases hp : (nnLoop g (g.nodes.length + 1) [start] [start] start).2 with
          | nil => rw [hp] at hnh; simp at hnh
          | cons a l =>
            rw [hp] at hnh
            simp only [List.head?_cons, Option.some.injEq] at hnh
            exact ⟨l, by rw [← hnh]⟩
        rw [ht] at hlast h2len
        have htne : t ≠ [] := by
          intro hteq
          rw [hteq] at h2len
          simp at h2len
        exact absurd hlast (getLast_ne_head_of_nodup t start (ht ▸ hr2nodup) htne)
      · intro hall
        exact absurd hall hnall
    · intro _
      refine ⟨?_, ?_⟩
      · have h1 := List.nodup_iff_count_le_one.mp hr2nodup start
        have h2 := List.count_pos_iff.mpr hstart_mem
        omega
      · omega

/-- Witness for C9 on the complete 3-node instance. -/
theorem C9_nn_closure_iff_witness :
    ((2 ≤ (nearestNeighborTSP gW3 "a").length ∧
        (nearestNeighborTSP gW3 "a").getLast? = some "a") ↔
      (∀ v ∈ gW3.nodes, v ∈ nearestNeighborTSP gW3 "a")) ∧
    (¬ (∀ v ∈ gW3.nodes, v ∈ nearestNeighborTSP gW3 "a") →
      (nearestNeighborTSP gW3 "a").count "a" = 1 ∧
      (nearestNeighborTSP gW3 "a").length < gW3.nodes.length + 1) :=
  C9_nn_closure_iff gW3 "a" (by decide) (by decide) (by decide)

/-- Counterexample to C9 as stated: on a 2-node graph with no edges from
the start, the returned path `[start]` does end at the start node even
though not every node of the graph was visited, so the plain
"ends at the start iff all visited" equivalence fails. -/
theorem C9_counterexample :
    (nearestNeighborTSP gStuck "a").getLast? = some "a" ∧
      ¬ (∀ v ∈ gStuck.nodes, v ∈ nearestNeighborTSP gStuck "a") := by
  decide

/-! Brute-force theory: `permute` enumerates exactly the permutations,
and the best-candidate fold returns a minimal valid tour. -/

/-- `removeAt` drops exactly one element. -/
theorem removeAt_length (l : List String) (i : ℕ) (hi : i < l.length) :
    (removeAt l i).length = l.length - 1 := by
  unfold removeAt
  simp only [List.length_append, List.length_take, List.length_drop]
  omega

/-- Splitting off the `i`-th element is a permutation. -/
theorem perm_cons_removeAt (arr : List String) (i : ℕ) (hi : i < arr.length) :
    arr.Perm (arr.getD i "" :: removeAt arr i) := by
  rw [List.getD_eq_getElem arr "" hi]
  unfold removeAt
  have h2 : arr = arr.take i ++ arr[i] :: arr.drop (i + 1) := by
    conv_lhs => rw [← List.take_append_drop i arr]
    rw [List.drop_eq_getElem_cons hi]
  nth_rewrite 1 [h2]
  exact List.perm_middle

/-- Everything `permute` produces is a permutation of its input. -/
theorem permuteF_sound :
    ∀ (fuel : ℕ) (arr : List String), arr.length ≤ fuel →
      ∀ p ∈ permuteF fuel arr, p.Perm arr := by
  intro fuel
  induction fuel with
  | zero =>
    intro arr _ p hp
    simp only [permuteF, List.mem_singleton] at hp
    subst hp
    exact List.Perm.refl _
  | succ fuel ih =>
    intro arr hlen p hp
    rw [permuteF] at hp
    by_cases h1 : arr.length ≤ 1
    · rw [if_pos h1] at hp
      simp only [List.mem_singleton] at hp
      subst hp
      exact List.Perm.refl _
    · rw [if_neg h1] at hp
      simp only [List.mem_flatMap, List.mem_range, List.mem_map] at hp
      obtain ⟨i, hi, q, hq, rfl⟩ := hp
      have hq' : q.Perm (removeAt arr i) := by
        refine ih (removeAt arr i) ?_ q hq
        rw [removeAt_length arr i hi]
        omega
      exact (hq'.cons _).trans (perm_cons_removeAt arr i hi).symm

/-- Every permutation of the input occurs in `permute`'s output. -/
theorem permuteF_complete :
    ∀ (fuel : ℕ) (arr p : List String), arr.length ≤ fuel →
      p.Perm arr → p ∈ permuteF fuel arr := by
  intro fuel
  induction fuel with
  | zero =>
    intro arr p hlen hp
    have harr : arr = [] := List.length_eq_zero.mp (by omega)
    subst harr
    simp only [permuteF, List.mem_singleton]
    exact hp.eq_nil
  | succ fuel ih =>
    intro arr p hlen hp
    rw [permuteF]
    by_cases h1 : arr.length ≤ 1
    · rw [if_pos h1]
      simp only [List.mem_singleton]
      cases arr with
      | nil => exact hp.eq_nil
      | cons a t =>
        cases t with
        | nil => exact List.perm_singleton.mp hp
        | cons b u => simp at h1
    · rw [if_neg h1]
      cases hp2 : p with
      | nil =>
        rw [hp2] at hp
        have := hp.symm.eq_nil
        rw [this] at h1
        simp at h1
      | cons x t =>
        rw [hp2] at hp
        have hx : x ∈ arr := hp.mem_iff.mp (List.mem_cons_self x t)
        obtain ⟨i, hi, hgi⟩ := List.mem_iff_getElem.mp hx
        simp only [List.mem_flatMap, List.mem_range, List.mem_map]
        refine ⟨i, hi, t, ?_, ?_⟩
        · refine ih (removeAt arr i) t ?_ ?_
          · rw [removeAt_length arr i hi]; omega
          · have harr : arr.Perm (x :: removeAt arr i) := by
              have hpr := perm_cons_removeAt arr i hi
              rwa [List.getD_eq_getElem arr "" hi, hgi] at hpr
            exact (hp.trans harr).cons_inv
        · rw [List.getD_eq_getElem arr "" hi, hgi]

/-- `optLE` is reflexive. -/
theorem optLE_refl (a : Option ℚ) : optLE a a := by
  cases a <;> simp [optLE]

/-- `optLE` is transitive. -/
theorem optLE_trans {a b c : Option ℚ} (h1 : optLE a b) (h2 : optLE b c) : optLE a c := by
  cases a <;> cases b <;> cases c <;> simp [optLE] at *
  exact h1.trans h2

/-- A brute-force step never increases the incumbent cost. -/
theorem bfStep_le_acc (g : RouteGraph) (start : String) (acc : List String × Option ℚ)
    (perm : List String) : optLE (bfStep g start acc perm).2 acc.2 := by
  unfold bfStep
  dsimp only
  split
  · exact optLE_refl _
  · split
    · rename_i d hpd hacc
      rw [hacc]
      simp [optLE]
    · rename_i d hpd bd hacc
      split
      · rename_i hlt
        rw [hacc]
        simp only [optLE]
        exact le_of_lt hlt
      · exact optLE_refl _

/-- After a step the incumbent cost is at most the candidate's cost. -/
theorem bfStep_le_perm (g : RouteGraph) (start : String) (acc : List String × Option ℚ)
    (perm : List String) :
    optLE (bfStep g start acc perm).2 (pathDistance? g (start :: (perm ++ [start]))) := by
  unfold bfStep
  dsimp only
  split
  · rename_i hpd
    rw [hpd]
    simp [optLE]
  · rename_i d hpd
    rw [hpd]
    split
    · simp [optLE]
    · rename_i bd hacc
      split
      · simp [optLE]
      · rename_i hlt
        rw [hacc]
        simp only [optLE]
        exact le_of_not_lt hlt

/-- A brute-force step either keeps the accumulator or installs the
candidate tour with its (valid) distance. -/
theorem bfStep_cases (g : RouteGraph) (start : String) (acc : List String × Option ℚ)
    (perm : List String) :
    bfStep g start acc perm = acc ∨
      ∃ d, pathDistance? g (start :: (perm ++ [start])) = some d ∧
        bfStep g start acc perm = (start :: (perm ++ [start]), some d) := by
  unfold bfStep
  dsimp only
  split
  · exact Or.inl rfl
  · rename_i d hpd
    split
    · exact Or.inr ⟨d, hpd, rfl⟩
    · rename_i bd hacc
      split
      · exact Or.inr ⟨d, hpd, rfl⟩
      · exact Or.inl rfl

/-- The brute-force fold's final cost is a lower bound of the initial
cost and of every candidate's distance. -/
theorem bfFold_min (g : RouteGraph) (start : String) :
    ∀ (perms : List (List String)) (acc : List String × Option ℚ),
      optLE (perms.foldl (bfStep g start) acc).2 acc.2 ∧
        ∀ perm ∈ perms,
          optLE (perms.foldl (bfStep g start) acc).2
            (pathDistance? g (start :: (perm ++ [start]))) := by
  intro perms
  induction perms with
  | nil =>
    intro acc
    exact ⟨optLE_refl _, by simp⟩
  | cons perm perms ih =>
    intro acc
    rw [List.foldl_cons]
    obtain ⟨hle, hall⟩ := ih (bfStep g start acc perm)
    refine ⟨optLE_trans hle (bfStep_le_acc g start acc perm), ?_⟩
    intro q hq
    rcases List.mem_cons.mp hq with rfl | hq'
    · exact optLE_trans hle (bfStep_le_perm g start acc q)
    · exact hall q hq'

/-- The brute-force fold returns the untouched accumulator or a candidate
tour together with its distance. -/
theorem bfFold_attain (g : RouteGraph) (start : String) :
    ∀ (perms : List (List String)) (acc : List String × Option ℚ),
      perms.foldl (bfStep g start) acc = acc ∨
        ∃ perm ∈ perms, ∃ d,
          pathDistance? g (start :: (perm ++ [start])) = some d ∧
            perms.foldl (bfStep g start) acc = (start :: (perm ++ [start]), some d) := by
  intro perms
  induction perms with
  | nil => intro acc; exact Or.inl rfl
  | cons perm perms ih =>
    intro acc
    rw [List.foldl_cons]
    rcases ih (bfStep g start acc perm) with heq | ⟨q, hq, d, hd, heq⟩
    · rw [heq]
      rcases bfStep_cases g start acc perm with h | ⟨d, hd, h⟩
      · exact Or.inl h
      · exact Or.inr ⟨perm, List.mem_cons_self perm perms, d, hd, h⟩
    · exact Or.inr ⟨q, List.mem_cons_of_mem perm hq, d, hd, heq⟩

/-- On a fully connected graph, `findEdge` succeeds between any two
distinct nodes and returns an edge with the requested endpoints. -/
theorem findEdge_exists (g : RouteGraph) (hfc : FullyConnected g)
    {a b : String} (ha : a ∈ g.nodes) (hb : b ∈ g.nodes) (hab : a ≠ b) :
    ∃ e, findEdge g a b = some e ∧ e.from_ = a ∧ e.to_ = b ∧ e ∈ g.edges := by
  obtain ⟨e, he, hef, het⟩ := hfc a ha b hb hab
  have hsome : (g.edges.find? (fun e => e.from_ == a && e.to_ == b)).isSome = true := by
    rw [List.find?_isSome]
    exact ⟨e, he, by simp [hef, het]⟩
  obtain ⟨e', he'⟩ := Option.isSome_iff_exists.mp hsome
  have hp := List.find?_some he'
  simp only [Bool.and_eq_true, beq_iff_eq] at hp
  exact ⟨e', he', hp.1, hp.2, List.mem_of_find?_eq_some he'⟩

/-- In a pairwise edge-distinct list, `find?` locates a member edge by
its endpoints. -/
theorem find_edge_unique_aux :
    ∀ l : List RouteEdge,
      l.Pairwise (fun e e' => e.from_ ≠ e'.from_ ∨ e.to_ ≠ e'.to_) →
      ∀ e ∈ l, l.find? (fun x => x.from_ == e.from_ && x.to_ == e.to_) = some e := by
  intro l
  induction l with
  | nil => intro _ e he; simp at he
  | cons x l ih =>
    intro hu e he
    rcases List.mem_cons.mp he with rfl | he'
    · exact List.find?_cons_of_pos l (by simp)
    · have hrel := (List.pairwise_cons.mp hu).1 e he'
      have hx : ¬ (x.from_ == e.from_ && x.to_ == e.to_) = true := by
        rcases hrel with h | h <;> simp [h]
      rw [List.find?_cons_of_neg l hx]
      exact ih (List.pairwise_cons.mp hu).2 e he'

/-- With at most one edge per ordered pair, an edge of the graph is
exactly what `findEdge` returns for its endpoints. -/
theorem findEdge_eq_of_mem (g : RouteGraph) (hu : EdgesUnique g)
    {e : RouteEdge} (he : e ∈ g.edges) : findEdge g e.from_ e.to_ = some e :=
  find_edge_unique_aux g.edges hu e he

/-- A path whose consecutive elements are distinct graph nodes has a
valid total distance on a fully connected graph. -/
theorem pathDistance?_isSome_of_chain (g : RouteGraph) (hfc : FullyConnected g) :
    ∀ path : List String,
      path.Chain' (fun a b => a ∈ g.nodes ∧ b ∈ g.nodes ∧ a ≠ b) →
      ∃ d, pathDistance? g path = some d := by
  intro path
  induction path with
  | nil => intro _; exact ⟨0, rfl⟩
  | cons a rest ih =>
    intro hch
    cases rest with
    | nil => exact ⟨0, rfl⟩
    | cons b rest' =>
      obtain ⟨hab, hch'⟩ := List.chain'_cons.mp hch
      obtain ⟨d, hd⟩ := ih hch'
      obtain ⟨e, he, _, _, _⟩ := findEdge_exists g hfc hab.1 hab.2.1 hab.2.2
      refine ⟨e.distance + d, ?_⟩
      rw [pathDistance?]
      rw [he, hd]

/-- A duplicate-free node sequence avoiding the start, bracketed by
in-graph endpoints, forms a distinct-consecutive chain. -/
theorem chain_through (g : RouteGraph) (start : String) (hstart : start ∈ g.nodes) :
    ∀ (perm : List String) (c : String), c ∈ g.nodes →
      (∀ x ∈ perm, x ∈ g.nodes) → perm.Nodup → c ∉ perm → start ∉ perm →
      (perm = [] → c ≠ start) →
      (c :: (perm ++ [start])).Chain'
        (fun a b => a ∈ g.nodes ∧ b ∈ g.nodes ∧ a ≠ b) := by
  intro perm
  induction perm with
  | nil =>
    intro c hc _ _ _ _ hcs
    simp only [List.nil_append]
    exact List.chain'_cons.mpr ⟨⟨hc, hstart, hcs rfl⟩, List.chain'_singleton start⟩
  | cons x rest ih =>
    intro c hc hsub hnodup hcnm hsnm _
    simp only [List.cons_append]
    refine List.chain'_cons.mpr ⟨⟨hc, hsub x (List.mem_cons_self x rest), ?_⟩, ?_⟩
    · intro hcx
      exact hcnm (hcx ▸ List.mem_cons_self x rest)
    · refine ih x (hsub x (List.mem_cons_self x rest))
        (fun y hy => hsub y (List.mem_cons_of_mem x hy))
        (List.nodup_cons.mp hnodup).2
        (List.nodup_cons.mp hnodup).1
        (fun hs => hsnm (List.mem_cons_of_mem x hs))
        (fun _ hxs => hsnm (hxs ▸ List.mem_cons_self x rest))

/-- The non-start node list of a valid instance: duplicate-free, inside
the node set, avoiding the start, non-empty, and completing the node set. -/
theorem otherNodes_facts (g : RouteGraph) (start : String) (h : ValidInstance g start) :
    (g.nodes.filter (fun x => x != start)).Nodup ∧
      (∀ x ∈ g.nodes.filter (fun x => x != start), x ∈ g.nodes ∧ x ≠ start) ∧
      g.nodes.filter (fun x => x != start) ≠ [] ∧
      g.nodes.Perm (start :: g.nodes.filter (fun x => x != start)) := by
  obtain ⟨⟨hnodup, _, _⟩, _, _, hstart, hn2⟩ := h
  refine ⟨hnodup.filter _, ?_, ?_, ?_⟩
  · intro x hx
    obtain ⟨hmem, hne⟩ := List.mem_filter.mp hx
    exact ⟨hmem, by simpa using hne⟩
  · intro hempty
    have hall : ∀ x ∈ g.nodes, x = start := by
      intro x hx
      by_contra hne
      have : x ∈ g.nodes.filter (fun x => x != start) :=
        List.mem_filter.mpr ⟨hx, by simpa using hne⟩
      rw [hempty] at this
      exact List.not_mem_nil x this
    have hsub : g.nodes ⊆ [start] := fun x hx => by
      rw [hall x hx]; exact List.mem_singleton_self start
    have := (hnodup.subperm hsub).length_le
    simp at this
    omega
  · have h1 := List.perm_cons_erase hstart
    rwa [hnodup.erase_eq_filter start] at h1

/-- Main brute-force theorem on valid instances within the cutoff: the
result is a closed tour whose distance is minimal among all closed tours
(stated over all permutations of the non-start nodes). -/
theorem bruteForceTSP_spec (g : RouteGraph) (start : String) (h : ValidInstance g start)
    (h8 : (g.nodes.filter (fun x => x != start)).length ≤ 8) :
    IsClosedTour g start (bruteForceTSP g start) ∧
      ∃ d, pathDistance? g (bruteForceTSP g start) = some d ∧
        ∀ p, p.Perm (g.nodes.filter (fun x => x != start)) →
          ∀ d', pathDistance? g (start :: (p ++ [start])) = some d' → d ≤ d' := by
  obtain ⟨hofn, hofm, hofne, hperm_other⟩ := otherNodes_facts g start h
  obtain ⟨⟨hnodup, hempty, hedges⟩, hu, hfc, hstart, hn2⟩ := h
  have hofs : start ∉ g.nodes.filter (fun x => x != start) := by
    intro hmem
    exact (hofm start hmem).2 rfl
  -- the identity permutation yields a valid closed tour
  have hchain := chain_through g start hstart (g.nodes.filter (fun x => x != start)) start
    hstart (fun x hx => (hofm x hx).1) hofn hofs hofs (fun he => absurd he hofne)
  obtain ⟨d0, hd0⟩ := pathDistance?_isSome_of_chain g hfc _ hchain
  have hid_mem : g.nodes.filter (fun x => x != start) ∈
      permute (g.nodes.filter (fun x => x != start)) :=
    permuteF_complete _ _ _ (le_refl _) (List.Perm.refl _)
  -- the fold result
  have hmin := bfFold_min g start (permute (g.nodes.filter (fun x => x != start))) ([], none)
  have hattain := bfFold_attain g start (permute (g.nodes.filter (fun x => x != start)))
    ([], none)
  have hne_none :
      (bfFold g start (permute (g.nodes.filter (fun x => x != start)))).2 ≠ none := by
    intro hnone
    have hle := hmin.2 _ hid_mem
    unfold bfFold at hnone
    rw [hnone] at hle
    rw [hd0] at hle
    simp [optLE] at hle
  rcases hattain with heq | ⟨perm, hpmem, d, hd, heq⟩
  · exfalso
    apply hne_none
    unfold bfFold
    rw [heq]
  · -- unfold bruteForceTSP
    have hnot8 : ¬ (g.nodes.filter (fun x => x != start)).length > 8 := by omega
    have hbf : bruteForceTSP g start = start :: (perm ++ [start]) := by
      unfold bruteForceTSP
      rw [if_neg hnot8]
      unfold bfFold
      rw [heq]
      simp
    have hpperm : perm.Perm (g.nodes.filter (fun x => x != start)) :=
      permuteF_sound _ _ (le_refl _) perm hpmem
    constructor
    · rw [hbf]
      refine ⟨rfl, ?_, ?_⟩
      · rw [show start :: (perm ++ [start]) = (start :: perm) ++ [start] from rfl]
        exact List.getLast?_concat _
      · rw [show start :: (perm ++ [start]) = (start :: perm) ++ [start] from rfl]
        rw [List.dropLast_concat]
        exact ((hpperm.cons start).trans hperm_other.symm)
    · refine ⟨d, by rw [hbf]; exact hd, ?_⟩
      intro p hp d' hd'
      have hp_mem : p ∈ permute (g.nodes.filter (fun x => x != start)) :=
        permuteF_complete _ _ _ (le_refl _) hp
      have hle := hmin.2 p hp_mem
      rw [heq, hd'] at hle
      simpa [optLE] using hle

/-! Held-Karp theory: association lists, the index/matrix encoding, the
monotone evolution of the DP table, and parent-pointer reconstruction. -/

/-- Reading back the just-written key. -/
theorem alistGet_set_self {β : Type} (l : List (ℕ × β)) (k : ℕ) (v : β) :
    alistGet (alistSet l k v) k = some v := by
  simp [alistGet, alistSet]

/-- Other keys are unaffected by a write. -/
theorem alistGet_set_ne {β : Type} (l : List (ℕ × β)) (k k' : ℕ) (v : β) (h : k' ≠ k) :
    alistGet (alistSet l k v) k' = alistGet l k' := by
  simp [alistGet, alistSet, List.find?_cons_of_neg, h, Ne.symm h]

/-- Effect of `dpSet` on the cost table. -/
theorem dpGet_dpSet (st : DPState) (mask v : ℕ) (c : ℚ) (u mask' v' : ℕ) :
    dpGet (dpSet st mask v c u) mask' v' =
      if mask' = mask ∧ v' = v then some c else dpGet st mask' v' := by
  unfold dpGet dpSet
  by_cases hm : mask' = mask
  · subst hm
    rw [alistGet_set_self]
    by_cases hv : v' = v
    · subst hv
      simp [alistGet_set_self]
    · simp only [hv, and_false, if_false, Option.bind]
      rw [alistGet_set_ne _ _ _ _ hv]
      cases halist : alistGet st.dp mask' with
      | none => simp [alistGet]
      | some inner => simp
  · rw [alistGet_set_ne _ _ _ _ hm]
    simp [hm]

/-- Effect of `dpSet` on the parent table. -/
theorem pGet_dpSet (st : DPState) (mask v : ℕ) (c : ℚ) (u mask' v' : ℕ) :
    pGet (dpSet st mask v c u) mask' v' =
      if mask' = mask ∧ v' = v then some u else pGet st mask' v' := by
  unfold pGet dpSet
  by_cases hm : mask' = mask
  · subst hm
    rw [alistGet_set_self]
    by_cases hv : v' = v
    · subst hv
      simp [alistGet_set_self]
    · simp only [hv, and_false, if_false, Option.bind]
      rw [alistGet_set_ne _ _ _ _ hv]
      cases halist : alistGet st.parent mask' with
      | none => simp [alistGet]
      | some inner => simp
  · rw [alistGet_set_ne _ _ _ _ hm]
    simp [hm]

/-- A `dpSet` leaves the outer cost table populated at the written mask. -/
theorem dpSet_outer_some (st : DPState) (mask v : ℕ) (c : ℚ) (u : ℕ) :
    alistGet (dpSet st mask v c u).dp mask ≠ none := by
  unfold dpSet
  simp [alistGet_set_self]

/-- What a successful `nodeToIndex` lookup means: an in-range index whose
entry is the searched id. -/
theorem nodeToIndex_spec (nodes : List String) (s : String) :
    ∀ i, nodeToIndex nodes s = some i → i < nodes.length ∧ nodes[i]? = some s := by
  suffices h : ∀ (ps : List (ℕ × String)) (acc : Option ℕ),
      (∀ p ∈ ps, p.1 < nodes.length ∧ nodes[p.1]? = some p.2) →
      (∀ i, acc = some i → i < nodes.length ∧ nodes[i]? = some s) →
      ∀ i, ps.foldl (fun acc p => if p.2 = s then some p.1 else acc) acc = some i →
        i < nodes.length ∧ nodes[i]? = some s by
    intro i hi
    refine h nodes.enum none ?_ (by simp) i hi
    intro p hp
    have h1 := List.fst_lt_of_mem_enum hp
    have h2 := List.snd_eq_of_mem_enum hp
    refine ⟨h1, ?_⟩
    rw [List.getElem?_eq_getElem h1, h2]
  intro ps
  induction ps with
  | nil => intro acc _ hacc i hi; exact hacc i hi
  | cons p ps ih =>
    intro acc hps hacc i hi
    rw [List.foldl_cons] at hi
    refine ih _ (fun q hq => hps q (List.mem_cons_of_mem p hq)) ?_ i hi
    intro j hj
    by_cases hps2 : p.2 = s
    · rw [if_pos hps2] at hj
      obtain ⟨h1, h2⟩ := hps p (List.mem_cons_self p ps)
      injection hj with hj'
      subst hj'
      exact ⟨h1, by rw [h2, hps2]⟩
    · rw [if_neg hps2] at hj
      exact hacc j hj

/-- A present id is found by `nodeToIndex`. -/
theorem nodeToIndex_isSome (nodes : List String) (s : String) (hs : s ∈ nodes) :
    (nodeToIndex nodes s).isSome = true := by
  obtain ⟨i, hi, hgi⟩ := List.mem_iff_getElem.mp hs
  suffices h : ∀ (ps : List (ℕ × String)) (acc : Option ℕ),
      (acc.isSome = true ∨ ∃ q ∈ ps, q.2 = s) →
      (ps.foldl (fun acc p => if p.2 = s then some p.1 else acc) acc).isSome = true by
    refine h nodes.enum none (Or.inr ⟨(i, s), ?_, rfl⟩)
    rw [List.mem_enum_iff_getElem?]
    rw [List.getElem?_eq_getElem hi, hgi]
  intro ps
  induction ps with
  | nil =>
    intro acc hacc
    rcases hacc with h | ⟨q, hq, _⟩
    · exact h
    · exact absurd hq (List.not_mem_nil q)
  | cons p ps ih =>
    intro acc hacc
    rw [List.foldl_cons]
    apply ih
    by_cases hp2 : p.2 = s
    · rw [if_pos hp2]; simp
    · rw [if_neg hp2]
      rcases hacc with h | ⟨q, hq, hq2⟩
      · exact Or.inl h
      · rcases List.mem_cons.mp hq with rfl | hq'
        · exact absurd hq2 hp2
        · exact Or.inr ⟨q, hq', hq2⟩

/-- On duplicate-free nodes, the index of the `i`-th entry is `i`. -/
theorem nodeToIndex_getElem (nodes : List String) (hnodup : nodes.Nodup)
    (i : ℕ) (hi : i < nodes.length) :
    nodeToIndex nodes (nodes[i]) = some i := by
  have hs : nodes[i] ∈ nodes := List.getElem_mem hi
  have hsome := nodeToIndex_isSome nodes (nodes[i]) hs
  obtain ⟨j, hj⟩ := Option.isSome_iff_exists.mp hsome
  obtain ⟨hjl, hjg⟩ := nodeToIndex_spec nodes (nodes[i]) j hj
  rw [List.getElem?_eq_getElem hjl] at hjg
  injection hjg with hjg'
  have : j = i := (hnodup.getElem_inj_iff).mp hjg'
  rw [hj, this]

/-- An edge whose endpoints are not the `i`-th and `j`-th nodes leaves
the `(i, j)` cell untouched. -/
theorem distStep_preserve (nodes : List String) (d : ℕ → ℕ → Option ℚ) (e : RouteEdge)
    (i j : ℕ)
    (h : ¬ (nodeToIndex nodes e.from_ = some i ∧ nodeToIndex nodes e.to_ = some j)) :
    distStep nodes d e i j = d i j := by
  unfold distStep
  cases hfa : nodeToIndex nodes e.from_ with
  | none => rfl
  | some a =>
    cases htb : nodeToIndex nodes e.to_ with
    | none => rfl
    | some b =>
      dsimp only
      rw [if_neg]
      intro ⟨hia, hjb⟩
      exact h ⟨by rw [hfa, hia], by rw [htb, hjb]⟩

/-- Characterization of the `nodeToIndex` write condition through ids. -/
theorem distWrite_iff (nodes : List String) (hnodup : nodes.Nodup) (s : String)
    (_hs : s ∈ nodes) (i : ℕ) (hi : i < nodes.length) :
    nodeToIndex nodes s = some i ↔ s = nodes[i] := by
  constructor
  · intro h
    obtain ⟨_, hg⟩ := nodeToIndex_spec nodes s i h
    rw [List.getElem?_eq_getElem hi] at hg
    injection hg with hg'
    exact hg'.symm
  · intro h
    rw [h]
    exact nodeToIndex_getElem nodes hnodup i hi

/-- Edges that never write the `(i, j)` cell leave it untouched through
the whole fold. -/
theorem distFold_preserve (nodes : List String) (i j : ℕ) :
    ∀ (es : List RouteEdge) (d0 : ℕ → ℕ → Option ℚ),
      (∀ e ∈ es, ¬ (nodeToIndex nodes e.from_ = some i ∧ nodeToIndex nodes e.to_ = some j)) →
      (es.foldl (distStep nodes) d0) i j = d0 i j := by
  intro es
  induction es with
  | nil => intro d0 _; rfl
  | cons e es ih =>
    intro d0 h
    rw [List.foldl_cons]
    rw [ih (distStep nodes d0 e) (fun e' he' => h e' (List.mem_cons_of_mem e he'))]
    exact distStep_preserve nodes d0 e i j (h e (List.mem_cons_self e es))

/-- The matrix cell after folding a uniquely-paired edge list equals the
first matching edge's distance, or the initial cell. -/
theorem distFold_cell (nodes : List String) (hnodup : nodes.Nodup) (i j : ℕ)
    (hi : i < nodes.length) (hj : j < nodes.length) :
    ∀ (es : List RouteEdge) (d0 : ℕ → ℕ → Option ℚ),
      es.Pairwise (fun e e' => e.from_ ≠ e'.from_ ∨ e.to_ ≠ e'.to_) →
      (∀ e ∈ es, e.from_ ∈ nodes ∧ e.to_ ∈ nodes) →
      (es.foldl (distStep nodes) d0) i j =
        (match es.find? (fun e => e.from_ == nodes[i] && e.to_ == nodes[j]) with
          | some e => some e.distance
          | none => d0 i j) := by
  intro es
  induction es with
  | nil => intro d0 _ _; rfl
  | cons e es ih =>
    intro d0 hpw hwf
    rw [List.foldl_cons]
    obtain ⟨hef, het⟩ := hwf e (List.mem_cons_self e es)
    by_cases hmatch : e.from_ = nodes[i] ∧ e.to_ = nodes[j]
    · rw [List.find?_cons_of_pos es (by simp [hmatch.1, hmatch.2])]
      have hwrite : distStep nodes d0 e i j = some e.distance := by
        unfold distStep
        rw [(distWrite_iff nodes hnodup e.from_ hef i hi).mpr hmatch.1,
          (distWrite_iff nodes hnodup e.to_ het j hj).mpr hmatch.2]
        simp
      have hnone : ∀ e' ∈ es,
          ¬ (nodeToIndex nodes e'.from_ = some i ∧ nodeToIndex nodes e'.to_ = some j) := by
        intro e' he' hw
        obtain ⟨hef', het'⟩ := hwf e' (List.mem_cons_of_mem e he')
        have hfrom' := (distWrite_iff nodes hnodup e'.from_ hef' i hi).mp hw.1
        have hto' := (distWrite_iff nodes hnodup e'.to_ het' j hj).mp hw.2
        rcases (List.pairwise_cons.mp hpw).1 e' he' with hne | hne
        · exact hne (hmatch.1.trans hfrom'.symm)
        · exact hne (hmatch.2.trans hto'.symm)
      rw [distFold_preserve nodes i j es (distStep nodes d0 e) hnone, hwrite]
    · rw [List.find?_cons_of_neg es (by simpa using hmatch)]
      rw [ih (distStep nodes d0 e) (List.pairwise_cons.mp hpw).2
        (fun e' he' => hwf e' (List.mem_cons_of_mem e he'))]
      have hpres : distStep nodes d0 e i j = d0 i j := by
        refine distStep_preserve nodes d0 e i j ?_
        intro hw
        exact hmatch ⟨(distWrite_iff nodes hnodup e.from_ hef i hi).mp hw.1,
          (distWrite_iff nodes hnodup e.to_ het j hj).mp hw.2⟩
      cases hfind : es.find? (fun e => e.from_ == nodes[i] && e.to_ == nodes[j]) with
      | none => simp [hpres]
      | some e' => simp

/-- The `dist` matrix agrees with `findEdge` on in-range index pairs. -/
theorem distMatrix_eq (g : RouteGraph) (hnodup : g.nodes.Nodup)
    (hwfe : ∀ e ∈ g.edges, e.from_ ∈ g.nodes ∧ e.to_ ∈ g.nodes) (hu : EdgesUnique g)
    (i j : ℕ) (hi : i < g.nodes.length) (hj : j < g.nodes.length) :
    distMatrix g i j =
      (findEdge g (g.nodes[i]) (g.nodes[j])).map (fun e => e.distance) := by
  unfold distMatrix findEdge
  rw [distFold_cell g.nodes hnodup i j hi hj g.edges _ hu hwfe]
  cases hfind : g.edges.find? (fun e => e.from_ == g.nodes[i] && e.to_ == g.nodes[j]) with
  | none => rfl
  | some e => rfl


/-- The bit pattern of `1 <<< v`, in shift form. -/
theorem testBit_one_shiftLeft (v w : ℕ) :
    (1 <<< v).testBit w = decide (v = w) := by
  rw [Nat.one_shiftLeft]; exact Nat.testBit_two_pow

/-- Adding a fresh bit and removing it again returns the original mask. -/
theorem or_shift_xor (m v : ℕ) (h : m.testBit v = false) :
    (m ||| (1 <<< v)) ^^^ (1 <<< v) = m := by
  apply Nat.eq_of_testBit_eq
  intro i
  rw [Nat.testBit_xor, Nat.testBit_or, testBit_one_shiftLeft]
  by_cases hiv : v = i
  · subst hiv; simp [h]
  · simp [hiv]

/-- Adding a fresh bit strictly increases the mask. -/
theorem lt_or_shift (m v : ℕ) (h : m.testBit v = false) :
    m < m ||| (1 <<< v) := by
  apply Nat.lt_of_testBit v h
  · rw [Nat.testBit_or, testBit_one_shiftLeft]; simp
  · intro j hj
    rw [Nat.testBit_or, testBit_one_shiftLeft]
    simp [Nat.ne_of_lt hj]

/-- Removing a set bit strictly decreases the mask. -/
theorem xor_shift_lt (μ v : ℕ) (h : μ.testBit v = true) :
    μ ^^^ (1 <<< v) < μ := by
  apply Nat.lt_of_testBit v
  · rw [Nat.testBit_xor, testBit_one_shiftLeft]; simp [h]
  · exact h
  · intro j hj
    rw [Nat.testBit_xor, testBit_one_shiftLeft]
    simp [Nat.ne_of_lt hj]

/-- Removing the `v` bit leaves every other bit unchanged. -/
theorem testBit_xor_shift_ne (μ v w : ℕ) (h : w ≠ v) :
    (μ ^^^ (1 <<< v)).testBit w = μ.testBit w := by
  rw [Nat.testBit_xor, testBit_one_shiftLeft]
  simp [Ne.symm h]

/-- Removing the `v` bit clears it. -/
theorem testBit_xor_shift_self (μ v : ℕ) (h : μ.testBit v = true) :
    (μ ^^^ (1 <<< v)).testBit v = false := by
  rw [Nat.testBit_xor, testBit_one_shiftLeft]
  simp [h]

/-- Adding the `v` bit leaves every other bit unchanged. -/
theorem testBit_or_shift_ne (m v w : ℕ) (h : w ≠ v) :
    (m ||| (1 <<< v)).testBit w = m.testBit w := by
  rw [Nat.testBit_or, testBit_one_shiftLeft]
  simp [Ne.symm h]

/-- Adding the `v` bit sets it. -/
theorem testBit_or_shift_self (m v : ℕ) :
    (m ||| (1 <<< v)).testBit v = true := by
  rw [Nat.testBit_or, testBit_one_shiftLeft]
  simp

/-- Adding a low bit keeps the mask below `2 ^ n`. -/
theorem or_shift_lt_two_pow (m v n : ℕ) (hm : m < 2 ^ n) (hv : v < n) :
    m ||| (1 <<< v) < 2 ^ n := by
  refine Nat.or_lt_two_pow hm ?_
  rw [Nat.one_shiftLeft]
  exact Nat.pow_lt_pow_right (by norm_num) hv

/-- A relaxation step either leaves the state unchanged or performs the
guarded improving write at `mask ||| (1 <<< v)`. -/
theorem dpRelaxStep_eq_or (dist : ℕ → ℕ → Option ℚ) (mask u : ℕ) (c : ℚ)
    (st' : DPState) (v : ℕ) :
    dpRelaxStep dist mask u c st' v = st' ∨
    ∃ d, mask.testBit v = false ∧ dist u v = some d ∧
      optLE (some (c + d)) (dpGet st' (mask ||| (1 <<< v)) v) ∧
      dpRelaxStep dist mask u c st' v = dpSet st' (mask ||| (1 <<< v)) v (c + d) u := by
  unfold dpRelaxStep
  by_cases hb : mask.testBit v
  · left; rw [if_pos hb]
  · rw [if_neg hb]
    cases hd : dist u v with
    | none => left; rfl
    | some d =>
      dsimp only
      cases hg : dpGet st' (mask ||| (1 <<< v)) v with
      | none =>
        right
        exact ⟨d, by simpa using hb, rfl, trivial, rfl⟩
      | some old =>
        by_cases hlt : c + d < old
        · right
          refine ⟨d, by simpa using hb, rfl, ?_, by dsimp only; rw [if_pos hlt]⟩
          exact le_of_lt hlt
        · left; dsimp only; rw [if_neg hlt]

/-- A relaxation step never touches cells at masks at or below the one
being processed. -/
theorem dpRelaxStep_freeze (dist : ℕ → ℕ → Option ℚ) (mask u : ℕ) (c : ℚ)
    (st' : DPState) (v : ℕ) (μ v' : ℕ) (hμ : μ ≤ mask) :
    dpGet (dpRelaxStep dist mask u c st' v) μ v' = dpGet st' μ v' ∧
    pGet (dpRelaxStep dist mask u c st' v) μ v' = pGet st' μ v' := by
  rcases dpRelaxStep_eq_or dist mask u c st' v with h | ⟨d, hb, hd, hle, h⟩
  · rw [h]; exact ⟨rfl, rfl⟩
  · have hne : μ ≠ mask ||| (1 <<< v) := by
      have := lt_or_shift mask v hb
      omega
    rw [h, dpGet_dpSet, pGet_dpSet,
      if_neg (fun hc => hne (And.left hc)), if_neg (fun hc => hne (And.left hc))]
    exact ⟨rfl, rfl⟩

/-- A relaxation step never increases any cost cell. -/
theorem dpRelaxStep_mono (dist : ℕ → ℕ → Option ℚ) (mask u : ℕ) (c : ℚ)
    (st' : DPState) (v : ℕ) : DPLe (dpRelaxStep dist mask u c st' v) st' := by
  intro μ w
  rcases dpRelaxStep_eq_or dist mask u c st' v with h | ⟨d, hb, hd, hle, h⟩
  · rw [h]; exact optLE_refl _
  · rw [h, dpGet_dpSet]
    by_cases hc : μ = mask ||| (1 <<< v) ∧ w = v
    · rw [if_pos hc]
      obtain ⟨h1, h2⟩ := hc
      rw [h1, h2]
      exact hle
    · rw [if_neg hc]; exact optLE_refl _

/-- `DPLe` is reflexive. -/
theorem DPLe_refl (st : DPState) : DPLe st st := fun _ _ => optLE_refl _

/-- `DPLe` is transitive. -/
theorem DPLe_trans {a b c : DPState} (h1 : DPLe a b) (h2 : DPLe b c) : DPLe a c :=
  fun μ v => optLE_trans (h1 μ v) (h2 μ v)

/-- Folding any pointwise non-increasing step is pointwise non-increasing. -/
theorem foldl_DPLe {α : Type} (f : DPState → α → DPState)
    (hf : ∀ st a, DPLe (f st a) st) :
    ∀ (l : List α) (st : DPState), DPLe (l.foldl f st) st := by
  intro l
  induction l with
  | nil => intro st; exact DPLe_refl st
  | cons a t ih => intro st; exact DPLe_trans (ih (f st a)) (hf st a)

/-- Folding a step that fixes all cells at masks satisfying `P` fixes
those cells. -/
theorem foldl_freeze {α : Type} (f : DPState → α → DPState) (P : ℕ → Prop)
    (hf : ∀ st a μ v, P μ →
      dpGet (f st a) μ v = dpGet st μ v ∧ pGet (f st a) μ v = pGet st μ v) :
    ∀ (l : List α) (st : DPState) (μ v : ℕ), P μ →
      dpGet (l.foldl f st) μ v = dpGet st μ v ∧
      pGet (l.foldl f st) μ v = pGet st μ v := by
  intro l
  induction l with
  | nil => intro st μ v _; exact ⟨rfl, rfl⟩
  | cons a t ih =>
    intro st μ v hP
    obtain ⟨h1, h2⟩ := ih (f st a) μ v hP
    obtain ⟨h3, h4⟩ := hf st a μ v hP
    exact ⟨h1.trans h3, h2.trans h4⟩

/-- The whole relaxation loop from `u` fixes cells at masks `≤ mask`. -/
theorem dpRelaxFrom_freeze (dist : ℕ → ℕ → Option ℚ) (n mask u : ℕ) (c : ℚ)
    (st : DPState) (μ v : ℕ) (hμ : μ ≤ mask) :
    dpGet (dpRelaxFrom dist n mask u c st) μ v = dpGet st μ v ∧
    pGet (dpRelaxFrom dist n mask u c st) μ v = pGet st μ v :=
  foldl_freeze (dpRelaxStep dist mask u c) (· ≤ mask)
    (fun st' a μ' v' h => dpRelaxStep_freeze dist mask u c st' a μ' v' h)
    (List.range n) st μ v hμ

/-- The whole relaxation loop is pointwise non-increasing. -/
theorem dpRelaxFrom_mono (dist : ℕ → ℕ → Option ℚ) (n mask u : ℕ) (c : ℚ)
    (st : DPState) : DPLe (dpRelaxFrom dist n mask u c st) st :=
  foldl_DPLe (dpRelaxStep dist mask u c)
    (fun st' a => dpRelaxStep_mono dist mask u c st' a) (List.range n) st

/-- Processing one `u` fixes cells at masks `≤ mask`. -/
theorem dpProcessU_freeze (dist : ℕ → ℕ → Option ℚ) (n mask : ℕ)
    (st : DPState) (u : ℕ) (μ v : ℕ) (hμ : μ ≤ mask) :
    dpGet (dpProcessU dist n mask st u) μ v = dpGet st μ v ∧
    pGet (dpProcessU dist n mask st u) μ v = pGet st μ v := by
  unfold dpProcessU
  by_cases hb : mask.testBit u
  · rw [if_pos hb]
    cases hg : dpGet st mask u with
    | none => exact ⟨rfl, rfl⟩
    | some c => exact dpRelaxFrom_freeze dist n mask u c st μ v hμ
  · rw [if_neg hb]; exact ⟨rfl, rfl⟩

/-- Processing one `u` is pointwise non-increasing. -/
theorem dpProcessU_mono (dist : ℕ → ℕ → Option ℚ) (n mask : ℕ)
    (st : DPState) (u : ℕ) : DPLe (dpProcessU dist n mask st u) st := by
  unfold dpProcessU
  by_cases hb : mask.testBit u
  · rw [if_pos hb]
    cases hg : dpGet st mask u with
    | none => exact DPLe_refl st
    | some c => exact dpRelaxFrom_mono dist n mask u c st
  · rw [if_neg hb]; exact DPLe_refl st

/-- Processing a whole mask fixes cells at masks `≤ mask`. -/
theorem dpProcessMask_freeze (dist : ℕ → ℕ → Option ℚ) (n : ℕ)
    (st : DPState) (mask : ℕ) (μ v : ℕ) (hμ : μ ≤ mask) :
    dpGet (dpProcessMask dist n st mask) μ v = dpGet st μ v ∧
    pGet (dpProcessMask dist n st mask) μ v = pGet st μ v := by
  unfold dpProcessMask
  cases ho : alistGet st.dp mask with
  | none => exact ⟨rfl, rfl⟩
  | some inner =>
    exact foldl_freeze (dpProcessU dist n mask) (· ≤ mask)
      (fun st' a μ' v' h => dpProcessU_freeze dist n mask st' a μ' v' h)
      (List.range n) st μ v hμ

/-- Processing a whole mask is pointwise non-increasing. -/
theorem dpProcessMask_mono (dist : ℕ → ℕ → Option ℚ) (n : ℕ)
    (st : DPState) (mask : ℕ) : DPLe (dpProcessMask dist n st mask) st := by
  unfold dpProcessMask
  cases ho : alistGet st.dp mask with
  | none => exact DPLe_refl st
  | some inner =>
    exact foldl_DPLe (dpProcessU dist n mask)
      (fun st' a => dpProcessU_mono dist n mask st' a) (List.range n) st

/-- A populated cost cell has a populated outer dictionary. -/
theorem dpGet_some_outer (st : DPState) (μ v : ℕ) (c : ℚ) (h : dpGet st μ v = some c) :
    ∃ inner, alistGet st.dp μ = some inner := by
  unfold dpGet at h
  cases ho : alistGet st.dp μ with
  | none => rw [ho] at h; simp at h
  | some inner => exact ⟨inner, rfl⟩

/-- After its own relaxation step, the target cell is at most `c + d`. -/
theorem dpRelaxStep_progress (dist : ℕ → ℕ → Option ℚ) (mask u : ℕ) (c : ℚ)
    (st' : DPState) (v : ℕ) (d : ℚ)
    (hb : mask.testBit v = false) (hd : dist u v = some d) :
    optLE (dpGet (dpRelaxStep dist mask u c st' v) (mask ||| (1 <<< v)) v)
      (some (c + d)) := by
  unfold dpRelaxStep
  rw [if_neg (by simp [hb]), hd]
  dsimp only
  cases hg : dpGet st' (mask ||| (1 <<< v)) v with
  | none =>
    dsimp only
    rw [dpGet_dpSet, if_pos ⟨rfl, rfl⟩]
    exact le_refl _
  | some old =>
    dsimp only
    by_cases hlt : c + d < old
    · rw [if_pos hlt, dpGet_dpSet, if_pos ⟨rfl, rfl⟩]
      exact le_refl _
    · rw [if_neg hlt, hg]
      exact le_of_not_lt hlt

/-- Once the relaxation loop has passed over `v`, the target cell is at
most `c + d`; later steps only lower it further. -/
theorem foldl_relaxStep_progress (dist : ℕ → ℕ → Option ℚ) (mask u : ℕ) (c : ℚ)
    (v : ℕ) (d : ℚ) (hb : mask.testBit v = false) (hd : dist u v = some d) :
    ∀ (l : List ℕ) (st : DPState), v ∈ l →
      optLE (dpGet (l.foldl (dpRelaxStep dist mask u c) st) (mask ||| (1 <<< v)) v)
        (some (c + d)) := by
  intro l
  induction l with
  | nil => intro st hv; cases hv
  | cons a t ih =>
    intro st hv
    rw [List.foldl_cons]
    rcases List.mem_cons.mp hv with hav | hvt
    · subst hav
      refine optLE_trans ?_ (dpRelaxStep_progress dist mask u c st v d hb hd)
      exact foldl_DPLe (dpRelaxStep dist mask u c)
        (fun st' x => dpRelaxStep_mono dist mask u c st' x) t _ _ _
    · exact ih _ hvt

/-- The relaxation loop from `u` with value `c` drives the cell at
`mask ||| (1 <<< v)` down to at most `c + dist u v`. -/
theorem dpRelaxFrom_progress (dist : ℕ → ℕ → Option ℚ) (n mask u : ℕ) (c : ℚ)
    (st : DPState) (v : ℕ) (d : ℚ) (hv : v < n)
    (hb : mask.testBit v = false) (hd : dist u v = some d) :
    optLE (dpGet (dpRelaxFrom dist n mask u c st) (mask ||| (1 <<< v)) v)
      (some (c + d)) :=
  foldl_relaxStep_progress dist mask u c v d hb hd (List.range n) st
    (List.mem_range.mpr hv)

/-- Processing `u` (when its cell holds `c`) drives the cell at
`mask ||| (1 <<< v)` down to at most `c + dist u v`. -/
theorem dpProcessU_progress (dist : ℕ → ℕ → Option ℚ) (n mask : ℕ)
    (st : DPState) (u : ℕ) (c : ℚ) (v : ℕ) (d : ℚ)
    (hbu : mask.testBit u = true) (hc : dpGet st mask u = some c)
    (hv : v < n) (hb : mask.testBit v = false) (hd : dist u v = some d) :
    optLE (dpGet (dpProcessU dist n mask st u) (mask ||| (1 <<< v)) v)
      (some (c + d)) := by
  unfold dpProcessU
  rw [if_pos hbu, hc]
  exact dpRelaxFrom_progress dist n mask u c st v d hv hb hd

/-- Folding the `u` loop over a list containing `u` drives the cell at
`mask ||| (1 <<< v)` down to at most `dp[mask][u] + dist u v`. -/
theorem foldl_processU_progress (dist : ℕ → ℕ → Option ℚ) (n mask : ℕ)
    (u : ℕ) (c : ℚ) (v : ℕ) (d : ℚ)
    (hbu : mask.testBit u = true) (hv : v < n)
    (hb : mask.testBit v = false) (hd : dist u v = some d) :
    ∀ (l : List ℕ) (st : DPState), u ∈ l → dpGet st mask u = some c →
      optLE (dpGet (l.foldl (dpProcessU dist n mask) st) (mask ||| (1 <<< v)) v)
        (some (c + d)) := by
  intro l
  induction l with
  | nil => intro st hu; cases hu
  | cons a t ih =>
    intro st hu hc
    rw [List.foldl_cons]
    rcases List.mem_cons.mp hu with hau | hut
    · subst hau
      refine optLE_trans ?_ (dpProcessU_progress dist n mask st u c v d hbu hc hv hb hd)
      exact foldl_DPLe (dpProcessU dist n mask)
        (fun st' x => dpProcessU_mono dist n mask st' x) t _ _ _
    · refine ih _ hut ?_
      rw [(dpProcessU_freeze dist n mask st a mask u (le_refl mask)).1]
      exact hc

/-- Processing the whole mask drives the cell at `mask ||| (1 <<< v)` down
to at most `dp[mask][u] + dist u v`, for every in-mask `u` and out-of-mask
`v`. -/
theorem dpProcessMask_progress (dist : ℕ → ℕ → Option ℚ) (n : ℕ)
    (st : DPState) (mask u : ℕ) (c : ℚ) (v : ℕ) (d : ℚ)
    (hbu : mask.testBit u = true) (hc : dpGet st mask u = some c)
    (hu : u < n) (hv : v < n) (hb : mask.testBit v = false)
    (hd : dist u v = some d) :
    optLE (dpGet (dpProcessMask dist n st mask) (mask ||| (1 <<< v)) v)
      (some (c + d)) := by
  unfold dpProcessMask
  obtain ⟨inner, ho⟩ := dpGet_some_outer st mask u c hc
  rw [ho]
  exact foldl_processU_progress dist n mask u c v d hbu hv hb hd
    (List.range n) st (List.mem_range.mpr hu) hc

/-- The invariant is monotone in the processed-prefix index. -/
theorem DPInv_mono_m (dist : ℕ → ℕ → Option ℚ) (n sIdx m mm : ℕ) (st : DPState)
    (hmm : m ≤ mm) (h : DPInv dist n sIdx m st) : DPInv dist n sIdx mm st := by
  obtain ⟨h1, h2, h3, h4, h5, h6⟩ := h
  refine ⟨h1, h2, h3, h4, h5, fun μ v u hp => ?_⟩
  obtain ⟨a1, a2, a3, a4, a5, a6, a7⟩ := h6 μ v u hp
  exact ⟨a1, a2, a3, a4, a5, a6.trans hmm, a7⟩

/-- A guarded relaxation write of `dp[m ||| (1 <<< v)][v] = dp[m][u] +
dist u v` together with `parent[m ||| (1 <<< v)][v] = u` preserves the
invariant. -/
theorem DPInv_dpSet (dist : ℕ → ℕ → Option ℚ) (n sIdx m : ℕ) (st : DPState)
    (hinv : DPInv dist n sIdx m st) (u v : ℕ) (c d : ℚ)
    (hc : dpGet st m u = some c) (hbv : m.testBit v = false) (hv : v < n)
    (hd : dist u v = some d) :
    DPInv dist n sIdx m (dpSet st (m ||| (1 <<< v)) v (c + d) u) := by
  obtain ⟨h1, h2, h3, h4, h5, h6⟩ := hinv
  obtain ⟨hbu, hbs, hun, hm2⟩ := h3 m u c hc
  have hvs : v ≠ sIdx := by
    intro he; rw [he, hbs] at hbv; cases hbv
  have huv : u ≠ v := by
    intro he; rw [he, hbv] at hbu; cases hbu
  set M := m ||| (1 <<< v) with hM
  have hxy : M ^^^ (1 <<< v) = m := or_shift_xor m v hbv
  have hltM : m < M := lt_or_shift m v hbv
  have hbse : M.testBit sIdx = true := by
    rw [hM, testBit_or_shift_ne m v sIdx (Ne.symm hvs)]; exact hbs
  have hbve : M.testBit v = true := testBit_or_shift_self m v
  have hM2 : M < 2 ^ n := or_shift_lt_two_pow m v n hm2 hv
  have hMs : M ≠ 1 <<< sIdx := by
    intro he
    have hb := hbve
    rw [he, testBit_one_shiftLeft] at hb
    exact hvs (of_decide_eq_true hb).symm
  refine ⟨?_, ?_, ?_, ?_, ?_, ?_⟩
  · rw [dpGet_dpSet, if_neg (fun hx => hMs hx.1.symm)]
    exact h1
  · intro w
    rw [pGet_dpSet, if_neg (fun hx => hMs hx.1.symm)]
    exact h2 w
  · intro μ w cc hg
    rw [dpGet_dpSet] at hg
    by_cases hx : μ = M ∧ w = v
    · obtain ⟨e1, e2⟩ := hx
      subst e1; subst e2
      exact ⟨hbve, hbse, hv, hM2⟩
    · rw [if_neg hx] at hg
      exact h3 μ w cc hg
  · intro μ cc hg
    rw [dpGet_dpSet] at hg
    by_cases hx : μ = M ∧ sIdx = v
    · exact absurd hx.2 (Ne.symm hvs)
    · rw [if_neg hx] at hg
      exact h4 μ cc hg
  · intro μ w hne hg
    rw [dpGet_dpSet] at hg
    rw [pGet_dpSet]
    by_cases hx : μ = M ∧ w = v
    · rw [if_pos hx]; rfl
    · rw [if_neg hx] at hg
      rw [if_neg hx]
      exact h5 μ w hne hg
  · intro μ w uu hp
    rw [pGet_dpSet] at hp
    by_cases hx : μ = M ∧ w = v
    · rw [if_pos hx] at hp
      injection hp with hp'
      subst hp'
      obtain ⟨e1, e2⟩ := hx
      subst e1; subst e2
      refine ⟨hbve, hv, huv, ?_, hun, ?_, c, d, ?_, hd, ?_⟩
      · rw [hxy]; exact hbu
      · rw [hxy]
      · have hne : ¬(M ^^^ (1 <<< w) = M ∧ u = w) := by
          intro hy
          have h7 := hxy
          rw [hy.1] at h7
          rw [← h7] at hltM
          exact lt_irrefl M hltM
        rw [dpGet_dpSet, if_neg hne, hxy]
        exact hc
      · rw [dpGet_dpSet, if_pos ⟨rfl, rfl⟩]
    · rw [if_neg hx] at hp
      obtain ⟨a1, a2, a3, a4, a5, a6, c1, d1, b1, b2, b3⟩ := h6 μ w uu hp
      refine ⟨a1, a2, a3, a4, a5, a6, c1, d1, ?_, b2, ?_⟩
      · have hny : ¬(μ ^^^ (1 <<< w) = M ∧ uu = v) := by
          intro hy
          have h7 := a6
          rw [hy.1] at h7
          omega
        rw [dpGet_dpSet, if_neg hny]
        exact b1
      · rw [dpGet_dpSet, if_neg hx]
        exact b3

/-- A relaxation step preserves the invariant and the frozen source cell. -/
theorem dpRelaxStep_inv (dist : ℕ → ℕ → Option ℚ) (n sIdx m u : ℕ) (c : ℚ)
    (st : DPState) (v : ℕ) (hv : v < n)
    (hinv : DPInv dist n sIdx m st) (hc : dpGet st m u = some c) :
    DPInv dist n sIdx m (dpRelaxStep dist m u c st v) ∧
    dpGet (dpRelaxStep dist m u c st v) m u = some c := by
  rcases dpRelaxStep_eq_or dist m u c st v with h | ⟨d, hb, hd, hle, h⟩
  · rw [h]; exact ⟨hinv, hc⟩
  · rw [h]
    refine ⟨DPInv_dpSet dist n sIdx m st hinv u v c d hc hb hv hd, ?_⟩
    have hne : ¬(m = m ||| (1 <<< v) ∧ u = v) := by
      intro hy
      have hlt := lt_or_shift m v hb
      rw [← hy.1] at hlt
      exact lt_irrefl m hlt
    rw [dpGet_dpSet, if_neg hne]
    exact hc

/-- The relaxation loop from `u` preserves the invariant. -/
theorem dpRelaxFrom_inv (dist : ℕ → ℕ → Option ℚ) (n sIdx m u : ℕ) (c : ℚ)
    (st : DPState)
    (hinv : DPInv dist n sIdx m st) (hc : dpGet st m u = some c) :
    DPInv dist n sIdx m (dpRelaxFrom dist n m u c st) := by
  unfold dpRelaxFrom
  have key : ∀ (l : List ℕ), (∀ x ∈ l, x < n) → ∀ st, DPInv dist n sIdx m st →
      dpGet st m u = some c →
      DPInv dist n sIdx m (l.foldl (dpRelaxStep dist m u c) st) ∧
      dpGet (l.foldl (dpRelaxStep dist m u c) st) m u = some c := by
    intro l
    induction l with
    | nil => intro _ st h1 h2; exact ⟨h1, h2⟩
    | cons a t ih =>
      intro hl st h1 h2
      obtain ⟨h3, h4⟩ :=
        dpRelaxStep_inv dist n sIdx m u c st a (hl a (List.mem_cons_self a t)) h1 h2
      exact ih (fun x hx => hl x (List.mem_cons_of_mem a hx)) _ h3 h4
  exact (key (List.range n) (fun x hx => List.mem_range.mp hx) st hinv hc).1

/-- Processing one `u` preserves the invariant. -/
theorem dpProcessU_inv (dist : ℕ → ℕ → Option ℚ) (n sIdx m : ℕ)
    (st : DPState) (u : ℕ) (hinv : DPInv dist n sIdx m st) :
    DPInv dist n sIdx m (dpProcessU dist n m st u) := by
  unfold dpProcessU
  by_cases hb : m.testBit u
  · rw [if_pos hb]
    cases hg : dpGet st m u with
    | none => exact hinv
    | some c => exact dpRelaxFrom_inv dist n sIdx m u c st hinv hg
  · rw [if_neg hb]; exact hinv

/-- Processing a whole mask preserves the invariant for that mask index. -/
theorem dpProcessMask_inv (dist : ℕ → ℕ → Option ℚ) (n sIdx m : ℕ)
    (st : DPState) (hinv : DPInv dist n sIdx m st) :
    DPInv dist n sIdx m (dpProcessMask dist n st m) := by
  unfold dpProcessMask
  cases ho : alistGet st.dp m with
  | none => exact hinv
  | some inner =>
    have key : ∀ (l : List ℕ) st, DPInv dist n sIdx m st →
        DPInv dist n sIdx m (l.foldl (dpProcessU dist n m) st) := by
      intro l
      induction l with
      | nil => intro st h; exact h
      | cons a t ih => intro st h; exact ih _ (dpProcessU_inv dist n sIdx m st a h)
    exact key (List.range n) st hinv

/-- Lookup in a one-entry association list. -/
theorem alistGet_singleton {β : Type} (k : ℕ) (x : β) (kk : ℕ) :
    alistGet [(k, x)] kk = if kk = k then some x else none := by
  by_cases h : kk = k
  · subst h; simp [alistGet]
  · have hb : (k == kk) = false := by simp [Ne.symm h]
    simp [alistGet, List.find?, hb, h]

/-- `heldKarpTable` is the time-indexed table run to the end. -/
theorem heldKarpTable_eq_dpTable (dist : ℕ → ℕ → Option ℚ) (n sIdx : ℕ) :
    heldKarpTable dist n sIdx = dpTable dist n sIdx (2 ^ n - 1) := rfl

/-- One more iteration of the mask loop processes mask `1 + t`. -/
theorem dpTable_succ (dist : ℕ → ℕ → Option ℚ) (n sIdx t : ℕ) :
    dpTable dist n sIdx (t + 1) =
      dpProcessMask dist n (dpTable dist n sIdx t) (1 + t) := by
  unfold dpTable
  rw [List.range'_concat, List.foldl_append]
  simp

/-- The initial table holds exactly the start cell. -/
theorem dpTable_get_zero (dist : ℕ → ℕ → Option ℚ) (n sIdx μ w : ℕ) :
    dpGet (dpTable dist n sIdx 0) μ w =
      if μ = 1 <<< sIdx ∧ w = sIdx then some (0 : ℚ) else none := by
  have h0 : dpTable dist n sIdx 0 = ⟨[(1 <<< sIdx, [(sIdx, (0 : ℚ))])], []⟩ := rfl
  rw [h0]
  unfold dpGet
  dsimp only
  rw [alistGet_singleton]
  by_cases hμ : μ = 1 <<< sIdx
  · rw [if_pos hμ]
    show alistGet [(sIdx, (0 : ℚ))] w = _
    rw [alistGet_singleton]
    by_cases hw : w = sIdx
    · rw [if_pos hw, if_pos ⟨hμ, hw⟩]
    · rw [if_neg hw, if_neg (fun hc => hw hc.2)]
  · rw [if_neg hμ, if_neg (fun hc => hμ hc.1)]
    rfl

/-- The initial table has no parent entries. -/
theorem pGet_dpTable_zero (dist : ℕ → ℕ → Option ℚ) (n sIdx μ w : ℕ) :
    pGet (dpTable dist n sIdx 0) μ w = none := rfl

/-- The invariant holds at every time of the mask loop. -/
theorem dpTable_inv (dist : ℕ → ℕ → Option ℚ) (n sIdx : ℕ) (hs : sIdx < n) :
    ∀ t, DPInv dist n sIdx t (dpTable dist n sIdx t) := by
  intro t
  induction t with
  | zero =>
    refine ⟨?_, ?_, ?_, ?_, ?_, ?_⟩
    · rw [dpTable_get_zero, if_pos ⟨rfl, rfl⟩]
    · intro w; exact pGet_dpTable_zero dist n sIdx _ w
    · intro μ w c hg
      rw [dpTable_get_zero] at hg
      by_cases hx : μ = 1 <<< sIdx ∧ w = sIdx
      · obtain ⟨e1, e2⟩ := hx
        subst e1; subst e2
        refine ⟨?_, ?_, hs, ?_⟩
        · rw [testBit_one_shiftLeft]; simp
        · rw [testBit_one_shiftLeft]; simp
        · rw [Nat.one_shiftLeft]
          exact Nat.pow_lt_pow_right (by norm_num) hs
      · rw [if_neg hx] at hg; cases hg
    · intro μ c hg
      rw [dpTable_get_zero] at hg
      by_cases hx : μ = 1 <<< sIdx ∧ sIdx = sIdx
      · rw [if_pos hx] at hg
        injection hg with hg'
        exact ⟨hx.1, hg'.symm⟩
      · rw [if_neg hx] at hg; cases hg
    · intro μ w hne hg
      rw [dpTable_get_zero] at hg
      by_cases hx : μ = 1 <<< sIdx ∧ w = sIdx
      · exact absurd hx.1 hne
      · rw [if_neg hx] at hg; simp at hg
    · intro μ w u hp
      rw [pGet_dpTable_zero] at hp
      cases hp
  | succ t ih =>
    rw [dpTable_succ, Nat.add_comm 1 t]
    exact dpProcessMask_inv dist n sIdx (t + 1) _
      (DPInv_mono_m dist n sIdx t (t + 1) _ (Nat.le_succ t) ih)

/-- Later times of the mask loop only lower the cost cells. -/
theorem dpTable_mono_time (dist : ℕ → ℕ → Option ℚ) (n sIdx : ℕ) :
    ∀ t u : ℕ, t ≤ u → DPLe (dpTable dist n sIdx u) (dpTable dist n sIdx t) := by
  intro t u
  induction u with
  | zero =>
    intro h
    have ht : t = 0 := Nat.le_zero.mp h
    subst ht
    exact DPLe_refl _
  | succ k ih =>
    intro h
    rcases Nat.lt_or_ge t (k + 1) with hlt | hge
    · have hk : t ≤ k := Nat.lt_succ_iff.mp hlt
      refine DPLe_trans ?_ (ih hk)
      rw [dpTable_succ]
      exact dpProcessMask_mono dist n _ (1 + k)
    · have ht : t = k + 1 := Nat.le_antisymm h hge
      subst ht
      exact DPLe_refl _

/-- One chain step: if the cell at `(μ, u)` is at most `c` just before
mask `μ` is processed, then after the mask `μ ||| (1 <<< v)` is reached
the cell at `(μ ||| (1 <<< v), v)` is at most `c + dist u v`. -/
theorem dpTable_step_le (dist : ℕ → ℕ → Option ℚ) (n sIdx : ℕ) (μ u v : ℕ)
    (c d : ℚ) (hb : μ.testBit u = true) (hbv : μ.testBit v = false)
    (hu : u < n) (hv : v < n) (h1 : 1 ≤ μ) (hd : dist u v = some d)
    (hcell : optLE (dpGet (dpTable dist n sIdx (μ - 1)) μ u) (some c)) :
    optLE (dpGet (dpTable dist n sIdx ((μ ||| (1 <<< v)) - 1)) (μ ||| (1 <<< v)) v)
      (some (c + d)) := by
  cases hval : dpGet (dpTable dist n sIdx (μ - 1)) μ u with
  | none => rw [hval] at hcell; cases hcell
  | some cv =>
    rw [hval] at hcell
    have hcv : cv ≤ c := hcell
    have hstep : dpTable dist n sIdx μ =
        dpProcessMask dist n (dpTable dist n sIdx (μ - 1)) μ := by
      have hμ : μ - 1 + 1 = μ := Nat.succ_pred_eq_of_pos h1
      rw [← hμ, dpTable_succ]
      rw [Nat.add_comm 1 (μ - 1), hμ]
    have hprog : optLE (dpGet (dpTable dist n sIdx μ) (μ ||| (1 <<< v)) v)
        (some (cv + d)) := by
      rw [hstep]
      exact dpProcessMask_progress dist n _ μ u cv v d hb hval hu hv hbv hd
    have hμle : μ ≤ (μ ||| (1 <<< v)) - 1 := by
      have := lt_or_shift μ v hbv
      omega
    have hmono := dpTable_mono_time dist n sIdx μ ((μ ||| (1 <<< v)) - 1) hμle
      (μ ||| (1 <<< v)) v
    refine optLE_trans (optLE_trans hmono hprog) ?_
    show cv + d ≤ c + d
    exact add_le_add_right hcv d

/-- The cost recorded in the scan accumulator. -/
theorem dpBestStep_le (dist : ℕ → ℕ → Option ℚ) (sIdx : ℕ) (st : DPState)
    (full : ℕ) (acc : Option (ℚ × ℕ)) (i : ℕ) :
    optLE ((dpBestStep dist sIdx st full acc i).map (fun p => p.1))
      (acc.map (fun p => p.1)) := by
  unfold dpBestStep
  by_cases hi : i = sIdx
  · rw [if_pos hi]; exact optLE_refl _
  · rw [if_neg hi]
    cases hc : dpGet st full i with
    | none => exact optLE_refl _
    | some c =>
      cases hr : dist i sIdx with
      | none => exact optLE_refl _
      | some r =>
        dsimp only
        cases acc with
        | none => exact trivial
        | some mc =>
          dsimp only
          by_cases hlt : c + r < mc.1
          · rw [if_pos hlt]
            exact le_of_lt hlt
          · rw [if_neg hlt]
            exact optLE_refl _

/-- Folding the scan never increases the recorded cost. -/
theorem dpBestFold_le (dist : ℕ → ℕ → Option ℚ) (sIdx : ℕ) (st : DPState)
    (full : ℕ) :
    ∀ (l : List ℕ) (acc : Option (ℚ × ℕ)),
      optLE ((l.foldl (dpBestStep dist sIdx st full) acc).map (fun p => p.1))
        (acc.map (fun p => p.1)) := by
  intro l
  induction l with
  | nil => intro acc; exact optLE_refl _
  | cons a t ih =>
    intro acc
    exact optLE_trans (ih _) (dpBestStep_le dist sIdx st full acc a)

/-- After the scan has passed a valid candidate `i`, the recorded cost is
at most that candidate's total. -/
theorem dpBestFold_candidate (dist : ℕ → ℕ → Option ℚ) (sIdx : ℕ) (st : DPState)
    (full : ℕ) (i : ℕ) (c r : ℚ) (hi : i ≠ sIdx)
    (hc : dpGet st full i = some c) (hr : dist i sIdx = some r) :
    ∀ (l : List ℕ) (acc : Option (ℚ × ℕ)), i ∈ l →
      optLE ((l.foldl (dpBestStep dist sIdx st full) acc).map (fun p => p.1))
        (some (c + r)) := by
  intro l
  induction l with
  | nil => intro acc h; cases h
  | cons a t ih =>
    intro acc hm
    rw [List.foldl_cons]
    rcases List.mem_cons.mp hm with hai | hit
    · subst hai
      refine optLE_trans (dpBestFold_le dist sIdx st full t _) ?_
      unfold dpBestStep
      rw [if_neg hi, hc, hr]
      dsimp only
      cases acc with
      | none => exact le_refl _
      | some mc =>
        dsimp only
        by_cases hlt : c + r < mc.1
        · rw [if_pos hlt]; exact le_refl _
        · rw [if_neg hlt]; exact le_of_not_lt hlt
    · exact ih _ hit

/-- Soundness of the scan accumulator: a recorded pair is a real
candidate. -/
theorem dpBestFold_sound (dist : ℕ → ℕ → Option ℚ) (sIdx : ℕ) (st : DPState)
    (full : ℕ) :
    ∀ (l : List ℕ) (acc : Option (ℚ × ℕ)),
      (∀ mc b, acc = some (mc, b) → b ≠ sIdx ∧
        ∃ c r, dpGet st full b = some c ∧ dist b sIdx = some r ∧ mc = c + r) →
      ∀ mc b, l.foldl (dpBestStep dist sIdx st full) acc = some (mc, b) →
        b ≠ sIdx ∧
        ∃ c r, dpGet st full b = some c ∧ dist b sIdx = some r ∧ mc = c + r := by
  intro l
  induction l with
  | nil => intro acc hacc mc b h; exact hacc mc b h
  | cons a t ih =>
    intro acc hacc mc b h
    rw [List.foldl_cons] at h
    refine ih _ ?_ mc b h
    intro mc' b' hs
    unfold dpBestStep at hs
    by_cases hi : a = sIdx
    · rw [if_pos hi] at hs; exact hacc mc' b' hs
    · rw [if_neg hi] at hs
      cases hc : dpGet st full a with
      | none =>
        rw [hc] at hs
        cases hr : dist a sIdx with
        | none => rw [hr] at hs; dsimp only at hs; exact hacc mc' b' hs
        | some r => rw [hr] at hs; dsimp only at hs; exact hacc mc' b' hs
      | some c =>
        rw [hc] at hs
        cases hr : dist a sIdx with
        | none => rw [hr] at hs; dsimp only at hs; exact hacc mc' b' hs
        | some r =>
          rw [hr] at hs
          dsimp only at hs
          cases acc with
          | none =>
            dsimp only at hs
            injection hs with hs'
            rw [Prod.mk.injEq] at hs'
            obtain ⟨h1, h2⟩ := hs'
            subst h2
            exact ⟨hi, c, r, hc, hr, h1.symm⟩
          | some mc0 =>
            dsimp only at hs
            by_cases hlt : c + r < mc0.1
            · rw [if_pos hlt] at hs
              injection hs with hs'
              rw [Prod.mk.injEq] at hs'
              obtain ⟨h1, h2⟩ := hs'
              subst h2
              exact ⟨hi, c, r, hc, hr, h1.symm⟩
            · rw [if_neg hlt] at hs
              exact hacc mc' b' hs

/-- Minimality of the "best return" scan: the returned cost is at most
every candidate total. -/
theorem dpFindBest_min (dist : ℕ → ℕ → Option ℚ) (n sIdx : ℕ) (st : DPState)
    (mc : ℚ) (b : ℕ) (h : dpFindBest dist n sIdx st = some (mc, b))
    (i : ℕ) (c r : ℚ) (hi : i < n) (his : i ≠ sIdx)
    (hc : dpGet st (2 ^ n - 1) i = some c) (hr : dist i sIdx = some r) :
    mc ≤ c + r := by
  unfold dpFindBest at h
  dsimp only at h
  cases ho : alistGet st.dp (2 ^ n - 1) with
  | none => rw [ho] at h; cases h
  | some inner =>
    rw [ho] at h
    dsimp only at h
    have hcand := dpBestFold_candidate dist sIdx st (2 ^ n - 1) i c r his hc hr
      (List.range n) none (List.mem_range.mpr hi)
    rw [h] at hcand
    exact hcand

/-- Soundness of the "best return" scan: the returned pair is a real
candidate. -/
theorem dpFindBest_sound (dist : ℕ → ℕ → Option ℚ) (n sIdx : ℕ) (st : DPState)
    (mc : ℚ) (b : ℕ) (h : dpFindBest dist n sIdx st = some (mc, b)) :
    b ≠ sIdx ∧
    ∃ c r, dpGet st (2 ^ n - 1) b = some c ∧ dist b sIdx = some r ∧ mc = c + r := by
  unfold dpFindBest at h
  dsimp only at h
  cases ho : alistGet st.dp (2 ^ n - 1) with
  | none => rw [ho] at h; cases h
  | some inner =>
    rw [ho] at h
    dsimp only at h
    exact dpBestFold_sound dist sIdx st (2 ^ n - 1) (List.range n) none
      (fun mc' b' hx => by cases hx) mc b h

/-- The "best return" scan succeeds whenever a valid candidate exists. -/
theorem dpFindBest_some (dist : ℕ → ℕ → Option ℚ) (n sIdx : ℕ) (st : DPState)
    (i : ℕ) (c r : ℚ) (hi : i < n) (his : i ≠ sIdx)
    (hc : dpGet st (2 ^ n - 1) i = some c) (hr : dist i sIdx = some r) :
    ∃ mc b, dpFindBest dist n sIdx st = some (mc, b) := by
  unfold dpFindBest
  dsimp only
  obtain ⟨inner, ho⟩ := dpGet_some_outer st _ i c hc
  rw [ho]
  dsimp only
  have hcand := dpBestFold_candidate dist sIdx st (2 ^ n - 1) i c r his hc hr
    (List.range n) none (List.mem_range.mpr hi)
  cases hres : (List.range n).foldl (dpBestStep dist sIdx st (2 ^ n - 1)) none with
  | none =>
    rw [hres] at hcand
    exact (hcand : False).elim
  | some p => exact ⟨p.1, p.2, by rw [← hres]⟩

/-- A list containing two distinct elements has length at least 2. -/
theorem two_le_length_of_mem_ne {α : Type} {l : List α} {i j : α}
    (hi : i ∈ l) (hj : j ∈ l) (hne : i ≠ j) : 2 ≤ l.length := by
  match l with
  | [] => cases hi
  | [a] =>
    rw [List.mem_singleton] at hi hj
    exact absurd (hi.trans hj.symm) hne
  | a :: b :: t =>
    simp only [List.length_cons]
    omega

/-- Two distinct set bits below `n` force a count of at least 2. -/
theorem popBelow_two_le (n μ i j : ℕ) (hi : i < n) (hj : j < n) (hne : i ≠ j)
    (hbi : μ.testBit i = true) (hbj : μ.testBit j = true) : 2 ≤ popBelow n μ := by
  unfold popBelow
  have h1 : i ∈ (List.range n).filter (fun k => μ.testBit k) :=
    List.mem_filter.mpr ⟨List.mem_range.mpr hi, hbi⟩
  have h2 : j ∈ (List.range n).filter (fun k => μ.testBit k) :=
    List.mem_filter.mpr ⟨List.mem_range.mpr hj, hbj⟩
  exact two_le_length_of_mem_ne h1 h2 hne

/-- Clearing a set bit lowers the count by exactly one. -/
theorem popBelow_xor (n μ cc : ℕ) (hcc : cc < n) (hb : μ.testBit cc = true) :
    popBelow n (μ ^^^ (1 <<< cc)) + 1 = popBelow n μ := by
  unfold popBelow
  have hcong : (List.range n).filter (fun j => (μ ^^^ (1 <<< cc)).testBit j)
      = (List.range n).filter (fun j => (j != cc) && μ.testBit j) := by
    apply List.filter_congr
    intro x hx
    by_cases hxc : x = cc
    · subst hxc
      rw [testBit_xor_shift_self μ x hb]
      simp
    · rw [testBit_xor_shift_ne μ cc x hxc]
      simp [hxc]
  rw [hcong, ← List.filter_filter]
  have hnodup : ((List.range n).filter (fun j => μ.testBit j)).Nodup :=
    (List.nodup_range n).filter _
  have hmem : cc ∈ (List.range n).filter (fun j => μ.testBit j) :=
    List.mem_filter.mpr ⟨List.mem_range.mpr hcc, hb⟩
  rw [← hnodup.erase_eq_filter cc, List.length_erase_of_mem hmem]
  have hpos : 0 < ((List.range n).filter (fun j => μ.testBit j)).length :=
    List.length_pos.mpr (List.ne_nil_of_mem hmem)
  omega

/-- The full mask has all `n` low bits set. -/
theorem popBelow_full (n : ℕ) : popBelow n (2 ^ n - 1) = n := by
  unfold popBelow
  have hself : (List.range n).filter (fun j => (2 ^ n - 1).testBit j) = List.range n := by
    apply List.filter_eq_self.mpr
    intro x hx
    rw [Nat.testBit_two_pow_sub_one]
    exact decide_eq_true (List.mem_range.mp hx)
  rw [hself, List.length_range]

/-- Unfolding equation of `idxCost` on a chain of two or more indices. -/
theorem idxCost_cons_cons (dist : ℕ → ℕ → Option ℚ) (x y : ℕ) (rest : List ℕ) :
    idxCost dist (x :: y :: rest) =
      match dist x y, idxCost dist (y :: rest) with
      | some d, some s => some (d + s)
      | _, _ => none := rfl

/-- Extending an index chain by one edge adds that edge's cost. -/
theorem idxCost_append_one (dist : ℕ → ℕ → Option ℚ) :
    ∀ (l : List ℕ) (a b : ℕ) (s d : ℚ), l.getLast? = some a →
      idxCost dist l = some s → dist a b = some d →
      idxCost dist (l ++ [b]) = some (s + d) := by
  intro l
  induction l with
  | nil => intro a b s d hl _ _; cases hl
  | cons x t ih =>
    intro a b s d hl hc hd
    cases t with
    | nil =>
      have hax : a = x := by
        simp only [List.getLast?_singleton] at hl
        injection hl with hl'
        exact hl'.symm
      subst hax
      have hs0 : (some (0 : ℚ)) = some s := hc
      injection hs0 with hs0'
      subst hs0'
      show idxCost dist [a, b] = some (0 + d)
      rw [idxCost_cons_cons, hd]
      show some (d + 0) = some (0 + d)
      rw [add_zero, zero_add]
    | cons y u =>
      have hlast : (y :: u).getLast? = some a := by
        rw [List.getLast?_cons_cons] at hl
        exact hl
      rw [idxCost_cons_cons] at hc
      cases hxy : dist x y with
      | none => rw [hxy] at hc; dsimp only at hc; cases hc
      | some dxy =>
        rw [hxy] at hc
        cases hrest : idxCost dist (y :: u) with
        | none => rw [hrest] at hc; dsimp only at hc; cases hc
        | some srest =>
          rw [hrest] at hc
          dsimp only at hc
          injection hc with hc'
          have happ := ih a b srest d hlast hrest hd
          show idxCost dist (x :: ((y :: u) ++ [b])) = some (s + d)
          rw [show x :: ((y :: u) ++ [b]) = x :: y :: (u ++ [b]) from rfl]
          rw [idxCost_cons_cons, hxy]
          rw [show (y :: u) ++ [b] = y :: (u ++ [b]) from rfl] at happ
          rw [happ]
          rw [← hc', add_assoc]

/-- The parent-pointer walk on any table satisfying the invariant:
it terminates at the start mask, and the cities it emits form the tail of
an index chain from the start to the current city whose member set is
exactly the mask's bit set and whose chain cost is the cell value. -/
theorem dpWalk (dist : ℕ → ℕ → Option ℚ) (n sIdx T : ℕ) (st : DPState)
    (hs : sIdx < n) (hinv : DPInv dist n sIdx T st) (f : ℕ → Option String) :
    ∀ (fuel μ cc : ℕ) (c : ℚ) (path : List String),
      dpGet st μ cc = some c → popBelow n μ ≤ fuel + 1 →
      ∃ is : List ℕ,
        dpReconstruct st f fuel μ cc path
          = (1 <<< sIdx, is.map (fun i => (f i).getD "") ++ path) ∧
        (sIdx :: is).getLast? = some cc ∧
        (sIdx :: is).Nodup ∧
        (∀ j, (j ∈ sIdx :: is) ↔ μ.testBit j = true) ∧
        idxCost dist (sIdx :: is) = some c := by
  obtain ⟨h1, h2, h3, h4, h5, h6⟩ := hinv
  intro fuel
  induction fuel with
  | zero =>
    intro μ cc c path hg hfuel
    obtain ⟨hbcc, hbs, hccn, hμ2⟩ := h3 μ cc c hg
    have hccs : cc = sIdx := by
      by_contra hne
      have := popBelow_two_le n μ cc sIdx hccn hs hne hbcc hbs
      omega
    subst hccs
    obtain ⟨hμs, hc0⟩ := h4 μ c hg
    subst hμs
    subst hc0
    refine ⟨[], rfl, rfl, List.nodup_singleton cc, ?_, rfl⟩
    intro j
    rw [testBit_one_shiftLeft]
    constructor
    · intro hj
      rw [List.mem_singleton] at hj
      subst hj
      exact decide_eq_true rfl
    · intro hj
      rw [List.mem_singleton]
      exact (of_decide_eq_true hj).symm
  | succ fuel ih =>
    intro μ cc c path hg hfuel
    obtain ⟨hbcc, hbs, hccn, hμ2⟩ := h3 μ cc c hg
    by_cases hccs : cc = sIdx
    · subst hccs
      obtain ⟨hμs, hc0⟩ := h4 μ c hg
      subst hμs
      subst hc0
      refine ⟨[], ?_, rfl, List.nodup_singleton cc, ?_, rfl⟩
      · show dpReconstruct st f (fuel + 1) (1 <<< cc) cc path = _
        unfold dpReconstruct
        rw [if_pos (by rw [Nat.one_shiftLeft]; positivity), h2 cc]
        rfl
      · intro j
        rw [testBit_one_shiftLeft]
        constructor
        · intro hj
          rw [List.mem_singleton] at hj
          subst hj
          exact decide_eq_true rfl
        · intro hj
          rw [List.mem_singleton]
          exact (of_decide_eq_true hj).symm
    · have hμne : μ ≠ 1 <<< sIdx := by
        intro he
        rw [he, testBit_one_shiftLeft] at hbcc
        exact hccs (of_decide_eq_true hbcc).symm
      have hcouple := h5 μ cc hμne (by rw [hg]; rfl)
      obtain ⟨prev, hp⟩ := Option.isSome_iff_exists.mp hcouple
      obtain ⟨a1, a2, a3, a4, a5, a6, c', d, b1, b2, b3⟩ := h6 μ cc prev hp
      rw [hg] at b3
      injection b3 with b3'
      set μ' := μ ^^^ (1 <<< cc) with hμdef
      have hpb := popBelow_xor n μ cc hccn hbcc
      have hfuel' : popBelow n μ' ≤ fuel + 1 := by
        rw [hμdef]
        omega
      obtain ⟨is', hrec, hlast, hnodup, hmem, hcost⟩ :=
        ih μ' prev c' (((f cc).getD "") :: path) b1 hfuel'
      have hccout : μ'.testBit cc = false := by
        rw [hμdef]
        exact testBit_xor_shift_self μ cc hbcc
      have hccnotin : cc ∉ sIdx :: is' := by
        intro hin
        rw [hmem cc] at hin
        rw [hccout] at hin
        cases hin
      refine ⟨is' ++ [cc], ?_, ?_, ?_, ?_, ?_⟩
      · show dpReconstruct st f (fuel + 1) μ cc path = _
        unfold dpReconstruct
        have hμpos : μ > 0 := by
          rcases Nat.eq_zero_or_pos μ with h0 | h0
          · rw [h0, Nat.zero_testBit] at hbcc
            cases hbcc
          · exact h0
        rw [if_pos hμpos, hp]
        dsimp only
        rw [hrec]
        rw [List.map_append]
        simp
      · rw [show sIdx :: (is' ++ [cc]) = (sIdx :: is') ++ [cc] from rfl,
          List.getLast?_append]
        rfl
      · rw [show sIdx :: (is' ++ [cc]) = (sIdx :: is') ++ [cc] from rfl,
          List.nodup_append]
        refine ⟨hnodup, List.nodup_singleton cc, ?_⟩
        intro a ha hacc
        rw [List.mem_singleton] at hacc
        subst hacc
        exact hccnotin ha
      · intro j
        rw [show sIdx :: (is' ++ [cc]) = (sIdx :: is') ++ [cc] from rfl,
          List.mem_append, List.mem_singleton]
        by_cases hjc : j = cc
        · subst hjc
          rw [hbcc]
          simp
        · rw [hmem j]
          have : μ'.testBit j = μ.testBit j := by
            rw [hμdef]
            exact testBit_xor_shift_ne μ cc j hjc
          rw [this]
          simp [hjc]
      · rw [show sIdx :: (is' ++ [cc]) = (sIdx :: is') ++ [cc] from rfl]
        rw [idxCost_append_one dist (sIdx :: is') prev cc c' d hlast hcost b2]
        rw [b3']

/-- Unfolding equation of `pathDistance?` on two or more nodes. -/
theorem pathDistance_cons_cons (g : RouteGraph) (x y : String) (rest : List String) :
    pathDistance? g (x :: y :: rest) =
      match findEdge g x y, pathDistance? g (y :: rest) with
      | some e, some d => some (e.distance + d)
      | _, _ => none := rfl

/-- Reading every position of a list in order reproduces the list. -/
theorem map_getD_range (l : List String) :
    (List.range l.length).map (fun i => (l[i]?).getD "") = l := by
  induction l with
  | nil => rfl
  | cons a t ih =>
    rw [List.length_cons, List.range_succ_eq_map, List.map_cons, List.map_map]
    have h0 : (((a :: t)[0]?).getD "") = a := by simp
    rw [h0]
    congr 1
    calc (List.range t.length).map ((fun i => ((a :: t)[i]?).getD "") ∘ Nat.succ)
        = (List.range t.length).map (fun i => (t[i]?).getD "") := by
          apply List.map_congr_left
          intro i _
          simp [Function.comp, List.getElem?_cons_succ]
      _ = t := ih

/-- An index chain with a defined matrix cost maps to a node path with the
same `pathDistance?`. -/
theorem pathDistance_of_idxCost (g : RouteGraph) (hnodup : g.nodes.Nodup)
    (hwfe : ∀ e ∈ g.edges, e.from_ ∈ g.nodes ∧ e.to_ ∈ g.nodes) (hu : EdgesUnique g) :
    ∀ (js : List ℕ) (s : ℚ), (∀ j ∈ js, j < g.nodes.length) →
      idxCost (distMatrix g) js = some s →
      pathDistance? g (js.map (fun i => (g.nodes[i]?).getD "")) = some s := by
  intro js
  induction js with
  | nil =>
    intro s _ hc
    exact hc
  | cons a t ih =>
    intro s hb hc
    cases t with
    | nil => exact hc
    | cons b u =>
      have ha : a < g.nodes.length := hb a (List.mem_cons_self a _)
      have hbn : b < g.nodes.length :=
        hb b (List.mem_cons_of_mem a (List.mem_cons_self b u))
      rw [idxCost_cons_cons] at hc
      cases hab : distMatrix g a b with
      | none => rw [hab] at hc; dsimp only at hc; cases hc
      | some dd =>
        rw [hab] at hc
        cases hrest : idxCost (distMatrix g) (b :: u) with
        | none => rw [hrest] at hc; dsimp only at hc; cases hc
        | some srest =>
          rw [hrest] at hc
          dsimp only at hc
          injection hc with hc'
          have hmx := distMatrix_eq g hnodup hwfe hu a b ha hbn
          rw [hab] at hmx
          cases hfe : findEdge g (g.nodes[a]) (g.nodes[b]) with
          | none => rw [hfe] at hmx; cases hmx
          | some e =>
            rw [hfe] at hmx
            dsimp only [Option.map] at hmx
            injection hmx with hmx'
            have hih := ih srest
              (fun j hj => hb j (List.mem_cons_of_mem a hj)) hrest
            rw [List.map_cons]
            rw [List.map_cons] at hih ⊢
            rw [pathDistance_cons_cons]
            have hga : ((g.nodes[a]?).getD "") = g.nodes[a] := by
              rw [List.getElem?_eq_getElem ha]
              rfl
            have hgb : ((g.nodes[b]?).getD "") = g.nodes[b] := by
              rw [List.getElem?_eq_getElem hbn]
              rfl
            rw [hga, hgb]
            rw [hgb] at hih
            rw [hfe, hih]
            dsimp only
            rw [← hc', hmx']

/-- A duplicate-free index list whose members are exactly the bits of the
full mask is a permutation of `range n`. -/
theorem perm_range_of_full_bits (n : ℕ) (js : List ℕ) (hnd : js.Nodup)
    (hmem : ∀ j, (j ∈ js) ↔ (2 ^ n - 1).testBit j = true) :
    js.Perm (List.range n) := by
  rw [List.perm_ext_iff_of_nodup hnd (List.nodup_range n)]
  intro j
  rw [hmem j, Nat.testBit_two_pow_sub_one, List.mem_range]
  constructor
  · exact of_decide_eq_true
  · exact decide_eq_true

/-- Full correctness of the DP solver's success path: when the final scan
returns `(mc, b)`, the returned path is a closed tour from `start` whose
total distance is exactly `mc`. -/
theorem dynamicProgrammingTSP_spec (g : RouteGraph) (start : String)
    (hnodup : g.nodes.Nodup)
    (hwfe : ∀ e ∈ g.edges, e.from_ ∈ g.nodes ∧ e.to_ ∈ g.nodes)
    (hu : EdgesUnique g) (hstart : start ∈ g.nodes)
    (hn2 : 2 ≤ g.nodes.length) (hn12 : g.nodes.length ≤ 12) (mc : ℚ) (b : ℕ)
    (hbest : dpFindBest (distMatrix g) g.nodes.length
        ((nodeToIndex g.nodes start).getD 0)
        (heldKarpTable (distMatrix g) g.nodes.length
          ((nodeToIndex g.nodes start).getD 0)) = some (mc, b)) :
    IsClosedTour g start (dynamicProgrammingTSP g start) ∧
    pathDistance? g (dynamicProgrammingTSP g start) = some mc := by
  have hsome : (nodeToIndex g.nodes start).isSome = true :=
    nodeToIndex_isSome g.nodes start hstart
  obtain ⟨i0, hi0⟩ := Option.isSome_iff_exists.mp hsome
  have hsIdx : (nodeToIndex g.nodes start).getD 0 = i0 := by rw [hi0]; rfl
  obtain ⟨hslt, hsget⟩ := nodeToIndex_spec g.nodes start i0 hi0
  have hinv := dpTable_inv (distMatrix g) g.nodes.length i0 hslt
    (2 ^ g.nodes.length - 1)
  have hbest2 : dpFindBest (distMatrix g) g.nodes.length i0
      (dpTable (distMatrix g) g.nodes.length i0 (2 ^ g.nodes.length - 1))
      = some (mc, b) := by
    rw [← heldKarpTable_eq_dpTable, ← hsIdx]
    exact hbest
  obtain ⟨hbs, cb, r, hcb, hr, hmc⟩ :=
    dpFindBest_sound (distMatrix g) g.nodes.length i0 _ mc b hbest2
  obtain ⟨is, hrec, hlast, hnd, hmem, hcost⟩ :=
    dpWalk (distMatrix g) g.nodes.length i0 (2 ^ g.nodes.length - 1) _ hslt hinv
      (fun i => g.nodes[i]?) (g.nodes.length + 1) (2 ^ g.nodes.length - 1) b cb []
      hcb (by rw [popBelow_full]; omega)
  have hperm : (i0 :: is).Perm (List.range g.nodes.length) :=
    perm_range_of_full_bits g.nodes.length _ hnd hmem
  have hlen : (i0 :: is).length = g.nodes.length := by
    rw [hperm.length_eq, List.length_range]
  have hisl : is.length = g.nodes.length - 1 := by
    rw [List.length_cons] at hlen
    omega
  have hjb : ∀ j ∈ i0 :: is, j < g.nodes.length := by
    intro j hj
    rw [hmem j, Nat.testBit_two_pow_sub_one] at hj
    exact of_decide_eq_true hj
  have hchain : idxCost (distMatrix g) ((i0 :: is) ++ [i0]) = some (cb + r) :=
    idxCost_append_one (distMatrix g) (i0 :: is) b i0 cb r hlast hcost hr
  have hjb2 : ∀ j ∈ (i0 :: is) ++ [i0], j < g.nodes.length := by
    intro j hj
    rcases List.mem_append.mp hj with h | h
    · exact hjb j h
    · rw [List.mem_singleton] at h
      subst h
      exact hslt
  have hpd := pathDistance_of_idxCost g hnodup hwfe hu ((i0 :: is) ++ [i0])
    (cb + r) hjb2 hchain
  have hfs : ((g.nodes[i0]?).getD "") = start := by rw [hsget]; rfl
  have hmap : ((i0 :: is) ++ [i0]).map (fun i => (g.nodes[i]?).getD "")
      = (start :: is.map (fun i => (g.nodes[i]?).getD "")) ++ [start] := by
    rw [List.map_append, List.map_cons]
    rw [show ([i0].map (fun i => (g.nodes[i]?).getD ""))
        = [((g.nodes[i0]?).getD "")] from rfl]
    rw [hfs]
  have hresult : dynamicProgrammingTSP g start
      = (start :: is.map (fun i => (g.nodes[i]?).getD "")) ++ [start] := by
    unfold dynamicProgrammingTSP
    dsimp only
    rw [if_neg (by omega)]
    rw [hsIdx, heldKarpTable_eq_dpTable, hbest2]
    dsimp only
    rw [hrec]
    dsimp only
    rw [if_pos rfl, hfs]
    rw [List.append_nil]
    rw [if_pos ?_]
    have hl2 : ((start :: is.map (fun i => (g.nodes[i]?).getD "")) ++ [start]).length
        = is.length + 2 := by
      simp
    rw [hl2, hisl]
    omega
  refine ⟨⟨?_, ?_, ?_⟩, ?_⟩
  · rw [hresult]
    rfl
  · rw [hresult, List.getLast?_append]
    rfl
  · rw [hresult, List.dropLast_concat]
    have hmapl : start :: is.map (fun i => (g.nodes[i]?).getD "")
        = (i0 :: is).map (fun i => (g.nodes[i]?).getD "") := by
      rw [List.map_cons, hfs]
    rw [hmapl]
    have := hperm.map (fun i => (g.nodes[i]?).getD "")
    rw [show (List.range g.nodes.length).map (fun i => (g.nodes[i]?).getD "")
        = g.nodes from map_getD_range g.nodes] at this
    exact this
  · rw [hresult, ← hmap, hpd, hmc]

/-- Splitting the last edge off a path with a defined total distance. -/
theorem pathDistance_append_one_inv (g : RouteGraph) :
    ∀ (l : List String) (b : String) (dtot : ℚ), l ≠ [] →
      pathDistance? g (l ++ [b]) = some dtot →
      ∃ a s e, l.getLast? = some a ∧ pathDistance? g l = some s ∧
        findEdge g a b = some e ∧ dtot = s + e.distance := by
  intro l
  induction l with
  | nil => intro b dtot hne _; exact absurd rfl hne
  | cons x t ih =>
    intro b dtot _ hpd
    cases t with
    | nil =>
      rw [show (([x] ++ [b]) : List String) = [x, b] from rfl,
        pathDistance_cons_cons] at hpd
      cases hfe : findEdge g x b with
      | none => rw [hfe] at hpd; dsimp only at hpd; cases hpd
      | some e =>
        rw [hfe] at hpd
        rw [show pathDistance? g [b] = some (0 : ℚ) from rfl] at hpd
        dsimp only at hpd
        injection hpd with hpd'
        refine ⟨x, 0, e, rfl, rfl, hfe, ?_⟩
        rw [← hpd', add_zero, zero_add]
    | cons y u =>
      rw [show (((x :: y :: u) ++ [b]) : List String) = x :: y :: (u ++ [b])
          from rfl, pathDistance_cons_cons] at hpd
      cases hfe : findEdge g x y with
      | none => rw [hfe] at hpd; dsimp only at hpd; cases hpd
      | some e1 =>
        rw [hfe] at hpd
        cases hrest : pathDistance? g (y :: (u ++ [b])) with
        | none => rw [hrest] at hpd; dsimp only at hpd; cases hpd
        | some drest =>
          rw [hrest] at hpd
          dsimp only at hpd
          injection hpd with hpd'
          obtain ⟨a, s, e, ha, hs, he, hd⟩ := ih b drest (by simp) (by
            rw [show (((y :: u) ++ [b]) : List String) = y :: (u ++ [b]) from rfl]
            exact hrest)
          refine ⟨a, e1.distance + s, e, ?_, ?_, he, ?_⟩
          · rw [List.getLast?_cons_cons]
            exact ha
          · rw [pathDistance_cons_cons, hfe, hs]
          · rw [← hpd', hd, add_assoc]

/-- Walking an arbitrary chain of fresh nodes through the table: from a
reached cell, the cell of the extended mask at the chain's last node is
bounded by the accumulated distance. -/
theorem dpTour_le (g : RouteGraph) (hnodup : g.nodes.Nodup)
    (hwfe : ∀ e ∈ g.edges, e.from_ ∈ g.nodes ∧ e.to_ ∈ g.nodes)
    (hu : EdgesUnique g) (sIdx : ℕ) :
    ∀ (l : List String) (a : String) (μ u : ℕ) (c dRest : ℚ),
      μ.testBit u = true → u < g.nodes.length → 1 ≤ μ →
      g.nodes[u]? = some a →
      optLE (dpGet (dpTable (distMatrix g) g.nodes.length sIdx (μ - 1)) μ u)
        (some c) →
      (∀ s ∈ l, ∀ j, nodeToIndex g.nodes s = some j → μ.testBit j = false) →
      (∀ s ∈ l, s ∈ g.nodes) → l.Nodup →
      pathDistance? g (a :: l) = some dRest →
      ∃ μ' u' lastName,
        (a :: l).getLast? = some lastName ∧
        g.nodes[u']? = some lastName ∧
        (∀ j, μ'.testBit j = true ↔
          (μ.testBit j = true ∨ ∃ s ∈ l, nodeToIndex g.nodes s = some j)) ∧
        μ'.testBit u' = true ∧ u' < g.nodes.length ∧ 1 ≤ μ' ∧
        optLE (dpGet (dpTable (distMatrix g) g.nodes.length sIdx (μ' - 1)) μ' u')
          (some (c + dRest)) := by
  intro l
  induction l with
  | nil =>
    intro a μ u c dRest hbu hun hμ1 hua hcell _ _ _ hpd
    have h0 : (some (0 : ℚ)) = some dRest := hpd
    injection h0 with h0'
    refine ⟨μ, u, a, rfl, hua, ?_, hbu, hun, hμ1, ?_⟩
    · intro j
      simp
    · rw [← h0', add_zero]
      exact hcell
  | cons s t ih =>
    intro a μ u c dRest hbu hun hμ1 hua hcell hunvis hmem hnd hpd
    have hsmem : s ∈ g.nodes := hmem s (List.mem_cons_self s t)
    have hsome : (nodeToIndex g.nodes s).isSome = true :=
      nodeToIndex_isSome g.nodes s hsmem
    obtain ⟨v, hv⟩ := Option.isSome_iff_exists.mp hsome
    obtain ⟨hvlt, hvget⟩ := nodeToIndex_spec g.nodes s v hv
    have hbv : μ.testBit v = false := hunvis s (List.mem_cons_self s t) v hv
    rw [pathDistance_cons_cons] at hpd
    cases hfe : findEdge g a s with
    | none => rw [hfe] at hpd; dsimp only at hpd; cases hpd
    | some e =>
      rw [hfe] at hpd
      cases hrest : pathDistance? g (s :: t) with
      | none => rw [hrest] at hpd; dsimp only at hpd; cases hpd
      | some dR =>
        rw [hrest] at hpd
        dsimp only at hpd
        injection hpd with hpd'
        have hgua : g.nodes[u] = a := by
          have h := hua
          rw [List.getElem?_eq_getElem hun] at h
          injection h with h'
        have hgvs : g.nodes[v] = s := by
          have h := hvget
          rw [List.getElem?_eq_getElem hvlt] at h
          injection h with h'
        have hdist : distMatrix g u v = some e.distance := by
          rw [distMatrix_eq g hnodup hwfe hu u v hun hvlt, hgua, hgvs, hfe]
          rfl
        have hstep := dpTable_step_le (distMatrix g) g.nodes.length sIdx μ u v
          c e.distance hbu hbv hun hvlt hμ1 hdist hcell
        have hih := ih s (μ ||| (1 <<< v)) v (c + e.distance) dR
          (testBit_or_shift_self μ v) hvlt
          (by have := lt_or_shift μ v hbv; omega)
          hvget hstep
          (by
            intro s' hs' j hj
            have hμj : μ.testBit j = false :=
              hunvis s' (List.mem_cons_of_mem s hs') j hj
            have hjv : j ≠ v := by
              intro he
              subst he
              obtain ⟨hjlt, hjget⟩ := nodeToIndex_spec g.nodes s' j hj
              rw [hvget] at hjget
              injection hjget with hss
              rw [← hss] at hs'
              exact (List.nodup_cons.mp hnd).1 hs'
            rw [testBit_or_shift_ne μ v j hjv]
            exact hμj)
          (fun s' hs' => hmem s' (List.mem_cons_of_mem s hs'))
          (List.nodup_cons.mp hnd).2 hrest
        obtain ⟨μ', u', lastName, hl1, hl2, hchar, hb1, hb2, hb3, hbound⟩ := hih
        refine ⟨μ', u', lastName, ?_, hl2, ?_, hb1, hb2, hb3, ?_⟩
        · rw [List.getLast?_cons_cons]
          exact hl1
        · intro j
          rw [hchar j]
          constructor
          · rintro (hj | hj)
            · by_cases hjv : j = v
              · subst hjv
                right
                exact ⟨s, List.mem_cons_self s t, hv⟩
              · rw [testBit_or_shift_ne μ v j hjv] at hj
                left
                exact hj
            · obtain ⟨s', hs', hj'⟩ := hj
              right
              exact ⟨s', List.mem_cons_of_mem s hs', hj'⟩
          · rintro (hj | hj)
            · by_cases hjv : j = v
              · subst hjv
                rw [hbv] at hj
                cases hj
              · left
                rw [testBit_or_shift_ne μ v j hjv]
                exact hj
            · obtain ⟨s', hs', hj'⟩ := hj
              rcases List.mem_cons.mp hs' with he | hst
              · subst he
                rw [hv] at hj'
                injection hj' with hjv
                subst hjv
                left
                exact testBit_or_shift_self μ v
              · right
                exact ⟨s', hst, hj'⟩
        · rw [← hpd', ← add_assoc]
          exact hbound

/-- A closed tour decomposes into start, interior, and the closing start,
with the interior plus first start a permutation of the node set. -/
theorem closedTour_decompose (g : RouteGraph) (start : String) (path : List String)
    (hn2 : 2 ≤ g.nodes.length) (h : IsClosedTour g start path) :
    ∃ p, path = start :: (p ++ [start]) ∧ (start :: p).Perm g.nodes := by
  obtain ⟨hh, hl, hperm⟩ := h
  cases path with
  | nil => cases hh
  | cons x rest =>
    rw [List.head?_cons] at hh
    injection hh with hx
    subst hx
    cases rest with
    | nil =>
      rw [show ([x] : List String).dropLast = [] from rfl] at hperm
      have hlen := hperm.length_eq
      rw [List.length_nil] at hlen
      omega
    | cons y u =>
      have hne : (y :: u : List String) ≠ [] := by simp
      have hgl : (y :: u).getLast hne = x := by
        have h1 := List.getLast?_eq_getLast (y :: u) hne
        rw [List.getLast?_cons_cons] at hl
        rw [hl] at h1
        injection h1 with h1'
        exact h1'.symm
      have hshape : (x :: y :: u : List String)
          = (x :: (y :: u).dropLast) ++ [x] := by
        have hd := List.dropLast_append_getLast hne
        rw [hgl] at hd
        rw [show ((x :: (y :: u).dropLast) ++ [x] : List String)
          = x :: ((y :: u).dropLast ++ [x]) from rfl, hd]
      refine ⟨(y :: u).dropLast, ?_, ?_⟩
      · rw [hshape]
        rfl
      · rw [hshape, List.dropLast_concat] at hperm
        exact hperm

/-- The DP scan's minimum is a lower bound on every closed tour's total
distance. -/
theorem dp_min_le_tour (g : RouteGraph) (start : String)
    (hnodup : g.nodes.Nodup)
    (hwfe : ∀ e ∈ g.edges, e.from_ ∈ g.nodes ∧ e.to_ ∈ g.nodes)
    (hu : EdgesUnique g) (hstart : start ∈ g.nodes) (hn2 : 2 ≤ g.nodes.length)
    (mc : ℚ) (b : ℕ)
    (hbest : dpFindBest (distMatrix g) g.nodes.length
        ((nodeToIndex g.nodes start).getD 0)
        (heldKarpTable (distMatrix g) g.nodes.length
          ((nodeToIndex g.nodes start).getD 0)) = some (mc, b))
    (path : List String) (hclosed : IsClosedTour g start path)
    (dtot : ℚ) (hpd : pathDistance? g path = some dtot) :
    mc ≤ dtot := by
  have hsome : (nodeToIndex g.nodes start).isSome = true :=
    nodeToIndex_isSome g.nodes start hstart
  obtain ⟨i0, hi0⟩ := Option.isSome_iff_exists.mp hsome
  have hsIdx : (nodeToIndex g.nodes start).getD 0 = i0 := by rw [hi0]; rfl
  obtain ⟨hslt, hsget⟩ := nodeToIndex_spec g.nodes start i0 hi0
  have hbest2 : dpFindBest (distMatrix g) g.nodes.length i0
      (dpTable (distMatrix g) g.nodes.length i0 (2 ^ g.nodes.length - 1))
      = some (mc, b) := by
    rw [← heldKarpTable_eq_dpTable, ← hsIdx]
    exact hbest
  obtain ⟨p, hpe, hperm⟩ := closedTour_decompose g start path hn2 hclosed
  have hpnodup : (start :: p).Nodup := hperm.nodup_iff.mpr hnodup
  have hpns : start ∉ p := (List.nodup_cons.mp hpnodup).1
  have hpnd : p.Nodup := (List.nodup_cons.mp hpnodup).2
  have hplen : p.length + 1 = g.nodes.length := by
    have hle := hperm.length_eq
    rw [List.length_cons] at hle
    exact hle
  have hpne : p ≠ [] := by
    intro he
    rw [he] at hplen
    rw [List.length_nil] at hplen
    omega
  rw [hpe, show (start :: (p ++ [start]) : List String)
      = (start :: p) ++ [start] from rfl] at hpd
  obtain ⟨a0, dInt, e, ha0, hdInt, hfe, hdtot⟩ :=
    pathDistance_append_one_inv g (start :: p) start dtot (by simp) hpd
  have htour := dpTour_le g hnodup hwfe hu i0 p start (1 <<< i0) i0 0 dInt
    (by rw [testBit_one_shiftLeft]; simp) hslt
    (by rw [Nat.one_shiftLeft]; exact Nat.one_le_two_pow) hsget
    (by
      have hinv0 := dpTable_inv (distMatrix g) g.nodes.length i0 hslt
        (1 <<< i0 - 1)
      rw [hinv0.1]
      exact le_refl (0 : ℚ))
    (by
      intro s hs j hj
      rw [testBit_one_shiftLeft]
      apply decide_eq_false
      intro he
      obtain ⟨hjlt, hjget⟩ := nodeToIndex_spec g.nodes s j hj
      rw [← he] at hjget
      rw [hsget] at hjget
      injection hjget with hss
      rw [← hss] at hs
      exact hpns hs)
    (fun s hs => hperm.mem_iff.mp (List.mem_cons_of_mem start hs))
    hpnd hdInt
  obtain ⟨μ', u', lastName, hl1, hl2, hchar, hb1, hb2, hb3, hbound⟩ := htour
  have hl1' : a0 = lastName := by
    rw [hl1] at ha0
    injection ha0 with h
    exact h.symm
  have hμfull : μ' = 2 ^ g.nodes.length - 1 := by
    apply Nat.eq_of_testBit_eq
    intro j
    rw [Nat.testBit_two_pow_sub_one]
    rw [Bool.eq_iff_iff]
    constructor
    · intro hj
      rcases (hchar j).mp hj with hj' | ⟨s, hs, hj'⟩
      · rw [testBit_one_shiftLeft] at hj'
        have hij := of_decide_eq_true hj'
        rw [← hij]
        exact decide_eq_true hslt
      · obtain ⟨hjlt, _⟩ := nodeToIndex_spec g.nodes s j hj'
        exact decide_eq_true hjlt
    · intro hj
      have hjn : j < g.nodes.length := of_decide_eq_true hj
      apply (hchar j).mpr
      have hjmem : g.nodes[j] ∈ g.nodes := List.getElem_mem hjn
      rcases List.mem_cons.mp (hperm.mem_iff.mpr hjmem) with hjs | hjp
      · left
        have hidx := nodeToIndex_getElem g.nodes hnodup j hjn
        rw [hjs, hi0] at hidx
        injection hidx with hidx'
        rw [testBit_one_shiftLeft, hidx']
        simp
      · right
        exact ⟨g.nodes[j], hjp, nodeToIndex_getElem g.nodes hnodup j hjn⟩
  have hmono := dpTable_mono_time (distMatrix g) g.nodes.length i0
    (μ' - 1) (2 ^ g.nodes.length - 1) (by rw [hμfull]; omega) μ' u'
  have hfinal : optLE
      (dpGet (dpTable (distMatrix g) g.nodes.length i0 (2 ^ g.nodes.length - 1))
        μ' u') (some (0 + dInt)) := optLE_trans hmono hbound
  rw [hμfull] at hfinal
  cases hcu : dpGet (dpTable (distMatrix g) g.nodes.length i0
      (2 ^ g.nodes.length - 1)) (2 ^ g.nodes.length - 1) u' with
  | none => rw [hcu] at hfinal; cases hfinal
  | some cu =>
    rw [hcu] at hfinal
    have hcu_le : cu ≤ dInt := by
      rw [zero_add] at hfinal
      exact hfinal
    have hlmem : lastName ∈ p := by
      cases p with
      | nil => exact absurd rfl hpne
      | cons z w =>
        rw [List.getLast?_cons_cons] at hl1
        exact List.mem_of_mem_getLast? (show lastName ∈ (z :: w).getLast? by
          rw [hl1]; rfl)
    have hune : u' ≠ i0 := by
      intro he
      rw [he] at hl2
      rw [hsget] at hl2
      injection hl2 with hls
      rw [← hls] at hlmem
      exact hpns hlmem
    have hu'lt : u' < g.nodes.length := hb2
    have hgu' : g.nodes[u'] = lastName := by
      have h := hl2
      rw [List.getElem?_eq_getElem hu'lt] at h
      injection h with h'
    have hgi0 : g.nodes[i0] = start := by
      have h := hsget
      rw [List.getElem?_eq_getElem hslt] at h
      injection h with h'
    have hdist : distMatrix g u' i0 = some e.distance := by
      rw [distMatrix_eq g hnodup hwfe hu u' i0 hu'lt hslt, hgu', hgi0]
      rw [hl1'] at hfe
      rw [hfe]
      rfl
    have hmin := dpFindBest_min (distMatrix g) g.nodes.length i0 _ mc b hbest2
      u' cu e.distance hu'lt hune hcu hdist
    rw [hdtot, hl1'] at *
    calc mc ≤ cu + e.distance := hmin
      _ ≤ dInt + e.distance := add_le_add_right hcu_le e.distance

/-- On a valid instance every closed tour has a defined total distance. -/
theorem closedTour_pathDistance_some (g : RouteGraph) (start : String)
    (h : ValidInstance g start) (path : List String)
    (hclosed : IsClosedTour g start path) :
    ∃ d, pathDistance? g path = some d := by
  obtain ⟨⟨hnodup, _, _⟩, _, hfc, hstart, hn2⟩ := h
  obtain ⟨p, hpe, hperm⟩ := closedTour_decompose g start path hn2 hclosed
  have hpnodup : (start :: p).Nodup := hperm.nodup_iff.mpr hnodup
  have hpns : start ∉ p := (List.nodup_cons.mp hpnodup).1
  have hpnd : p.Nodup := (List.nodup_cons.mp hpnodup).2
  have hchain := chain_through g start hstart p start hstart
    (fun x hx => hperm.mem_iff.mp (List.mem_cons_of_mem start hx))
    hpnd hpns hpns
    (by
      intro hpnil
      exfalso
      rw [hpnil] at hperm
      have hlen := hperm.length_eq
      rw [List.length_singleton] at hlen
      omega)
  obtain ⟨d, hd⟩ := pathDistance?_isSome_of_chain g hfc
    (start :: (p ++ [start])) hchain
  rw [hpe]
  exact ⟨d, hd⟩

/-- Any closed tour with a defined distance forces the DP scan to find a
candidate. -/
theorem dp_some_of_tour (g : RouteGraph) (start : String)
    (hnodup : g.nodes.Nodup)
    (hwfe : ∀ e ∈ g.edges, e.from_ ∈ g.nodes ∧ e.to_ ∈ g.nodes)
    (hu : EdgesUnique g) (hstart : start ∈ g.nodes) (hn2 : 2 ≤ g.nodes.length)
    (path : List String) (hclosed : IsClosedTour g start path)
    (dtot : ℚ) (hpd : pathDistance? g path = some dtot) :
    ∃ mc b, dpFindBest (distMatrix g) g.nodes.length
        ((nodeToIndex g.nodes start).getD 0)
        (heldKarpTable (distMatrix g) g.nodes.length
          ((nodeToIndex g.nodes start).getD 0)) = some (mc, b) := by
  have hsome : (nodeToIndex g.nodes start).isSome = true :=
    nodeToIndex_isSome g.nodes start hstart
  obtain ⟨i0, hi0⟩ := Option.isSome_iff_exists.mp hsome
  have hsIdx : (nodeToIndex g.nodes start).getD 0 = i0 := by rw [hi0]; rfl
  obtain ⟨hslt, hsget⟩ := nodeToIndex_spec g.nodes start i0 hi0
  obtain ⟨p, hpe, hperm⟩ := closedTour_decompose g start path hn2 hclosed
  have hpnodup : (start :: p).Nodup := hperm.nodup_iff.mpr hnodup
  have hpns : start ∉ p := (List.nodup_cons.mp hpnodup).1
  have hpnd : p.Nodup := (List.nodup_cons.mp hpnodup).2
  have hplen : p.length + 1 = g.nodes.length := by
    have hle := hperm.length_eq
    rw [List.length_cons] at hle
    exact hle
  have hpne : p ≠ [] := by
    intro he
    rw [he] at hplen
    rw [List.length_nil] at hplen
    omega
  rw [hpe, show (start :: (p ++ [start]) : List String)
      = (start :: p) ++ [start] from rfl] at hpd
  obtain ⟨a0, dInt, e, ha0, hdInt, hfe, hdtot⟩ :=
    pathDistance_append_one_inv g (start :: p) start dtot (by simp) hpd
  have htour := dpTour_le g hnodup hwfe hu i0 p start (1 <<< i0) i0 0 dInt
    (by rw [testBit_one_shiftLeft]; simp) hslt
    (by rw [Nat.one_shiftLeft]; exact Nat.one_le_two_pow) hsget
    (by
      have hinv0 := dpTable_inv (distMatrix g) g.nodes.length i0 hslt
        (1 <<< i0 - 1)
      rw [hinv0.1]
      exact le_refl (0 : ℚ))
    (by
      intro s hs j hj
      rw [testBit_one_shiftLeft]
      apply decide_eq_false
      intro he
      obtain ⟨hjlt, hjget⟩ := nodeToIndex_spec g.nodes s j hj
      rw [← he] at hjget
      rw [hsget] at hjget
      injection hjget with hss
      rw [← hss] at hs
      exact hpns hs)
    (fun s hs => hperm.mem_iff.mp (List.mem_cons_of_mem start hs))
    hpnd hdInt
  obtain ⟨μ', u', lastName, hl1, hl2, hchar, hb1, hb2, hb3, hbound⟩ := htour
  have hl1' : a0 = lastName := by
    rw [hl1] at ha0
    injection ha0 with h
    exact h.symm
  have hμfull : μ' = 2 ^ g.nodes.length - 1 := by
    apply Nat.eq_of_testBit_eq
    intro j
    rw [Nat.testBit_two_pow_sub_one]
    rw [Bool.eq_iff_iff]
    constructor
    · intro hj
      rcases (hchar j).mp hj with hj' | ⟨s, hs, hj'⟩
      · rw [testBit_one_shiftLeft] at hj'
        have hij := of_decide_eq_true hj'
        rw [← hij]
        exact decide_eq_true hslt
      · obtain ⟨hjlt, _⟩ := nodeToIndex_spec g.nodes s j hj'
        exact decide_eq_true hjlt
    · intro hj
      have hjn : j < g.nodes.length := of_decide_eq_true hj
      apply (hchar j).mpr
      have hjmem : g.nodes[j] ∈ g.nodes := List.getElem_mem hjn
      rcases List.mem_cons.mp (hperm.mem_iff.mpr hjmem) with hjs | hjp
      · left
        have hidx := nodeToIndex_getElem g.nodes hnodup j hjn
        rw [hjs, hi0] at hidx
        injection hidx with hidx'
        rw [testBit_one_shiftLeft, hidx']
        simp
      · right
        exact ⟨g.nodes[j], hjp, nodeToIndex_getElem g.nodes hnodup j hjn⟩
  have hmono := dpTable_mono_time (distMatrix g) g.nodes.length i0
    (μ' - 1) (2 ^ g.nodes.length - 1) (by rw [hμfull]; omega) μ' u'
  have hfinal : optLE
      (dpGet (dpTable (distMatrix g) g.nodes.length i0 (2 ^ g.nodes.length - 1))
        μ' u') (some (0 + dInt)) := optLE_trans hmono hbound
  rw [hμfull] at hfinal
  cases hcu : dpGet (dpTable (distMatrix g) g.nodes.length i0
      (2 ^ g.nodes.length - 1)) (2 ^ g.nodes.length - 1) u' with
  | none => rw [hcu] at hfinal; cases hfinal
  | some cu =>
    have hlmem : lastName ∈ p := by
      cases p with
      | nil => exact absurd rfl hpne
      | cons z w =>
        rw [List.getLast?_cons_cons] at hl1
        exact List.mem_of_mem_getLast? (show lastName ∈ (z :: w).getLast? by
          rw [hl1]; rfl)
    have hune : u' ≠ i0 := by
      intro he
      rw [he] at hl2
      rw [hsget] at hl2
      injection hl2 with hls
      rw [← hls] at hlmem
      exact hpns hlmem
    have hu'lt : u' < g.nodes.length := hb2
    have hgu' : g.nodes[u'] = lastName := by
      have h := hl2
      rw [List.getElem?_eq_getElem hu'lt] at h
      injection h with h'
    have hgi0 : g.nodes[i0] = start := by
      have h := hsget
      rw [List.getElem?_eq_getElem hslt] at h
      injection h with h'
    have hdist : distMatrix g u' i0 = some e.distance := by
      rw [distMatrix_eq g hnodup hwfe hu u' i0 hu'lt hslt, hgu', hgi0]
      rw [hl1'] at hfe
      rw [hfe]
      rfl
    obtain ⟨mc, b, hb⟩ := dpFindBest_some (distMatrix g) g.nodes.length i0
      (dpTable (distMatrix g) g.nodes.length i0 (2 ^ g.nodes.length - 1))
      u' cu e.distance hu'lt hune hcu hdist
    refine ⟨mc, b, ?_⟩
    rw [hsIdx, heldKarpTable_eq_dpTable]
    exact hb

/-- The DP solver on a valid instance with at most 12 nodes: the returned
path is a closed optimal tour. -/
theorem dynamicProgrammingTSP_valid (g : RouteGraph) (start : String)
    (h : ValidInstance g start) (hn12 : g.nodes.length ≤ 12) :
    ∃ mc, IsClosedTour g start (dynamicProgrammingTSP g start) ∧
      pathDistance? g (dynamicProgrammingTSP g start) = some mc ∧
      ∀ path, IsClosedTour g start path →
        ∀ dtot, pathDistance? g path = some dtot → mc ≤ dtot := by
  obtain ⟨⟨hnodup, hempty, hedges⟩, hu, hfc, hstart, hn2⟩ := h
  have hwfe : ∀ e ∈ g.edges, e.from_ ∈ g.nodes ∧ e.to_ ∈ g.nodes :=
    fun e he => ⟨(hedges e he).1, (hedges e he).2.1⟩
  have hnn := nearestNeighborTSP_closed g start
    ⟨⟨hnodup, hempty, hedges⟩, hu, hfc, hstart, hn2⟩
  obtain ⟨d0, hd0⟩ := closedTour_pathDistance_some g start
    ⟨⟨hnodup, hempty, hedges⟩, hu, hfc, hstart, hn2⟩ _ hnn
  obtain ⟨mc, b, hbest⟩ := dp_some_of_tour g start hnodup hwfe hu hstart hn2
    _ hnn d0 hd0
  obtain ⟨hct, hpd⟩ := dynamicProgrammingTSP_spec g start hnodup hwfe hu hstart
    hn2 hn12 mc b hbest
  refine ⟨mc, hct, hpd, ?_⟩
  intro path hcp dtot hdp
  exact dp_min_le_tour g start hnodup hwfe hu hstart hn2 mc b hbest
    path hcp dtot hdp

/-- The DP solver returns a closed tour on every valid instance (falling
back to the nearest-neighbor tour above its ceiling). -/
theorem dynamicProgrammingTSP_closed (g : RouteGraph) (start : String)
    (h : ValidInstance g start) :
    IsClosedTour g start (dynamicProgrammingTSP g start) := by
  by_cases hn12 : g.nodes.length ≤ 12
  · obtain ⟨mc, hct, _, _⟩ := dynamicProgrammingTSP_valid g start h hn12
    exact hct
  · have heq : dynamicProgrammingTSP g start = nearestNeighborTSP g start := by
      unfold dynamicProgrammingTSP
      dsimp only
      rw [if_pos (by omega)]
    rw [heq]
    exact nearestNeighborTSP_closed g start h

/-- C2: for every instance within both solvers' exact ranges (a valid
instance whose non-start node count is at most 8, so the brute-force
cutoff does not fire and the node count is at most 12), the
dynamic-programming and brute-force solvers return tours of equal total
distance. -/
theorem C2_dp_matches_bruteforce (g : RouteGraph) (start : String)
    (h : ValidInstance g start)
    (h8 : (g.nodes.filter (fun x => x != start)).length ≤ 8) :
    pathDistance? g (dynamicProgrammingTSP g start) =
      pathDistance? g (bruteForceTSP g start) := by
  obtain ⟨hbfct, dbf, hbfd, hbfmin⟩ := bruteForceTSP_spec g start h h8
  obtain ⟨hofn, hofm, hofne, hperm_other⟩ := otherNodes_facts g start h
  have hn12 : g.nodes.length ≤ 12 := by
    have hlen := hperm_other.length_eq
    rw [List.length_cons] at hlen
    omega
  obtain ⟨mc, hdpct, hdpd, hdpmin⟩ := dynamicProgrammingTSP_valid g start h hn12
  obtain ⟨⟨hnodup, _, _⟩, _, _, hstart, hn2⟩ := h
  have h1 : mc ≤ dbf := hdpmin _ hbfct dbf hbfd
  obtain ⟨pdp, hpe, hperm⟩ := closedTour_decompose g start _ hn2 hdpct
  have hpnodup : (start :: pdp).Nodup := hperm.nodup_iff.mpr hnodup
  have hpns : start ∉ pdp := (List.nodup_cons.mp hpnodup).1
  have hpnd : pdp.Nodup := (List.nodup_cons.mp hpnodup).2
  have hpermf : pdp.Perm (g.nodes.filter (fun x => x != start)) := by
    rw [List.perm_ext_iff_of_nodup hpnd hofn]
    intro s
    constructor
    · intro hs
      apply List.mem_filter.mpr
      refine ⟨hperm.mem_iff.mp (List.mem_cons_of_mem start hs), ?_⟩
      have hne : s ≠ start := by
        intro he
        rw [he] at hs
        exact hpns hs
      simp [hne]
    · intro hs
      obtain ⟨hsmem, hsne⟩ := hofm s hs
      rcases List.mem_cons.mp (hperm.mem_iff.mpr hsmem) with he | hmem
      · exact absurd he hsne
      · exact hmem
  have hdpd2 : pathDistance? g (start :: (pdp ++ [start])) = some mc := by
    rw [← hpe]
    exact hdpd
  have h2 : dbf ≤ mc := hbfmin pdp hpermf mc hdpd2
  rw [hbfd, hdpd]
  rw [le_antisymm h1 h2]

/-- Witness for C2 on the complete 3-node instance. -/
theorem C2_dp_matches_bruteforce_witness :
    pathDistance? gW3 (dynamicProgrammingTSP gW3 "a") =
      pathDistance? gW3 (bruteForceTSP gW3 "a") :=
  C2_dp_matches_bruteforce gW3 "a"
    (by unfold ValidInstance WellFormedGraph EdgesUnique FullyConnected; decide)
    (by decide)

unseal Rat.add Rat.mul Rat.inv Rat.sub in
/-- Counterexample to C6 as stated: on the 11-node graph `g11` the
branch-and-bound solver falls back to the dynamic-programming solver,
whose tour (total distance at most 12) cannot be the greedy
nearest-neighbor tour (total distance 110). -/
theorem C6_counterexample :
    10 < g11.nodes.length ∧
      branchAndBoundTSP g11 "n0" ≠ nearestNeighborTSP g11 "n0" := by
  refine ⟨by decide, ?_⟩
  intro heq
  have hbb : branchAndBoundTSP g11 "n0" = dynamicProgrammingTSP g11 "n0" := by
    unfold branchAndBoundTSP
    rw [if_pos (by decide)]
  have hT12closed : IsClosedTour g11 "n0" t12Path := by
    refine ⟨rfl, by decide, by decide⟩
  have hT12d : pathDistance? g11 t12Path = some 12 := by decide
  have hnodup : g11.nodes.Nodup := by decide
  have hwfe : ∀ e ∈ g11.edges, e.from_ ∈ g11.nodes ∧ e.to_ ∈ g11.nodes := by
    decide
  have hu : EdgesUnique g11 := by unfold EdgesUnique; decide
  have hstart : "n0" ∈ g11.nodes := by decide
  have hn2 : 2 ≤ g11.nodes.length := by decide
  obtain ⟨mc, b, hbest⟩ := dp_some_of_tour g11 "n0" hnodup hwfe hu hstart hn2
    t12Path hT12closed 12 hT12d
  obtain ⟨hct, hpd⟩ := dynamicProgrammingTSP_spec g11 "n0" hnodup hwfe hu hstart
    hn2 (by decide) mc b hbest
  have hle : mc ≤ 12 := dp_min_le_tour g11 "n0" hnodup hwfe hu hstart hn2 mc b
    hbest t12Path hT12closed 12 hT12d
  have hdn : dynamicProgrammingTSP g11 "n0" = nearestNeighborTSP g11 "n0" := by
    rw [← hbb]
    exact heq
  have hnnd : pathDistance? g11 (nearestNeighborTSP g11 "n0") = some 110 := by
    decide
  rw [hdn, hnnd] at hpd
  injection hpd with h110
  rw [← h110] at hle
  norm_num at hle

/-- What a successful `findEdge` lookup returns. -/
theorem findEdge_sound (g : RouteGraph) (a b : String) (e : RouteEdge)
    (h : findEdge g a b = some e) : e ∈ g.edges ∧ e.from_ = a ∧ e.to_ = b := by
  unfold findEdge at h
  have hmem := List.mem_of_find?_eq_some h
  have hp := List.find?_some h
  rw [Bool.and_eq_true] at hp
  obtain ⟨h1, h2⟩ := hp
  exact ⟨hmem, eq_of_beq h1, eq_of_beq h2⟩

/-- Appending one more edge to a path adds that edge's distance. -/
theorem pathDistance_append_one (g : RouteGraph) :
    ∀ (l : List String) (a b : String) (s : ℚ) (e : RouteEdge),
      l.getLast? = some a → pathDistance? g l = some s →
      findEdge g a b = some e →
      pathDistance? g (l ++ [b]) = some (s + e.distance) := by
  intro l
  induction l with
  | nil => intro a b s e hl _ _; cases hl
  | cons x t ih =>
    intro a b s e hl hc hd
    cases t with
    | nil =>
      have hax : a = x := by
        simp only [List.getLast?_singleton] at hl
        injection hl with hl'
        exact hl'.symm
      subst hax
      have hs0 : (some (0 : ℚ)) = some s := hc
      injection hs0 with hs0'
      subst hs0'
      show pathDistance? g [a, b] = some (0 + e.distance)
      rw [pathDistance_cons_cons, hd]
      show some (e.distance + 0) = some (0 + e.distance)
      rw [add_zero, zero_add]
    | cons y u =>
      have hlast : (y :: u).getLast? = some a := by
        rw [List.getLast?_cons_cons] at hl
        exact hl
      rw [pathDistance_cons_cons] at hc
      cases hxy : findEdge g x y with
      | none => rw [hxy] at hc; dsimp only at hc; cases hc
      | some exy =>
        rw [hxy] at hc
        cases hrest : pathDistance? g (y :: u) with
        | none => rw [hrest] at hc; dsimp only at hc; cases hc
        | some srest =>
          rw [hrest] at hc
          dsimp only at hc
          injection hc with hc'
          have happ := ih a b srest e hlast hrest hd
          show pathDistance? g (x :: ((y :: u) ++ [b])) = some (s + e.distance)
          rw [show (x :: ((y :: u) ++ [b]) : List String)
            = x :: y :: (u ++ [b]) from rfl]
          rw [pathDistance_cons_cons, hxy]
          rw [show ((y :: u) ++ [b] : List String) = y :: (u ++ [b]) from rfl]
            at happ
          rw [happ]
          rw [← hc', add_assoc]

/-- Total distances are nonnegative on graphs with nonnegative edges. -/
theorem pathDistance_nonneg (g : RouteGraph)
    (hwf : ∀ e ∈ g.edges, 0 ≤ e.distance) :
    ∀ (l : List String) (d : ℚ), pathDistance? g l = some d → 0 ≤ d := by
  intro l
  induction l with
  | nil =>
    intro d hd
    have h0 : (some (0 : ℚ)) = some d := hd
    injection h0 with h
    rw [← h]
  | cons a t ih =>
    intro d hd
    cases t with
    | nil =>
      have h0 : (some (0 : ℚ)) = some d := hd
      injection h0 with h
      rw [← h]
    | cons b u =>
      rw [pathDistance_cons_cons] at hd
      cases hfe : findEdge g a b with
      | none => rw [hfe] at hd; dsimp only at hd; cases hd
      | some e =>
        rw [hfe] at hd
        cases hrest : pathDistance? g (b :: u) with
        | none => rw [hrest] at hd; dsimp only at hd; cases hd
        | some dr =>
          rw [hrest] at hd
          dsimp only at hd
          injection hd with hd'
          rw [← hd']
          have h1 : 0 ≤ e.distance := hwf e (findEdge_sound g a b e hfe).1
          have h2 : 0 ≤ dr := ih dr hrest
          exact add_nonneg h1 h2

/-- A computed minimum outgoing edge is realized by an actual edge. -/
theorem minOutEdge_sound (g : RouteGraph) (v : String) :
    ∀ m, minOutEdge g v = some m →
      ∃ e ∈ g.edges, e.from_ = v ∧ e.distance = m := by
  unfold minOutEdge
  suffices h : ∀ (l : List RouteEdge), (∀ e ∈ l, e ∈ g.edges) →
      ∀ (acc : Option ℚ),
      (∀ m, acc = some m → ∃ e ∈ g.edges, e.from_ = v ∧ e.distance = m) →
      ∀ m, l.foldl
        (fun acc e =>
          if e.from_ = v then
            match acc with
            | none => some e.distance
            | some mm => if e.distance < mm then some e.distance else acc
          else acc) acc = some m →
      ∃ e ∈ g.edges, e.from_ = v ∧ e.distance = m by
    exact fun m hm =>
      h g.edges (fun e he => he) none (fun m' hm' => by cases hm') m hm
  intro l
  induction l with
  | nil => intro _ acc hacc m hm; exact hacc m hm
  | cons e t ih =>
    intro hl acc hacc m hm
    rw [List.foldl_cons] at hm
    refine ih (fun x hx => hl x (List.mem_cons_of_mem e hx)) _ ?_ m hm
    intro m' hm'
    by_cases hev : e.from_ = v
    · rw [if_pos hev] at hm'
      cases acc with
      | none =>
        dsimp only at hm'
        injection hm' with h'
        exact ⟨e, hl e (List.mem_cons_self e t), hev, h'⟩
      | some mm =>
        dsimp only at hm'
        by_cases hlt : e.distance < mm
        · rw [if_pos hlt] at hm'
          injection hm' with h'
          exact ⟨e, hl e (List.mem_cons_self e t), hev, h'⟩
        · rw [if_neg hlt] at hm'
          exact hacc m' hm'
    · rw [if_neg hev] at hm'
      exact hacc m' hm'

/-- The minimum outgoing edge cost is at most each outgoing edge's. -/
theorem minOutEdge_le (g : RouteGraph) (v : String) (e0 : RouteEdge)
    (he0 : e0 ∈ g.edges) (hf : e0.from_ = v) :
    ∃ m, minOutEdge g v = some m ∧ m ≤ e0.distance := by
  unfold minOutEdge
  suffices h : ∀ (l : List RouteEdge) (acc : Option ℚ),
      (e0 ∈ l ∨ ∃ mm, acc = some mm ∧ mm ≤ e0.distance) →
      ∃ m, l.foldl
        (fun acc e =>
          if e.from_ = v then
            match acc with
            | none => some e.distance
            | some mm => if e.distance < mm then some e.distance else acc
          else acc) acc = some m ∧ m ≤ e0.distance by
    exact h g.edges none (Or.inl he0)
  intro l
  induction l with
  | nil =>
    intro acc hacc
    rcases hacc with h | ⟨mm, hmm, hle⟩
    · cases h
    · exact ⟨mm, hmm, hle⟩
  | cons e t ih =>
    intro acc hacc
    rw [List.foldl_cons]
    have hstep : ∀ (acc : Option ℚ), (∃ mm, acc = some mm ∧ mm ≤ e0.distance) →
        ∃ mm, (if e.from_ = v then
            match acc with
            | none => some e.distance
            | some mm => if e.distance < mm then some e.distance else acc
          else acc) = some mm ∧ mm ≤ e0.distance := by
      intro acc ⟨mm, hmm, hle⟩
      subst hmm
      by_cases hev : e.from_ = v
      · rw [if_pos hev]
        dsimp only
        by_cases hlt : e.distance < mm
        · rw [if_pos hlt]
          exact ⟨e.distance, rfl, le_trans (le_of_lt hlt) hle⟩
        · rw [if_neg hlt]
          exact ⟨mm, rfl, hle⟩
      · rw [if_neg hev]
        exact ⟨mm, rfl, hle⟩
    rcases hacc with hmem | hP
    · rcases List.mem_cons.mp hmem with he | ht
      · subst he
        refine ih _ (Or.inr ?_)
        rw [if_pos hf]
        cases acc with
        | none => exact ⟨e0.distance, rfl, le_refl _⟩
        | some mm =>
          dsimp only
          by_cases hlt : e0.distance < mm
          · rw [if_pos hlt]
            exact ⟨e0.distance, rfl, le_refl _⟩
          · rw [if_neg hlt]
            exact ⟨mm, rfl, le_of_not_lt hlt⟩
      · exact ih _ (Or.inl ht)
    · exact ih _ (Or.inr (hstep acc hP))

/-- Contribution of a node with a known minimum. -/
theorem minOutContrib_some (g : RouteGraph) (v : String) (m : ℚ)
    (h : minOutEdge g v = some m) : minOutContrib g v = m := by
  unfold minOutContrib
  rw [h]

/-- Contribution of a node with no outgoing edge. -/
theorem minOutContrib_none (g : RouteGraph) (v : String)
    (h : minOutEdge g v = none) : minOutContrib g v = 0 := by
  unfold minOutContrib
  rw [h]

/-- Contributions are nonnegative on graphs with nonnegative edges. -/
theorem minOutContrib_nonneg (g : RouteGraph)
    (hwf : ∀ e ∈ g.edges, 0 ≤ e.distance) (v : String) :
    0 ≤ minOutContrib g v := by
  cases hm : minOutEdge g v with
  | none =>
    rw [minOutContrib_none g v hm]
  | some m =>
    rw [minOutContrib_some g v m hm]
    obtain ⟨e, he, _, hd⟩ := minOutEdge_sound g v m hm
    rw [← hd]
    exact hwf e he

/-- `calculateBound` as a sum of per-node contributions over the
unvisited nodes. -/
theorem calculateBound_eq_sum (g : RouteGraph) (visited : List String) :
    calculateBound g visited
      = ((g.nodes.filter (fun x => ! visited.contains x)).map
          (minOutContrib g)).sum := by
  unfold calculateBound
  suffices h : ∀ (l : List String) (acc : ℚ),
      l.foldl
        (fun bound node =>
          if ¬ visited.contains node then
            match minOutEdge g node with
            | some m => bound + m
            | none => bound
          else bound) acc
        = acc + ((l.filter (fun x => ! visited.contains x)).map
            (minOutContrib g)).sum by
    rw [h g.nodes 0, zero_add]
  intro l
  induction l with
  | nil => intro acc; simp
  | cons x t ih =>
    intro acc
    rw [List.foldl_cons, List.filter_cons]
    by_cases hx : visited.contains x = true
    · rw [if_neg (fun hc => hc hx), if_neg (by rw [hx]; simp)]
      exact ih acc
    · have hxf : visited.contains x = false := by
        cases hc : visited.contains x
        · rfl
        · exact absurd hc hx
      rw [if_pos hx, if_pos (by rw [hxf]; rfl)]
      rw [List.map_cons, List.sum_cons]
      cases hm : minOutEdge g x with
      | none =>
        dsimp only
        rw [ih acc, minOutContrib_none g x hm, zero_add]
      | some m =>
        dsimp only
        rw [ih (acc + m), minOutContrib_some g x m hm, add_assoc]

/-- The bound only depends on the membership test of the visited list. -/
theorem calculateBound_ext (g : RouteGraph) (v v' : List String)
    (h : ∀ x, v.contains x = v'.contains x) :
    calculateBound g v = calculateBound g v' := by
  rw [calculateBound_eq_sum, calculateBound_eq_sum]
  have hf : g.nodes.filter (fun x => ! v.contains x)
      = g.nodes.filter (fun x => ! v'.contains x) :=
    List.filter_congr (fun x _ => by rw [h x])
  rw [hf]

/-- Splitting a path's distance at an interior position (the boundary
node is shared by the two halves). -/
theorem pathDistance_take_drop (g : RouteGraph) :
    ∀ (k : ℕ) (l : List String) (d : ℚ), k + 1 ≤ l.length →
      pathDistance? g l = some d →
      ∃ d1 d2, pathDistance? g (l.take (k + 1)) = some d1 ∧
        pathDistance? g (l.drop k) = some d2 ∧ d = d1 + d2 := by
  intro k
  induction k with
  | zero =>
    intro l d hk hd
    cases l with
    | nil => rw [List.length_nil] at hk; omega
    | cons x rest =>
      refine ⟨0, d, rfl, hd, ?_⟩
      rw [zero_add]
  | succ k ih =>
    intro l d hk hd
    cases l with
    | nil => rw [List.length_nil] at hk; omega
    | cons x rest =>
      cases rest with
      | nil =>
        rw [List.length_singleton] at hk
        omega
      | cons y u =>
        rw [pathDistance_cons_cons] at hd
        cases hfe : findEdge g x y with
        | none => rw [hfe] at hd; dsimp only at hd; cases hd
        | some e =>
          rw [hfe] at hd
          cases hrest : pathDistance? g (y :: u) with
          | none => rw [hrest] at hd; dsimp only at hd; cases hd
          | some dr =>
            rw [hrest] at hd
            dsimp only at hd
            injection hd with hd'
            obtain ⟨d1, d2, h1, h2, h3⟩ := ih (y :: u) dr
              (by
                rw [List.length_cons, List.length_cons] at hk
                rw [List.length_cons]
                omega)
              hrest
            refine ⟨e.distance + d1, d2, ?_, ?_, ?_⟩
            · rw [List.take_succ_cons]
              rw [List.take_succ_cons] at h1
              rw [List.take_succ_cons]
              rw [pathDistance_cons_cons, hfe, h1]
            · rw [List.drop_succ_cons]
              exact h2
            · rw [← hd', h3, add_assoc]

/-- Along any chain, the summed minimum-out contributions of all nodes
but the last are bounded by the chain's distance. -/
theorem chain_contrib_le (g : RouteGraph) :
    ∀ (l : List String) (d : ℚ), pathDistance? g l = some d →
      (l.dropLast.map (minOutContrib g)).sum ≤ d := by
  intro l
  induction l with
  | nil =>
    intro d hd
    have h0 : (some (0 : ℚ)) = some d := hd
    injection h0 with h
    rw [← h]
    simp
  | cons a t ih =>
    intro d hd
    cases t with
    | nil =>
      have h0 : (some (0 : ℚ)) = some d := hd
      injection h0 with h
      rw [← h]
      simp
    | cons b u =>
      rw [pathDistance_cons_cons] at hd
      cases hfe : findEdge g a b with
      | none => rw [hfe] at hd; dsimp only at hd; cases hd
      | some e =>
        rw [hfe] at hd
        cases hrest : pathDistance? g (b :: u) with
        | none => rw [hrest] at hd; dsimp only at hd; cases hd
        | some dr =>
          rw [hrest] at hd
          dsimp only at hd
          injection hd with hd'
          rw [show ((a :: b :: u).dropLast : List String)
            = a :: (b :: u).dropLast from rfl]
          rw [List.map_cons, List.sum_cons]
          have h1 : minOutContrib g a ≤ e.distance := by
            obtain ⟨hme, hfrom, _⟩ := findEdge_sound g a b e hfe
            obtain ⟨m, hm, hle⟩ := minOutEdge_le g a e hme hfrom
            rw [minOutContrib_some g a m hm]
            exact hle
          have h2 := ih dr hrest
          rw [← hd']
          exact add_le_add h1 h2

/-- Admissibility of `calculateBound`: along any closed tour, the cost of
a visited prefix plus the bound of its visited set never exceeds the
tour's total distance. -/
theorem bb_admissible (g : RouteGraph) (start : String) (p : List String)
    (hnodup : g.nodes.Nodup) (hwfd : ∀ e ∈ g.edges, 0 ≤ e.distance)
    (hperm : (start :: p).Perm g.nodes) (costT : ℚ)
    (hpdT : pathDistance? g ((start :: p) ++ [start]) = some costT)
    (ℓ : ℕ) (h1 : 1 ≤ ℓ) (hln : ℓ ≤ (start :: p).length)
    (dpre : ℚ) (hdpre : pathDistance? g ((start :: p).take ℓ) = some dpre) :
    dpre + calculateBound g ((start :: p).take ℓ).reverse ≤ costT := by
  have htnodup : (start :: p).Nodup := hperm.nodup_iff.mpr hnodup
  obtain ⟨d1, d2, hd1, hd2, hsum⟩ := pathDistance_take_drop g (ℓ - 1)
    ((start :: p) ++ [start]) costT
    (by
      rw [List.length_append, List.length_singleton]
      omega)
    hpdT
  have hsucc : ℓ - 1 + 1 = ℓ := Nat.succ_pred_eq_of_pos h1
  rw [hsucc, List.take_append_of_le_length hln] at hd1
  rw [hdpre] at hd1
  injection hd1 with hd1'
  have hboundle : calculateBound g (((start :: p).take ℓ).reverse) ≤ d2 := by
    rw [calculateBound_eq_sum]
    -- the unvisited nodes are exactly the dropped part of the tour
    have hpermu : (g.nodes.filter
        (fun x => ! (((start :: p).take ℓ).reverse.contains x))).Perm
          ((start :: p).drop ℓ) := by
      apply (List.perm_ext_iff_of_nodup (hnodup.filter _)
        ((List.drop_sublist ℓ (start :: p)).nodup htnodup)).mpr
      intro x
      rw [List.mem_filter]
      constructor
      · intro ⟨hxn, hxf⟩
        have hxt : (start :: p).take ℓ ++ (start :: p).drop ℓ = start :: p :=
          List.take_append_drop ℓ (start :: p)
        have hxm : x ∈ start :: p := hperm.mem_iff.mpr hxn
        rw [← hxt, List.mem_append] at hxm
        rcases hxm with hx1 | hx2
        · exfalso
          have : (((start :: p).take ℓ).reverse.contains x) = true :=
            contains_true_iff _ x |>.mpr (List.mem_reverse.mpr hx1)
          rw [this] at hxf
          cases hxf
        · exact hx2
      · intro hx
        refine ⟨?_, ?_⟩
        · exact hperm.mem_iff.mp
            ((List.drop_sublist ℓ (start :: p)).subset hx)
        · have hnottake : x ∉ (start :: p).take ℓ := by
            intro hxt
            exact (List.disjoint_take_drop htnodup (le_refl ℓ)) hxt hx
          cases hc : ((start :: p).take ℓ).reverse.contains x
          · rfl
          · exfalso
            exact hnottake (List.mem_reverse.mp
              ((contains_true_iff _ x).mp hc))
    rw [(hpermu.map (minOutContrib g)).sum_eq]
    -- bound the dropped-part sum by the suffix distance
    have hdropsplit : ((start :: p) ++ [start]).drop (ℓ - 1)
        = (start :: p)[ℓ - 1] :: ((start :: p).drop ℓ ++ [start]) := by
      rw [List.drop_append_of_le_length (by omega)]
      rw [List.drop_eq_getElem_cons (by omega : ℓ - 1 < (start :: p).length)]
      have hdd : List.drop (ℓ - 1 + 1) (start :: p)
          = List.drop ℓ (start :: p) := by
        rw [hsucc]
      rw [hdd]
      rfl
    rw [hdropsplit] at hd2
    have hchain := chain_contrib_le g _ d2 hd2
    rw [show (((start :: p)[ℓ - 1] :: ((start :: p).drop ℓ ++ [start])).dropLast)
        = (start :: p)[ℓ - 1] :: (start :: p).drop ℓ from by
      rw [show ((start :: p)[ℓ - 1] :: ((start :: p).drop ℓ ++ [start]))
          = ((start :: p)[ℓ - 1] :: (start :: p).drop ℓ) ++ [start] from rfl]
      rw [List.dropLast_concat]] at hchain
    rw [List.map_cons, List.sum_cons] at hchain
    have hc0 : 0 ≤ minOutContrib g ((start :: p)[ℓ - 1]) :=
      minOutContrib_nonneg g hwfd _
    linarith
  rw [hsum, hd1']
  linarith

/-- Inserting into the sorted queue permutes consing. -/
theorem bbInsert_perm (s : BBState) : ∀ l : List BBState,
    (bbInsert s l).Perm (s :: l) := by
  intro l
  induction l with
  | nil => exact List.Perm.refl _
  | cons t rest ih =>
    unfold bbInsert
    by_cases hc : s.cost + s.bound < t.cost + t.bound
    · rw [if_pos hc]
    · rw [if_neg hc]
      exact (ih.cons t).trans (List.Perm.swap s t rest)

/-- Sorting the queue is a permutation. -/
theorem bbSort_perm : ∀ l : List BBState, (bbSort l).Perm l := by
  intro l
  induction l with
  | nil => exact List.Perm.refl _
  | cons s rest ih =>
    unfold bbSort
    exact (bbInsert_perm s (bbSort rest)).trans (ih.cons s)

/-- Reading a true `geInf` comparison. -/
theorem geInf_true_elim (x : ℚ) (best : Option BBState)
    (h : geInf x (best.map (fun b => b.cost)) = true) :
    ∃ bs, best = some bs ∧ bs.cost ≤ x := by
  cases best with
  | none => cases h
  | some bs =>
    refine ⟨bs, rfl, ?_⟩
    unfold geInf at h
    dsimp only [Option.map] at h
    exact of_decide_eq_true h

/-- Reading a true `ltInf` comparison. -/
theorem ltInf_true_elim (x : ℚ) (bs : BBState)
    (h : ltInf x ((some bs).map (fun b => b.cost)) = true) : x < bs.cost := by
  unfold ltInf at h
  dsimp only [Option.map] at h
  exact of_decide_eq_true h

/-- Reading a false `ltInf` comparison. -/
theorem ltInf_false_elim (x : ℚ) (bs : BBState)
    (h : ltInf x ((some bs).map (fun b => b.cost)) = false) : bs.cost ≤ x := by
  unfold ltInf at h
  dsimp only [Option.map] at h
  exact le_of_not_lt (of_decide_eq_false h)

/-- Every good path fits inside the universe of possible entries. -/
theorem goodState_length_le (g : RouteGraph) (start : String) (s : BBState)
    (h : GoodState g start s) : s.path.length ≤ bbD g start := by
  obtain ⟨_, hnd, _, huniv, _, _, _⟩ := h
  unfold bbD
  rw [← List.toFinset_card_of_nodup hnd]
  apply Finset.card_le_card
  intro x hx
  rw [List.mem_toFinset] at hx
  rw [List.mem_toFinset]
  rcases huniv x hx with h1 | h1
  · rw [h1]
    exact List.mem_cons_self _ _
  · exact List.mem_cons_of_mem _ h1

/-- The measure of a permuted queue. -/
theorem bbMeasure_perm (g : RouteGraph) (start : String)
    {q q' : List BBState} (h : q.Perm q') :
    bbMeasure g start q = bbMeasure g start q' :=
  (h.map _).sum_eq

/-- The measure of a cons. -/
theorem bbMeasure_cons (g : RouteGraph) (start : String) (s : BBState)
    (q : List BBState) :
    bbMeasure g start (s :: q)
      = (g.edges.length + 2) ^ (bbD g start + 1 - s.path.length)
        + bbMeasure g start q := by
  unfold bbMeasure
  rw [List.map_cons, List.sum_cons]

/-- The measure of an append. -/
theorem bbMeasure_append (g : RouteGraph) (start : String)
    (q q' : List BBState) :
    bbMeasure g start (q ++ q')
      = bbMeasure g start q + bbMeasure g start q' := by
  unfold bbMeasure
  rw [List.map_append, List.sum_append]

/-- Every state produced by an expansion is good, one node longer, and
guarded by the incumbent. -/
theorem bbExpand_sound (g : RouteGraph) (start : String)
    (hwfe : ∀ e ∈ g.edges, e.from_ ∈ g.nodes ∧ e.to_ ∈ g.nodes)
    (hu : EdgesUnique g) (best : Option BBState) (cur : BBState)
    (hcur : GoodState g start cur) :
    ∀ c ∈ bbExpand g best cur,
      GoodState g start c ∧ c.path.length = cur.path.length + 1 := by
  intro c hc
  obtain ⟨hhead, hnd, hmem, huniv, hvis, hcost, hbound⟩ := hcur
  obtain ⟨e, he, hfe⟩ := List.mem_filterMap.mp hc
  by_cases hcond : e.from_ = cur.path.getLastD "" ∧
      ¬ cur.visited.contains e.to_ = true
  swap
  · rw [if_neg hcond] at hfe
    cases hfe
  rw [if_pos hcond] at hfe
  obtain ⟨hfrom, hnotvis⟩ := hcond
  dsimp only at hfe
  by_cases hguard : ltInf (cur.cost + e.distance
      + calculateBound g (e.to_ :: cur.visited))
      (best.map (fun b => b.cost)) = true
  swap
  · rw [if_neg hguard] at hfe
    cases hfe
  rw [if_pos hguard] at hfe
  injection hfe with hfe'
  -- path is nonempty, with a definite last element
  cases hpath : cur.path with
  | nil => rw [hpath] at hhead; cases hhead
  | cons a t =>
    have hlast : ∃ la, cur.path.getLast? = some la := by
      rw [hpath, List.getLast?_eq_getElem?]
      rw [List.getElem?_eq_getElem (by rw [List.length_cons]; omega)]
      exact ⟨_, rfl⟩
    obtain ⟨la, hla⟩ := hlast
    have hlaD : cur.path.getLastD "" = la := by
      rw [List.getLastD_eq_getLast?, hla]
      rfl
    have hto_notin : e.to_ ∉ cur.path := by
      intro hin
      apply hnotvis
      rw [hvis]
      exact (contains_true_iff _ _).mpr (List.mem_reverse.mpr hin)
    have hfe2 : findEdge g la e.to_ = some e := by
      have hh := findEdge_eq_of_mem g hu he
      rw [hfrom, hlaD] at hh
      exact hh
    rw [← hfe']
    refine ⟨⟨?_, ?_, ?_, ?_, ?_, ?_, ?_⟩, ?_⟩
    · dsimp only
      rw [List.head?_append, hpath, List.head?_cons]
      rw [hpath, List.head?_cons] at hhead
      exact hhead
    · dsimp only
      rw [List.nodup_append_comm]
      show (e.to_ :: cur.path).Nodup
      rw [List.nodup_cons]
      exact ⟨hto_notin, hnd⟩
    · dsimp only
      intro x hx
      rcases List.mem_append.mp hx with h1 | h1
      · exact hmem x h1
      · rw [List.mem_singleton] at h1
        rw [h1]
        exact (hwfe e he).2
    · dsimp only
      intro x hx
      rcases List.mem_append.mp hx with h1 | h1
      · exact huniv x h1
      · rw [List.mem_singleton] at h1
        right
        rw [h1]
        exact List.mem_map.mpr ⟨e, he, rfl⟩
    · dsimp only
      rw [hvis, List.reverse_append]
      rfl
    · dsimp only
      exact pathDistance_append_one g cur.path la e.to_ cur.cost e hla hcost
        hfe2
    · dsimp only
    · dsimp only
      rw [List.length_append, List.length_singleton, hpath]

/-- The last entry of a nonempty take. -/
theorem getLast?_take (l : List String) (ℓ : ℕ) (h1 : 1 ≤ ℓ)
    (hl : ℓ ≤ l.length) :
    (l.take ℓ).getLast? = l[ℓ - 1]? := by
  rw [List.getLast?_eq_getElem?, List.length_take]
  rw [show ℓ ⊓ l.length = ℓ from min_eq_left hl]
  rw [List.getElem?_eq_getElem
    (show ℓ - 1 < (l.take ℓ).length by rw [List.length_take]; omega)]
  rw [List.getElem?_eq_getElem (show ℓ - 1 < l.length by omega)]
  congr 1
  exact List.getElem_take l

/-- Closing a complete good state preserves the incumbent invariant. -/
theorem bbClose_bestInv (g : RouteGraph) (start : String)
    (best : Option BBState) (cur : BBState)
    (hbi : BestInv g start best) (hcur : GoodState g start cur)
    (hfull : cur.visited.length = g.nodes.length) :
    BestInv g start (bbClose g start best cur) := by
  obtain ⟨hhead, hnd, hmem, huniv, hvis, hcost, hbound⟩ := hcur
  have hne : cur.path ≠ [] := by
    intro he
    rw [he] at hhead
    cases hhead
  obtain ⟨la, hla⟩ := Option.isSome_iff_exists.mp (List.getLast?_isSome.mpr hne)
  have hlaD : cur.path.getLastD "" = la := by
    rw [List.getLastD_eq_getLast?, hla]
    rfl
  have hlen : cur.path.length = g.nodes.length := by
    rw [hvis, List.length_reverse] at hfull
    exact hfull
  unfold bbClose
  rw [hlaD]
  cases hfe : findEdge g la start with
  | none => exact hbi
  | some e =>
    dsimp only
    by_cases hlt : ltInf (cur.cost + e.distance)
        (best.map (fun b => b.cost)) = true
    · rw [if_pos hlt]
      intro bs hbs
      injection hbs with hbs'
      rw [← hbs']
      have hperm' : cur.path.Perm g.nodes :=
        perm_of_nodup_subset_length hnd (fun x hx => hmem x hx) (le_of_eq hlen.symm)
      refine ⟨⟨?_, ?_, ?_⟩, ?_⟩
      · dsimp only
        rw [List.head?_append]
        cases hpath : cur.path with
        | nil => exact absurd hpath hne
        | cons a t =>
          rw [List.head?_cons]
          rw [hpath, List.head?_cons] at hhead
          exact hhead
      · dsimp only
        rw [List.getLast?_append]
        rfl
      · dsimp only
        rw [List.dropLast_concat]
        exact hperm'
      · dsimp only
        exact pathDistance_append_one g cur.path la start cur.cost e hla hcost
          hfe
    · rw [if_neg hlt]
      exact hbi

/-- Closing the full tour prefix leaves an incumbent no worse than the
tour. -/
theorem bbClose_top (g : RouteGraph) (start : String) (p : List String)
    (costT : ℚ) (hpdT : pathDistance? g ((start :: p) ++ [start]) = some costT)
    (best : Option BBState) (cur : BBState)
    (hcurp : cur.path = start :: p)
    (hcost : pathDistance? g cur.path = some cur.cost) :
    ∃ bs, bbClose g start best cur = some bs ∧ bs.cost ≤ costT := by
  obtain ⟨a0, dInt, e, ha0, hdInt, hfe, hdtot⟩ :=
    pathDistance_append_one_inv g (start :: p) start costT (by simp) hpdT
  rw [hcurp, hdInt] at hcost
  injection hcost with hcc
  have hlaD : cur.path.getLastD "" = a0 := by
    rw [List.getLastD_eq_getLast?, hcurp, ha0]
    rfl
  unfold bbClose
  rw [hlaD, hfe]
  dsimp only
  by_cases hlt : ltInf (cur.cost + e.distance)
      (best.map (fun b => b.cost)) = true
  · rw [if_pos hlt]
    refine ⟨_, rfl, ?_⟩
    dsimp only
    rw [hdtot, hcc]
  · rw [if_neg hlt]
    cases best with
    | none => exact absurd rfl hlt
    | some bs =>
      refine ⟨bs, rfl, ?_⟩
      have hf : ltInf (cur.cost + e.distance)
          ((some bs).map (fun b => b.cost)) = false := by
        cases h : ltInf (cur.cost + e.distance)
            ((some bs).map (fun b => b.cost))
        · rfl
        · exact absurd h hlt
      have hge := ltInf_false_elim (cur.cost + e.distance) bs hf
      rw [hdtot, hcc]
      exact hge

/-- A recorded incumbent below the bound survives a close step. -/
theorem bbClose_keep (g : RouteGraph) (start : String) (costT : ℚ)
    (best : Option BBState) (cur bs : BBState)
    (hbs : best = some bs) (hle : bs.cost ≤ costT) :
    ∃ bsn, bbClose g start best cur = some bsn ∧ bsn.cost ≤ costT := by
  subst hbs
  unfold bbClose
  cases hfe : findEdge g (cur.path.getLastD "") start with
  | none => exact ⟨bs, rfl, hle⟩
  | some e =>
    dsimp only
    by_cases hlt : ltInf (cur.cost + e.distance)
        ((some bs).map (fun b => b.cost)) = true
    · rw [if_pos hlt]
      refine ⟨_, rfl, ?_⟩
      dsimp only
      have := ltInf_true_elim (cur.cost + e.distance) bs hlt
      linarith
    · rw [if_neg hlt]
      exact ⟨bs, rfl, hle⟩

/-- When the current good state is a proper prefix of the tracked tour,
its expansion contains the next prefix with a sound bound — unless the
incumbent already beats the tour. -/
theorem bbExpand_next (g : RouteGraph) (start : String) (p : List String)
    (hnodup : g.nodes.Nodup) (hwfd : ∀ e ∈ g.edges, 0 ≤ e.distance)
    (hperm : (start :: p).Perm g.nodes)
    (costT : ℚ) (hpdT : pathDistance? g ((start :: p) ++ [start]) = some costT)
    (best : Option BBState) (cur : BBState)
    (hcost : pathDistance? g cur.path = some cur.cost)
    (hvis : cur.visited = cur.path.reverse)
    (hprefix0 : cur.path = (start :: p).take cur.path.length)
    (h10 : 1 ≤ cur.path.length)
    (hlt0 : cur.path.length < (start :: p).length) :
    (∃ c ∈ bbExpand g best cur,
        c.path = (start :: p).take c.path.length ∧
        c.cost + c.bound ≤ costT) ∨
      (∃ bs, best = some bs ∧ bs.cost ≤ costT) := by
  obtain ⟨ℓ, hℓ⟩ : ∃ ℓ, cur.path.length = ℓ := ⟨_, rfl⟩
  rw [hℓ] at hprefix0 h10 hlt0
  have hTnodup : (start :: p).Nodup := hperm.nodup_iff.mpr hnodup
  have hgl : (start :: p)[ℓ - 1]? = some ((start :: p)[ℓ - 1]) :=
    List.getElem?_eq_getElem (show ℓ - 1 < (start :: p).length by omega)
  have hlast0 : cur.path.getLast? = (start :: p)[ℓ - 1]? := by
    rw [hprefix0]
    exact getLast?_take _ ℓ h10 (le_of_lt hlt0)
  have hlast : cur.path.getLast? = some ((start :: p)[ℓ - 1]) :=
    hlast0.trans hgl
  have hlaD : cur.path.getLastD "" = (start :: p)[ℓ - 1] := by
    rw [List.getLastD_eq_getLast?, hlast]
    rfl
  obtain ⟨d1, d2, hd1, hd2, hsum⟩ := pathDistance_take_drop g (ℓ - 1)
    ((start :: p) ++ [start]) costT
    (by rw [List.length_append, List.length_singleton]; omega) hpdT
  have hsucc : ℓ - 1 + 1 = ℓ := Nat.succ_pred_eq_of_pos h10
  rw [hsucc, List.take_append_of_le_length (le_of_lt hlt0), ← hprefix0,
    hcost] at hd1
  injection hd1 with hd1e
  have hdrop : ((start :: p) ++ [start]).drop (ℓ - 1)
      = (start :: p)[ℓ - 1] :: ((start :: p)[ℓ]
        :: ((start :: p).drop (ℓ + 1) ++ [start])) := by
    rw [List.drop_append_of_le_length (by omega)]
    rw [List.drop_eq_getElem_cons (show ℓ - 1 < (start :: p).length by omega)]
    have hdd : List.drop (ℓ - 1 + 1) (start :: p)
        = List.drop ℓ (start :: p) := by
      rw [hsucc]
    rw [hdd, List.drop_eq_getElem_cons hlt0]
    rfl
  rw [hdrop, pathDistance_cons_cons] at hd2
  cases hfe : findEdge g ((start :: p)[ℓ - 1]) ((start :: p)[ℓ]) with
  | none => rw [hfe] at hd2; dsimp only at hd2; cases hd2
  | some e =>
    rw [hfe] at hd2
    cases hrest : pathDistance? g ((start :: p)[ℓ]
        :: ((start :: p).drop (ℓ + 1) ++ [start])) with
    | none => rw [hrest] at hd2; dsimp only at hd2; cases hd2
    | some d2tail =>
      rw [hrest] at hd2
      dsimp only at hd2
      injection hd2 with hd2e
      obtain ⟨hemem, hefrom, heto⟩ := findEdge_sound g _ _ e hfe
      have hnewpath : cur.path ++ [e.to_] = (start :: p).take (ℓ + 1) := by
        rw [List.take_succ, ← hprefix0, heto,
          List.getElem?_eq_getElem hlt0]
        rfl
      have hnewcost : pathDistance? g (cur.path ++ [e.to_])
          = some (cur.cost + e.distance) :=
        pathDistance_append_one g cur.path _ e.to_ cur.cost e hlast hcost
          (by rw [heto]; exact hfe)
      have hadm := bb_admissible g start p hnodup hwfd hperm costT hpdT
        (ℓ + 1) (by omega) (by omega)
        (cur.cost + e.distance)
        (by rw [← hnewpath]; exact hnewcost)
      have hnv : e.to_ :: cur.visited
          = ((start :: p).take (ℓ + 1)).reverse := by
        rw [hvis, ← hnewpath, List.reverse_append]
        rfl
      have hadm2 : cur.cost + e.distance
          + calculateBound g (e.to_ :: cur.visited) ≤ costT := by
        rw [hnv]
        exact hadm
      have hnotvis : ¬ cur.visited.contains e.to_ = true := by
        intro hc
        have hymem : e.to_ ∈ cur.path := by
          rw [hvis] at hc
          exact List.mem_reverse.mp ((contains_true_iff _ _).mp hc)
        rw [hprefix0] at hymem
        have hydrop : e.to_ ∈ (start :: p).drop ℓ := by
          rw [heto, List.drop_eq_getElem_cons hlt0]
          exact List.mem_cons_self _ _
        exact (List.disjoint_take_drop hTnodup (le_refl ℓ)) hymem hydrop
      by_cases hguard : ltInf (cur.cost + e.distance
          + calculateBound g (e.to_ :: cur.visited))
          (best.map (fun b => b.cost)) = true
      · left
        refine ⟨⟨cur.path ++ [e.to_], cur.cost + e.distance,
          e.to_ :: cur.visited, calculateBound g (e.to_ :: cur.visited)⟩,
          ?_, ?_, ?_⟩
        · unfold bbExpand
          apply List.mem_filterMap.mpr
          refine ⟨e, hemem, ?_⟩
          rw [if_pos ⟨by rw [hefrom, hlaD], hnotvis⟩]
          dsimp only
          rw [if_pos hguard]
        · dsimp only
          rw [List.length_append, List.length_singleton, hℓ]
          exact hnewpath
        · dsimp only
          exact hadm2
      · right
        cases best with
        | none => exact absurd rfl hguard
        | some bs =>
          refine ⟨bs, rfl, ?_⟩
          have hf : ltInf (cur.cost + e.distance
              + calculateBound g (e.to_ :: cur.visited))
              ((some bs).map (fun b => b.cost)) = false := by
            cases h : ltInf (cur.cost + e.distance
                + calculateBound g (e.to_ :: cur.visited))
                ((some bs).map (fun b => b.cost))
            · rfl
            · exact absurd h hguard
          have hge := ltInf_false_elim _ bs hf
          linarith

/-- Sum of a constant-valued map. -/
theorem sum_map_const_of {α : Type} (l : List α) (f : α → ℕ) (k : ℕ)
    (h : ∀ x ∈ l, f x = k) : (l.map f).sum = l.length * k := by
  induction l with
  | nil => simp
  | cons a t ih =>
    rw [List.map_cons, List.sum_cons, List.length_cons,
      h a (List.mem_cons_self a t),
      ih (fun x hx => h x (List.mem_cons_of_mem a hx))]
    ring

/-- The main induction of the B&B loop: with enough fuel, a good queue, a
sound incumbent, and a tracked closed tour reachable from the queue (or
already beaten), the loop returns a closed tour no more expensive than
the tracked one. -/
theorem bbLoop_spec (g : RouteGraph) (start : String) (p : List String)
    (hnodup : g.nodes.Nodup)
    (hwfe : ∀ e ∈ g.edges, e.from_ ∈ g.nodes ∧ e.to_ ∈ g.nodes)
    (hwfd : ∀ e ∈ g.edges, 0 ≤ e.distance)
    (hu : EdgesUnique g)
    (hperm : (start :: p).Perm g.nodes)
    (costT : ℚ)
    (hpdT : pathDistance? g ((start :: p) ++ [start]) = some costT) :
    ∀ (fuel : ℕ) (queue : List BBState) (best : Option BBState),
      bbMeasure g start queue < fuel →
      (∀ s ∈ queue, GoodState g start s) →
      BestInv g start best →
      ((∃ s ∈ queue, s.path = (start :: p).take s.path.length ∧
          s.cost + s.bound ≤ costT) ∨
        (∃ bs, best = some bs ∧ bs.cost ≤ costT)) →
      ∃ bs, bbLoop g start fuel queue best = some bs ∧
        IsClosedTour g start bs.path ∧
        pathDistance? g bs.path = some bs.cost ∧ bs.cost ≤ costT := by
  intro fuel
  induction fuel with
  | zero => intro queue best hm _ _ _; exact absurd hm (Nat.not_lt_zero _)
  | succ fuel ih =>
    intro queue best hm hgood hbi hQ
    cases queue with
    | nil =>
      rcases hQ with ⟨s, hs, _⟩ | ⟨bs, hbs, hle⟩
      · cases hs
      · obtain ⟨hct, hpd⟩ := hbi bs hbs
        exact ⟨bs, hbs, hct, hpd, hle⟩
    | cons q0 qrest =>
      have hsp0 := bbSort_perm (q0 :: qrest)
      cases hsq : bbSort (q0 :: qrest) with
      | nil =>
        rw [hsq] at hsp0
        have hlen := hsp0.length_eq
        rw [List.length_nil, List.length_cons] at hlen
        omega
      | cons current rest =>
        rw [hsq] at hsp0
        have hmeq : bbMeasure g start (current :: rest)
            = bbMeasure g start (q0 :: qrest) := bbMeasure_perm g start hsp0
        have hgood' : ∀ s ∈ current :: rest, GoodState g start s :=
          fun s hs => hgood s (hsp0.mem_iff.mp hs)
        have hcg : GoodState g start current :=
          hgood' current (List.mem_cons_self _ _)
        have hrestgood : ∀ s ∈ rest, GoodState g start s :=
          fun s hs => hgood' s (List.mem_cons_of_mem _ hs)
        have hpow1 : 1 ≤ (g.edges.length + 2)
            ^ (bbD g start + 1 - current.path.length) :=
          Nat.one_le_pow _ _ (by omega)
        have hmc := bbMeasure_cons g start current rest
        have hmrest : bbMeasure g start rest < fuel := by
          rw [← hmeq, hmc] at hm
          omega
        have hstep : bbLoop g start (fuel + 1) (q0 :: qrest) best
            = match bbSort (q0 :: qrest) with
              | [] => best
              | current :: rest =>
                if geInf (current.cost + current.bound)
                    (best.map (fun b => b.cost)) then
                  bbLoop g start fuel rest best
                else if current.visited.length = g.nodes.length then
                  bbLoop g start fuel rest (bbClose g start best current)
                else
                  bbLoop g start fuel (rest ++ bbExpand g best current) best
            := rfl
        rw [hstep, hsq]
        dsimp only
        by_cases hprune : geInf (current.cost + current.bound)
            (best.map (fun b => b.cost)) = true
        · rw [if_pos hprune]
          obtain ⟨bs0, hbs0, hble⟩ := geInf_true_elim _ best hprune
          apply ih rest best hmrest hrestgood hbi
          rcases hQ with ⟨s, hs, hspre, hsb⟩ | hR
          · have hs' : s ∈ current :: rest := hsp0.mem_iff.mpr hs
            rcases List.mem_cons.mp hs' with he | hin
            · right
              refine ⟨bs0, hbs0, ?_⟩
              rw [he] at hsb
              linarith
            · left
              exact ⟨s, hin, hspre, hsb⟩
          · right
            exact hR
        · rw [if_neg hprune]
          by_cases hfull : current.visited.length = g.nodes.length
          · rw [if_pos hfull]
            apply ih rest (bbClose g start best current) hmrest hrestgood
              (bbClose_bestInv g start best current hbi hcg hfull)
            rcases hQ with ⟨s, hs, hspre, hsb⟩ | ⟨bs, hbs, hble⟩
            · have hs' : s ∈ current :: rest := hsp0.mem_iff.mpr hs
              rcases List.mem_cons.mp hs' with he | hin
              · right
                rw [he] at hspre
                obtain ⟨_, _, _, _, hvisc, hcostc, _⟩ := hcg
                have hlenfull : current.path.length = (start :: p).length := by
                  rw [hvisc, List.length_reverse] at hfull
                  rw [hfull, hperm.length_eq]
                have hfullpre : current.path = start :: p := by
                  rw [hlenfull, List.take_length] at hspre
                  exact hspre
                exact bbClose_top g start p costT hpdT best current hfullpre
                  hcostc
              · left
                exact ⟨s, hin, hspre, hsb⟩
            · right
              exact bbClose_keep g start costT best current bs hbs hble
          · rw [if_neg hfull]
            have hexp := bbExpand_sound g start hwfe hu best current hcg
            have hD : current.path.length ≤ bbD g start :=
              goodState_length_le g start current hcg
            have hmexp : bbMeasure g start (rest ++ bbExpand g best current)
                < fuel := by
              rw [bbMeasure_append]
              have hcnt : (bbExpand g best current).length ≤ g.edges.length := by
                unfold bbExpand
                exact List.length_filterMap_le _ _
              have hsum_exp : bbMeasure g start (bbExpand g best current)
                  = (bbExpand g best current).length
                    * (g.edges.length + 2)
                      ^ (bbD g start - current.path.length) := by
                unfold bbMeasure
                apply sum_map_const_of
                intro c hc
                rw [(hexp c hc).2]
                congr 1
                omega
              have hx1 : 1 ≤ (g.edges.length + 2)
                  ^ (bbD g start - current.path.length) :=
                Nat.one_le_pow _ _ (by omega)
              have hsplit : (g.edges.length + 2)
                  ^ (bbD g start + 1 - current.path.length)
                  = (g.edges.length + 2) ^ (bbD g start - current.path.length)
                    * g.edges.length
                    + (g.edges.length + 2)
                      ^ (bbD g start - current.path.length) * 2 := by
                rw [show bbD g start + 1 - current.path.length
                    = (bbD g start - current.path.length) + 1 from by omega]
                rw [pow_succ, mul_add]
              have hmul : (bbExpand g best current).length
                  * (g.edges.length + 2)
                    ^ (bbD g start - current.path.length)
                  ≤ (g.edges.length + 2)
                    ^ (bbD g start - current.path.length) * g.edges.length := by
                rw [mul_comm]
                exact Nat.mul_le_mul_left _ hcnt
              rw [← hmeq, hmc] at hm
              omega
            apply ih (rest ++ bbExpand g best current) best hmexp
              (by
                intro s hs
                rcases List.mem_append.mp hs with h1 | h1
                · exact hrestgood s h1
                · exact (hexp s h1).1)
              hbi
            rcases hQ with ⟨s, hs, hspre, hsb⟩ | hR
            · have hs' : s ∈ current :: rest := hsp0.mem_iff.mpr hs
              rcases List.mem_cons.mp hs' with he | hin
              · obtain ⟨hheadc, hndc, hmemc, _, hvisc, hcostc, _⟩ := hcg
                rw [he] at hspre hsb
                have hne : current.path ≠ [] := by
                  intro h0
                  rw [h0] at hheadc
                  cases hheadc
                have h1c : 1 ≤ current.path.length := by
                  cases hp : current.path with
                  | nil => exact absurd hp hne
                  | cons a t => rw [List.length_cons]; omega
                have hltn : current.path.length < (start :: p).length := by
                  have hle : current.path.length ≤ g.nodes.length :=
                    ((hndc.subperm (fun x hx => hmemc x hx)).length_le)
                  have hne2 : current.path.length ≠ g.nodes.length := by
                    intro he2
                    apply hfull
                    rw [hvisc, List.length_reverse]
                    exact he2
                  rw [hperm.length_eq]
                  omega
                rcases bbExpand_next g start p hnodup hwfd hperm costT hpdT
                  best current hcostc hvisc hspre h1c hltn with
                  ⟨c, hcmem, hcpre, hcb⟩ | hR2
                · left
                  exact ⟨c, List.mem_append.mpr (Or.inr hcmem), hcpre, hcb⟩
                · right
                  exact hR2
              · left
                exact ⟨s, List.mem_append.mpr (Or.inl hin), hspre, hsb⟩
            · right
              exact hR

/-- The branch-and-bound solver within its exact range: on a valid
instance with at most 10 nodes it returns a closed tour at most as
expensive as any given closed tour. -/
theorem branchAndBoundTSP_le (g : RouteGraph) (start : String)
    (h : ValidInstance g start) (hn10 : g.nodes.length ≤ 10)
    (path : List String) (hclosed : IsClosedTour g start path)
    (dtot : ℚ) (hpd : pathDistance? g path = some dtot) :
    IsClosedTour g start (branchAndBoundTSP g start) ∧
    ∃ dbb, pathDistance? g (branchAndBoundTSP g start) = some dbb ∧
      dbb ≤ dtot := by
  obtain ⟨⟨hnodup, hempty, hedges⟩, hu, hfc, hstart, hn2⟩ := h
  have hwfe : ∀ e ∈ g.edges, e.from_ ∈ g.nodes ∧ e.to_ ∈ g.nodes :=
    fun e he => ⟨(hedges e he).1, (hedges e he).2.1⟩
  have hwfd : ∀ e ∈ g.edges, 0 ≤ e.distance :=
    fun e he => (hedges e he).2.2.2
  obtain ⟨p, hpe, hperm⟩ := closedTour_decompose g start path hn2 hclosed
  rw [hpe] at hpd
  have hpdT : pathDistance? g ((start :: p) ++ [start]) = some dtot := hpd
  have hroot : GoodState g start
      ⟨[start], 0, [start], calculateBound g [start]⟩ := by
    refine ⟨rfl, List.nodup_singleton _, ?_, ?_, rfl, rfl, rfl⟩
    · intro x hx
      rw [List.mem_singleton] at hx
      rw [hx]
      exact hstart
    · intro x hx
      rw [List.mem_singleton] at hx
      left
      exact hx
  have hadm0 := bb_admissible g start p hnodup hwfd hperm dtot hpdT 1
    (le_refl 1) (by rw [List.length_cons]; omega) 0 rfl
  have hfuel_eq : bbFuel g start
      = (g.edges.length + 2) ^ (bbD g start) + 1 := rfl
  obtain ⟨bs, hbs, hct, hpdb, hble⟩ := bbLoop_spec g start p hnodup hwfe hwfd
    hu hperm dtot hpdT (bbFuel g start)
    [⟨[start], 0, [start], calculateBound g [start]⟩] none
    (by
      unfold bbMeasure
      rw [List.map_singleton, List.sum_singleton]
      rw [hfuel_eq]
      dsimp only
      rw [show bbD g start + 1 - ([start] : List String).length
          = bbD g start from by rw [List.length_singleton]; omega]
      omega)
    (by
      intro s hs
      rw [List.mem_singleton] at hs
      rw [hs]
      exact hroot)
    (fun bs hb => by cases hb)
    (Or.inl ⟨⟨[start], 0, [start], calculateBound g [start]⟩,
      List.mem_singleton.mpr rfl, rfl, by
        dsimp only
        exact hadm0⟩)
  have hres : branchAndBoundTSP g start = bs.path := by
    unfold branchAndBoundTSP
    rw [if_neg (by omega)]
    dsimp only
    rw [hbs]
  rw [hres]
  exact ⟨hct, bs.cost, hpdb, hble⟩

/-- C1: for every solve request on a valid instance (at least 2 nodes,
consistent fully-connected graph), each of the four solvers returns a
closed tour — it begins and ends at the start id and its interior visits
every node of the graph exactly once. -/
theorem C1_all_solvers_closed (g : RouteGraph) (start : String)
    (h : ValidInstance g start) :
    IsClosedTour g start (nearestNeighborTSP g start) ∧
    IsClosedTour g start (bruteForceTSP g start) ∧
    IsClosedTour g start (dynamicProgrammingTSP g start) ∧
    IsClosedTour g start (branchAndBoundTSP g start) := by
  have hnn := nearestNeighborTSP_closed g start h
  refine ⟨hnn, ?_, dynamicProgrammingTSP_closed g start h, ?_⟩
  · by_cases h8 : (g.nodes.filter (fun x => x != start)).length ≤ 8
    · exact (bruteForceTSP_spec g start h h8).1
    · have heq : bruteForceTSP g start = nearestNeighborTSP g start := by
        unfold bruteForceTSP
        dsimp only
        rw [if_pos (by omega)]
      rw [heq]
      exact hnn
  · by_cases hn10 : g.nodes.length ≤ 10
    · obtain ⟨dnn, hdnn⟩ := closedTour_pathDistance_some g start h _ hnn
      exact (branchAndBoundTSP_le g start h hn10 _ hnn dnn hdnn).1
    · have heq : branchAndBoundTSP g start = dynamicProgrammingTSP g start := by
        unfold branchAndBoundTSP
        rw [if_pos (by omega)]
      rw [heq]
      exact dynamicProgrammingTSP_closed g start h

/-- Witness for C1 on the complete 3-node instance. -/
theorem C1_all_solvers_closed_witness :
    IsClosedTour gW3 "a" (nearestNeighborTSP gW3 "a") ∧
    IsClosedTour gW3 "a" (bruteForceTSP gW3 "a") ∧
    IsClosedTour gW3 "a" (dynamicProgrammingTSP gW3 "a") ∧
    IsClosedTour gW3 "a" (branchAndBoundTSP gW3 "a") :=
  C1_all_solvers_closed gW3 "a"
    (by unfold ValidInstance WellFormedGraph EdgesUnique FullyConnected; decide)

/-- C3: on every valid instance, the branch-and-bound solver's total tour
distance is at most the nearest-neighbor solver's on the same instance
(`none` models `Infinity`). -/
theorem C3_bb_le_nn (g : RouteGraph) (start : String)
    (h : ValidInstance g start) :
    optLE (pathDistance? g (branchAndBoundTSP g start))
      (pathDistance? g (nearestNeighborTSP g start)) := by
  have hnn := nearestNeighborTSP_closed g start h
  obtain ⟨dnn, hdnn⟩ := closedTour_pathDistance_some g start h _ hnn
  rw [hdnn]
  by_cases hn10 : g.nodes.length ≤ 10
  · obtain ⟨_, dbb, hdbb, hle⟩ := branchAndBoundTSP_le g start h hn10 _ hnn
      dnn hdnn
    rw [hdbb]
    exact hle
  · have heq : branchAndBoundTSP g start = dynamicProgrammingTSP g start := by
      unfold branchAndBoundTSP
      rw [if_pos (by omega)]
    rw [heq]
    by_cases hn12 : g.nodes.length ≤ 12
    · obtain ⟨mc, _, hdp, hmin⟩ := dynamicProgrammingTSP_valid g start h hn12
      rw [hdp]
      exact hmin _ hnn dnn hdnn
    · have heq2 : dynamicProgrammingTSP g start
          = nearestNeighborTSP g start := by
        unfold dynamicProgrammingTSP
        dsimp only
        rw [if_pos (by omega)]
      rw [heq2, hdnn]
      exact le_refl dnn

/-- Witness for C3 on the complete 3-node instance. -/
theorem C3_bb_le_nn_witness :
    optLE (pathDistance? gW3 (branchAndBoundTSP gW3 "a"))
      (pathDistance? gW3 (nearestNeighborTSP gW3 "a")) :=
  C3_bb_le_nn gW3 "a"
    (by unfold ValidInstance WellFormedGraph EdgesUnique FullyConnected; decide)

/-- Pushing a fresh selected id preserves the path invariant. -/
theorem BTPInv_push (start : String) (selected : List String)
    (acc : List String × List String) (y : String)
    (hy_sel : y ∈ selected) (hy_nv : y ∉ acc.2)
    (h : BTPInv start selected acc) :
    BTPInv start selected (acc.1 ++ [y], y :: acc.2) := by
  obtain ⟨intr, h1, h2, h3, h4, h5⟩ := h
  have hyp1 : y ∉ acc.1 := fun hc => hy_nv ((h4 y).mpr hc)
  have hyintr : y ∉ intr := by
    intro hc
    apply hyp1
    rw [h1]
    exact List.mem_cons_of_mem _ hc
  have hyne : y ≠ start := by
    intro he
    apply hyp1
    rw [h1, he]
    exact List.mem_cons_self _ _
  refine ⟨intr ++ [y], ?_, ?_, ?_, ?_, ?_⟩
  · show acc.1 ++ [y] = start :: (intr ++ [y])
    rw [h1]
    rfl
  · rw [List.nodup_append_comm]
    show (y :: intr).Nodup
    rw [List.nodup_cons]
    exact ⟨hyintr, h2⟩
  · intro hc
    rcases List.mem_append.mp hc with hc1 | hc1
    · exact h3 hc1
    · rw [List.mem_singleton] at hc1
      exact hyne hc1.symm
  · intro x
    show x ∈ y :: acc.2 ↔ x ∈ acc.1 ++ [y]
    rw [List.mem_cons, List.mem_append, List.mem_singleton, h4 x]
    constructor
    · rintro (he | hm)
      · right; exact he
      · left; exact hm
    · rintro (hm | he)
      · right; exact hm
      · left; exact he
  · intro x hx
    rcases List.mem_append.mp hx with hx1 | hx1
    · exact h5 x hx1
    · rw [List.mem_singleton] at hx1
      rw [hx1]
      exact ⟨hy_sel, hyne⟩

/-- The route-scanning loop preserves the path invariant. -/
theorem buildTSPPathScan_inv (start : String) (selected : List String)
    (locations : List Location) :
    ∀ (route : List String) (acc : List String × List String),
      BTPInv start selected acc →
      BTPInv start selected (buildTSPPathScan route selected locations acc) := by
  intro route
  induction route with
  | nil => intro acc h; exact h
  | cons r rs ih =>
    intro acc h
    unfold buildTSPPathScan
    rw [List.foldl_cons]
    apply ih
    cases hfind : locations.find?
        (fun loc => loc.name.toLower == r.toLower) with
    | none => exact h
    | some loc =>
      dsimp only
      by_cases hguard : ¬ acc.2.contains loc.id = true ∧
          selected.contains loc.id = true
      · rw [if_pos hguard]
        exact BTPInv_push start selected acc loc.id
          ((contains_true_iff _ _).mp hguard.2)
          (fun hc => hguard.1 ((contains_true_iff _ _).mpr hc)) h
      · rw [if_neg hguard]
        exact h

/-- The remaining-cities loop preserves the invariant, covers everything
it processes, and never loses visited ids. -/
theorem buildTSPPathRemaining_inv (start : String) (selected : List String) :
    ∀ (l : List String) (acc : List String × List String),
      (∀ c ∈ l, c ∈ selected) → BTPInv start selected acc →
      BTPInv start selected
          (l.foldl (fun acc cityId =>
            if ¬ acc.2.contains cityId then (acc.1 ++ [cityId], cityId :: acc.2)
            else acc) acc) ∧
        (∀ c ∈ l, c ∈ (l.foldl (fun acc cityId =>
            if ¬ acc.2.contains cityId then (acc.1 ++ [cityId], cityId :: acc.2)
            else acc) acc).2) ∧
        (∀ x ∈ acc.2, x ∈ (l.foldl (fun acc cityId =>
            if ¬ acc.2.contains cityId then (acc.1 ++ [cityId], cityId :: acc.2)
            else acc) acc).2) := by
  intro l
  induction l with
  | nil =>
    intro acc _ h
    exact ⟨h, fun c hc => absurd hc (List.not_mem_nil c), fun x hx => hx⟩
  | cons c t ih =>
    intro acc hl h
    rw [List.foldl_cons]
    by_cases hc : ¬ acc.2.contains c = true
    · rw [if_pos hc]
      have hpush := BTPInv_push start selected acc c
        (hl c (List.mem_cons_self c t))
        (fun hm => hc ((contains_true_iff _ _).mpr hm)) h
      obtain ⟨h1, h2, h3⟩ := ih (acc.1 ++ [c], c :: acc.2)
        (fun x hx => hl x (List.mem_cons_of_mem c hx)) hpush
      refine ⟨h1, ?_, ?_⟩
      · intro x hx
        rcases List.mem_cons.mp hx with he | hm
        · rw [he]
          exact h3 c (List.mem_cons_self _ _)
        · exact h2 x hm
      · intro x hx
        exact h3 x (List.mem_cons_of_mem c hx)
    · rw [if_neg hc]
      rw [not_not] at hc
      obtain ⟨h1, h2, h3⟩ := ih acc
        (fun x hx => hl x (List.mem_cons_of_mem c hx)) h
      refine ⟨h1, ?_, h3⟩
      intro x hx
      rcases List.mem_cons.mp hx with he | hm
      · rw [he]
        exact h3 c ((contains_true_iff _ _).mp hc)
      · exact h2 x hm

/-- C10 (amended): for every external route and request whose selected
set contains the start plus at least one other city, `buildTSPPath`
returns a path beginning and ending with the start whose interior
elements are exactly the selected ids other than the start, each
appearing exactly once — unknown names and duplicates in the route are
dropped, and selected cities missing from it are appended. -/
theorem C10_buildTSPPath_spec (route : List String) (params : SimulationParams)
    (locations : List Location)
    (_hsel : params.startLocation ∈ params.selectedCities)
    (hother : ∃ c ∈ params.selectedCities, c ≠ params.startLocation) :
    ∃ interior,
      buildTSPPath route params locations
        = params.startLocation :: (interior ++ [params.startLocation]) ∧
      interior.Nodup ∧
      (∀ x, x ∈ interior ↔
        (x ∈ params.selectedCities ∧ x ≠ params.startLocation)) := by
  have h0 : BTPInv params.startLocation params.selectedCities
      ([params.startLocation], [params.startLocation]) := by
    refine ⟨[], rfl, List.nodup_nil, List.not_mem_nil _, fun x => Iff.rfl, ?_⟩
    intro x hx
    cases hx
  have h1 := buildTSPPathScan_inv params.startLocation params.selectedCities
    locations route ([params.startLocation], [params.startLocation]) h0
  obtain ⟨h2, hcover, _⟩ := buildTSPPathRemaining_inv params.startLocation
    params.selectedCities params.selectedCities
    (buildTSPPathScan route params.selectedCities locations
      ([params.startLocation], [params.startLocation]))
    (fun c hc => hc) h1
  obtain ⟨intr, hi1, hi2, hi3, hi4, hi5⟩ := h2
  have hmem : ∀ x, x ∈ intr ↔
      (x ∈ params.selectedCities ∧ x ≠ params.startLocation) := by
    intro x
    constructor
    · exact hi5 x
    · intro ⟨hxs, hxne⟩
      have hx2 := hcover x hxs
      have hx1 := (hi4 x).mp hx2
      rw [hi1] at hx1
      rcases List.mem_cons.mp hx1 with he | hm
      · exact absurd he hxne
      · exact hm
  have hne : intr ≠ [] := by
    obtain ⟨c, hcs, hcne⟩ := hother
    intro he
    have := (hmem c).mpr ⟨hcs, hcne⟩
    rw [he] at this
    cases this
  refine ⟨intr, ?_, hi2, hmem⟩
  unfold buildTSPPath buildTSPPathRemaining
  dsimp only
  rw [hi1]
  rw [if_pos ?_]
  · rfl
  · rw [List.length_cons]
    cases hintr : intr with
    | nil => exact absurd hintr hne
    | cons a t =>
      rw [List.length_cons]
      omega

/-- Witness for C10 on a concrete request over three Karnataka cities. -/
theorem C10_buildTSPPath_spec_witness :
    ∃ interior,
      buildTSPPath [] pBuildW locsW
        = pBuildW.startLocation :: (interior ++ [pBuildW.startLocation]) ∧
      interior.Nodup ∧
      (∀ x, x ∈ interior ↔
        (x ∈ pBuildW.selectedCities ∧ x ≠ pBuildW.startLocation)) :=
  C10_buildTSPPath_spec [] pBuildW locsW (by decide)
    ⟨"k2", by decide, by decide⟩

/-- Counterexample to C10 as stated: with the start among the selected
cities, the interior of the returned tour never repeats the start id, so
the interior is not "exactly the selected city ids": the selected start
is missing from it. -/
theorem C10_counterexample :
    pBuildW.startLocation ∈ pBuildW.selectedCities ∧
    (∃ c ∈ pBuildW.selectedCities, c ≠ pBuildW.startLocation) ∧
    pBuildW.startLocation ∉ ((buildTSPPath [] pBuildW locsW).drop 1).dropLast := by
  decide

end RouteWise
